import Mathlib

/-!
# go-urchin2-sdk: shallow embedding and verified properties

The development embeds four parts of the repository:

* `cid/options/unixfs.go`: the functional options of the UnixFS importer and
  `UnixfsAddOptions`, which resolves the CID version and the CID prefix;
* `cid/tiny_add.go`, `cid/unixfs.go`, `cid/cid.go`, `utils/warp_path.go`: the
  coordinator of an import (`Adder`) walking a `files.Node` tree into an MFS root;
* `car/car.go`: packing a tree into an archive and restoring it, and the pipeline
  of the extraction;
* `ipfs_api/request.go`, `ipfs_api/dag.go`: the request of the HTTP API, its URL,
  its builder, the reader of a response body and the record loop of a DAG import.

Go errors are modelled by their message (`String`).  A Go function returning
`(value, error)` is modelled by `Except String value`, except where the source
returns several values at once, where the tuple is kept.
-/

set_option autoImplicit false

namespace Urchin

/-! ## cid/options/unixfs.go -/

namespace Options

/-- Multihash code of SHA2-256 (`mh.SHA2_256`). -/
def SHA2_256 : Nat := 0x12

/-- Multicodec code of dag-pb (`cid.DagProtobuf`). -/
def DagProtobuf : Nat := 0x70

/-- The `Layout` enumeration: `BalancedLayout` is 0, `TrickleLayout` is 1. -/
inductive Layout where
  | BalancedLayout
  | TrickleLayout
  deriving DecidableEq, Repr

/-- The struct `UnixfsAddSettings`.  `Events` is a channel in the source; only
whether it is nil matters, so it is modelled by an optional channel number. -/
structure UnixfsAddSettings where
  CidVersion : Int
  MhType : Nat
  Inline : Bool
  InlineLimit : Int
  RawLeaves : Bool
  RawLeavesSet : Bool
  Chunker : String
  Layout : Layout
  Events : Option Nat
  Silent : Bool
  deriving DecidableEq, Repr

/-- The struct `cid.Prefix` of go-cid. -/
structure Prefix where
  Version : Nat
  Codec : Nat
  MhType : Nat
  MhLength : Int
  deriving DecidableEq, Repr

/-- The zero value `cid.Prefix{}`. -/
def Prefix.zero : Prefix := ⟨0, 0, 0, 0⟩

/-- An option is a function that updates the settings in place and may fail:
`type UnixfsAddOption func(*UnixfsAddSettings) error`. -/
abbrev UnixfsAddOption := UnixfsAddSettings → Except String UnixfsAddSettings

/-- The option `Unixfs.CidVersion(version)`. -/
def Unixfs.CidVersion (version : Int) : UnixfsAddOption :=
  fun settings => .ok { settings with CidVersion := version }

/-- The option `Unixfs.Hash(mhtype)`. -/
def Unixfs.Hash (mhtype : Nat) : UnixfsAddOption :=
  fun settings => .ok { settings with MhType := mhtype }

/-- The option `Unixfs.RawLeaves(enable)`. -/
def Unixfs.RawLeaves (enable : Bool) : UnixfsAddOption :=
  fun settings => .ok { settings with RawLeaves := enable, RawLeavesSet := true }

/-- The option `Unixfs.Inline(enable)`. -/
def Unixfs.Inline (enable : Bool) : UnixfsAddOption :=
  fun settings => .ok { settings with Inline := enable }

/-- The option `Unixfs.InlineLimit(limit)`. -/
def Unixfs.InlineLimit (limit : Int) : UnixfsAddOption :=
  fun settings => .ok { settings with InlineLimit := limit }

/-- The option `Unixfs.Chunker(chunker)`. -/
def Unixfs.Chunker (chunker : String) : UnixfsAddOption :=
  fun settings => .ok { settings with Chunker := chunker }

/-- The option `Unixfs.Layout(layout)`. -/
def Unixfs.Layout (layout : Layout) : UnixfsAddOption :=
  fun settings => .ok { settings with Layout := layout }

/-- The option `Unixfs.Events(sink)`. -/
def Unixfs.Events (sink : Option Nat) : UnixfsAddOption :=
  fun settings => .ok { settings with Events := sink }

/-- The settings `UnixfsAddOptions` starts from (lines 46-58). -/
def defaultSettings : UnixfsAddSettings :=
  { CidVersion := -1
    MhType := SHA2_256
    Inline := false
    InlineLimit := 32
    RawLeaves := false
    RawLeavesSet := false
    Chunker := "size-262144"
    Layout := .BalancedLayout
    Events := none
    Silent := false }

/-- The loop `for _, opt := range opts` of `UnixfsAddOptions` (lines 60-65):
the options are applied from left to right and the first error ends the loop. -/
def applyOpts : UnixfsAddSettings → List UnixfsAddOption → Except String UnixfsAddSettings
  | options, [] => .ok options
  | options, opt :: opts =>
    match opt options with
    | .error err => .error err
    | .ok options' => applyOpts options' opts

/-- The function `merkledag.PrefixForCidVersion` of the boxo library, on which
`UnixfsAddOptions` depends: the prefix of version 0 and of version 1, an error
for every other version. -/
def PrefixForCidVersion (version : Int) : Except String Prefix :=
  if version = 0 then .ok ⟨0, DagProtobuf, SHA2_256, -1⟩
  else if version = 1 then .ok ⟨1, DagProtobuf, SHA2_256, -1⟩
  else .error ("unknown CID version: " ++ toString version)

/-- The version resolution of `UnixfsAddOptions` (lines 67-85): the check of the
hash function against the CID version, the defaulting of the version and of
`RawLeaves`.  It returns the updated settings or the error of lines 70 and 74. -/
def resolveVersion (options : UnixfsAddSettings) : Except String UnixfsAddSettings :=
  let r : Except String UnixfsAddSettings :=
    if options.MhType ≠ SHA2_256 then
      if options.CidVersion = 0 then
        .error "CIDv0 only supports sha2-256"
      else if options.CidVersion = 1 ∨ options.CidVersion = -1 then
        .ok { options with CidVersion := 1 }
      else
        .error ("unknown CID version: " ++ toString options.CidVersion)
    else
      if options.CidVersion < 0 then
        .ok { options with CidVersion := 0 }
      else
        .ok options
  match r with
  | .error err => .error err
  | .ok options =>
    if options.CidVersion > 0 ∧ ¬ options.RawLeavesSet then
      .ok { options with RawLeaves := true }
    else
      .ok options

/-- The function `UnixfsAddOptions`.  The source returns the triple
`(settings, prefix, err)`; a nil settings pointer is `none`, a nil error is
`none`.  The library lookup `dag.PrefixForCidVersion` is the parameter
`prefixFor`. -/
def UnixfsAddOptions (prefixFor : Int → Except String Prefix)
    (opts : List UnixfsAddOption) : Option UnixfsAddSettings × Prefix × Option String :=
  match applyOpts defaultSettings opts with
  | .error err => (none, Prefix.zero, some err)
  | .ok options =>
    match resolveVersion options with
    | .error err => (none, Prefix.zero, some err)
    | .ok options =>
      match prefixFor options.CidVersion with
      | .error err => (none, Prefix.zero, some err)
      | .ok pfx =>
        (some options, { pfx with MhType := options.MhType, MhLength := -1 }, none)

/-- The options of `UnixfsAddOptions` that the package offers, one constructor for
each method of `Unixfs` that returns a `UnixfsAddOption`. -/
inductive AddOpt where
  | CidVersion (version : Int)
  | Hash (mhtype : Nat)
  | RawLeaves (enable : Bool)
  | Inline (enable : Bool)
  | InlineLimit (limit : Int)
  | Chunker (chunker : String)
  | Layout (layout : Layout)
  | Events (sink : Option Nat)
  deriving DecidableEq, Repr

/-- The function that an option of the package is. -/
def AddOpt.toOption : AddOpt → UnixfsAddOption
  | .CidVersion version => Unixfs.CidVersion version
  | .Hash mhtype => Unixfs.Hash mhtype
  | .RawLeaves enable => Unixfs.RawLeaves enable
  | .Inline enable => Unixfs.Inline enable
  | .InlineLimit limit => Unixfs.InlineLimit limit
  | .Chunker chunker => Unixfs.Chunker chunker
  | .Layout layout => Unixfs.Layout layout
  | .Events sink => Unixfs.Events sink

/-- The value of the last `RawLeaves` option of a list of options, `none` when the
list holds no such option. -/
def lastRawLeaves : List AddOpt → Option Bool
  | [] => none
  | opt :: rest =>
    match lastRawLeaves rest with
    | some enable => some enable
    | none =>
      match opt with
      | .RawLeaves enable => some enable
      | _ => none

end Options

/-! ## The data of the importer

`files.Node` (the source tree handed to the importer), `ipld.Node` (the DAG
node the importer builds) and the MFS root (`mfs.Root`) are library types.
They are modelled by their content. -/

/-- A path is modelled by the list of its components: the empty string is
`[]`, and `gopath.Join(path, name)` with a one-component name is
`path ++ [name]`. -/
abbrev Path := List String

/-- The interface `files.Node`: the source tree.  A file is its reader, which
yields the bytes of the file or fails; a directory is the sequence of entries
its iterator yields, with the error `it.Err()` the iterator ends on; `other`
stands for any implementation that is none of the three. -/
inductive FNode where
  | file (content : Except String (List Nat))
  | symlink (target : String)
  | dir (entries : List (String × FNode)) (iterErr : Option String)
  | other

/-- The interface `ipld.Node`: a node of the DAG, given by its content.  A
file node stands for the DAG that the chunker and the layout build from the
bytes of the file; a directory node holds its named links in order. -/
inductive Node where
  | file (data : List Nat)
  | symlink (target : String)
  | dir (links : List (String × Node))

/-- The links of a directory node, also the content of an MFS directory. -/
abbrev Links := List (String × Node)

/-- The type `cid.Cid`.  Content addressing is idealised: the digest is
represented by the content it is computed from, so two identifiers are equal
exactly when prefix and content are equal. -/
structure Cid where
  pfx : Options.Prefix
  node : Node

/-- The method `Cid()` of a node built with the CID builder `pfx`. -/
def Node.Cid (pfx : Options.Prefix) (nd : Node) : Cid := ⟨pfx, nd⟩

/-- The struct `AddEvent` as `outputDagnode` fills it: `Name`, `Path` (the
path `/ipfs/<cid>`, given by the CID) and `Size`. -/
structure AddEvent where
  Name : Path
  Path : Cid
  Size : String

/-- What the importer takes from its surroundings: the package variable
`liveCacheSize`, the outcome of the k-th call of `FlushMemFree` (`none` when
the flush succeeds), the string form `Cid.String()` and the cumulative size
`Node.Size()`. -/
structure Env where
  liveCacheSize : Nat
  flushErr : Nat → Option String
  cidString : Cid → String
  nodeSize : Node → Nat

/-- The default value of the package variable: `uint64(256 << 10)`. -/
def liveCacheSize : Nat := 256 <<< 10

/-! ## The MFS directory tree (`boxo/mfs`)

A directory is the list of its links, kept in ascending name order, which is
the order `ListNames` reports and the order in which a directory node
serialises its links. -/

namespace Mfs

/-- The method `Directory.Child`: the child with the given name, if any. -/
def Child : Links → String → Option Node
  | [], _ => none
  | (n, c) :: rest, name => if n = name then some c else Child rest name

/-- The method `Directory.ListNames`: the names of the children. -/
def ListNames (links : Links) : List String := links.map Prod.fst

/-- A new link is put at its place in the name order (bytewise, as
`sort.Strings` compares). -/
def insertLink (name : String) (nd : Node) : Links → Links
  | [] => [(name, nd)]
  | (n, c) :: rest =>
    if name.data < n.data then (name, nd) :: (n, c) :: rest
    else (n, c) :: insertLink name nd rest

/-- The node of the child `name` is replaced. -/
def setChild (name : String) (nd : Node) : Links → Links
  | [] => []
  | (n, c) :: rest =>
    if n = name then (n, nd) :: rest else (n, c) :: setChild name nd rest

/-- The walk of `mfs.Mkdir` with `Mkparents: true` along the components of
the path: a missing directory is created, an existing directory is entered,
and a component that exists as a file is an error. `pre` holds the
components already passed. -/
def mkdirParts : List String → List String → Links → Except String Links
  | _, [], links => .ok links
  | _, [d], links =>
    match Child links d with
    | none => .ok (insertLink d (.dir []) links)
    | some (.dir _) => .ok links
    | some _ => .error "file already exists"
  | pre, d :: rest, links =>
    match Child links d with
    | none =>
      match mkdirParts (pre ++ [d]) rest [] with
      | .error err => .error err
      | .ok sub => .ok (insertLink d (.dir sub) links)
    | some (.dir sub) =>
      match mkdirParts (pre ++ [d]) rest sub with
      | .error err => .error err
      | .ok sub' => .ok (setChild d (.dir sub') links)
    | some _ => .error (String.intercalate "/" pre ++ " was not a directory")

/-- The function `mfs.Mkdir(root, path, MkdirOpts{Mkparents: true})`. -/
def Mkdir (path : Path) (root : Links) : Except String Links :=
  if path = [] then .error "no path given to Mkdir" else mkdirParts [] path root

/-- The function `mfs.PutNode(root, path, nd)`: the parent directory is looked
up and the node is added under the last component, which must be new. -/
def PutNode : Path → Node → Links → Except String Links
  | [], _, _ => .error "cannot create file with empty name"
  | [name], nd, links =>
    match Child links name with
    | some _ => .error "directory already has entry by that name"
    | none => .ok (insertLink name nd links)
  | d :: rest, nd, links =>
    match Child links d with
    | none => .error "file does not exist"
    | some (.dir sub) =>
      match PutNode rest nd sub with
      | .error err => .error err
      | .ok sub' => .ok (setChild d (.dir sub') links)
    | some _ => .error (d ++ " is not a directory")

end Mfs

/-! ## cid/tiny_add.go -/

/-- The struct `Adder`.  `Out` is the event channel: `none` when nil, else the
events sent so far.  `mroot` is nil until `mfsRoot` creates the root.
`flushes` counts the calls of `FlushMemFree` made so far; the source has no
such field, it records what the coordinator did to the MFS root. -/
structure Adder where
  Out : Option (List AddEvent)
  Trickle : Bool
  RawLeaves : Bool
  Silent : Bool
  NoCopy : Bool
  Chunker : String
  mroot : Option Links
  CidBuilder : Options.Prefix
  liveNodes : Nat
  flushes : Nat

/-- The function `NewAdder`. -/
def NewAdder : Adder :=
  { Out := none, Trickle := false, RawLeaves := false, Silent := false, NoCopy := false
    Chunker := "", mroot := none, CidBuilder := Options.Prefix.zero
    liveNodes := 0, flushes := 0 }

namespace Adder

/-- The method `mfsRoot`: the root, created empty on first use. -/
def mfsRoot (adder : Adder) : Adder × Links :=
  match adder.mroot with
  | some mr => (adder, mr)
  | none => ({ adder with mroot := some [] }, [])

/-- The method `SetMfsRoot`. -/
def SetMfsRoot (adder : Adder) (r : Links) : Adder := { adder with mroot := some r }

/-- The method `add`: the node built from the reader's data, or the reader's
error. -/
def add (_adder : Adder) (reader : Except String (List Nat)) : Except String Node :=
  match reader with
  | .error err => .error err
  | .ok data => .ok (.file data)

/-- The function `outputDagnode`: nothing is sent on a nil channel. -/
def outputDagnode (env : Env) (adder : Adder) (name : Path) (dn : Node) : Adder × Option String :=
  match adder.Out with
  | none => (adder, none)
  | some sent =>
    ({ adder with Out := some (sent ++ [⟨name, dn.Cid adder.CidBuilder, toString (env.nodeSize dn)⟩]) },
      none)

mutual
/-- The method `outputDirs`: a file emits nothing; a directory first handles
its children, then emits its own event. -/
def outputDirs (env : Env) : Node → Adder → Path → Adder × Option String
  | .dir links, adder, path =>
    match outputDirsLoop env links adder path with
    | (adder, some err) => (adder, some err)
    | (adder, none) => outputDagnode env adder path (.dir links)
  | .file _, adder, _ => (adder, none)
  | .symlink _, adder, _ => (adder, none)
/-- The loop of `outputDirs` over the names of a directory. -/
def outputDirsLoop (env : Env) : Links → Adder → Path → Adder × Option String
  | [], adder, _ => (adder, none)
  | (name, child) :: rest, adder, path =>
    match outputDirs env child adder (path ++ [name]) with
    | (adder, some err) => (adder, some err)
    | (adder, none) => outputDirsLoop env rest adder path
end

/-- The method `addNode`. -/
def addNode (env : Env) (adder : Adder) (node : Node) (path : Path) : Adder × Option String :=
  let path := if path = [] then [env.cidString (node.Cid adder.CidBuilder)] else path
  match adder.mfsRoot with
  | (adder, mr) =>
    let dir := path.dropLast
    match (if dir ≠ [] then Mfs.Mkdir dir mr else .ok mr) with
    | .error err => (adder, some err)
    | .ok mr =>
      match Mfs.PutNode path node mr with
      | .error err => ({ adder with mroot := some mr }, some err)
      | .ok mr => ({ adder with mroot := some mr }, none)

/-- The method `addSymlink`. -/
def addSymlink (env : Env) (adder : Adder) (path : Path) (target : String) : Adder × Option String :=
  adder.addNode env (.symlink target) path

/-- The method `addFile`. -/
def addFile (env : Env) (adder : Adder) (path : Path) (file : Except String (List Nat)) :
    Adder × Option String :=
  match adder.add file with
  | .error err => (adder, some err)
  | .ok dagnode => adder.addNode env dagnode path

/-- The eviction step at the head of `addFileNode` (lines 281-293): at the
threshold the MFS root is flushed and the count reset, then the node is
counted.  `liveNodes` is a `uint64`. -/
def countLive (env : Env) (adder : Adder) : Adder × Option String :=
  if adder.liveNodes ≥ env.liveCacheSize then
    match adder.mfsRoot with
    | (adder, _) =>
      match env.flushErr adder.flushes with
      | some err => ({ adder with flushes := adder.flushes + 1 }, some err)
      | none => ({ adder with flushes := adder.flushes + 1, liveNodes := (0 + 1) % 2 ^ 64 }, none)
  else
    ({ adder with liveNodes := (adder.liveNodes + 1) % 2 ^ 64 }, none)

/-- The head of `addDir` (lines 340-353): the directory is created in the MFS
root unless it is the top-level root. -/
def addDirMkdir (adder : Adder) (path : Path) (toplevel : Bool) : Adder × Option String :=
  if ¬ (toplevel = true ∧ path = []) then
    match adder.mfsRoot with
    | (adder, mr) =>
      match Mfs.Mkdir path mr with
      | .error err => (adder, some err)
      | .ok mr => ({ adder with mroot := some mr }, none)
  else (adder, none)

mutual
/-- The method `addFileNode`.  The directory case is the body of `addDir`. -/
def addFileNode (env : Env) : FNode → Adder → Path → Bool → Adder × Option String
  | .dir entries iterErr, adder, path, toplevel =>
    match adder.countLive env with
    | (adder, some err) => (adder, some err)
    | (adder, none) =>
      match adder.addDirMkdir path toplevel with
      | (adder, some err) => (adder, some err)
      | (adder, none) => addDirLoop env entries iterErr adder path
  | .symlink target, adder, path, _ =>
    match adder.countLive env with
    | (adder, some err) => (adder, some err)
    | (adder, none) => adder.addSymlink env path target
  | .file content, adder, path, _ =>
    match adder.countLive env with
    | (adder, some err) => (adder, some err)
    | (adder, none) => adder.addFile env path content
  | .other, adder, _, _ =>
    match adder.countLive env with
    | (adder, some err) => (adder, some err)
    | (adder, none) => (adder, some "unknown file type")
/-- The loop of `addDir` over the entries (lines 355-364). -/
def addDirLoop (env : Env) : List (String × FNode) → Option String → Adder → Path →
    Adder × Option String
  | [], iterErr, adder, _ => (adder, iterErr)
  | (name, node) :: rest, iterErr, adder, path =>
    match addFileNode env node adder (path ++ [name]) false with
    | (adder, some err) => (adder, some err)
    | (adder, none) => addDirLoop env rest iterErr adder path
end

/-- The method `addDir`, on the entries and the iterator error of `dir`. -/
def addDir (env : Env) (adder : Adder) (path : Path) (entries : List (String × FNode))
    (iterErr : Option String) (toplevel : Bool) : Adder × Option String :=
  match adder.addDirMkdir path toplevel with
  | (adder, some err) => (adder, some err)
  | (adder, none) => addDirLoop env entries iterErr adder path

/-- The type switch of `addFileNode` (lines 295-304), which hands the counted
node to `addDir`, `addSymlink` or `addFile`. -/
def dispatch (env : Env) (adder : Adder) (path : Path) (file : FNode) (toplevel : Bool) :
    Adder × Option String :=
  match file with
  | .dir entries iterErr => adder.addDir env path entries iterErr toplevel
  | .symlink target => adder.addSymlink env path target
  | .file content => adder.addFile env path content
  | .other => (adder, some "unknown file type")

/-- The adder after `n` successive visits of `addFileNode`, as far as the
live-node count goes: between two visits nothing but the head of
`addFileNode` touches `liveNodes` and `flushes`. -/
def countAfter (env : Env) (adder : Adder) : Nat → Adder
  | 0 => adder
  | n + 1 => ((countAfter env adder n).countLive env).1

/-- The entries `entries` have been added in list order, each by
`addFileNode` at the path `join(path, name)` with `toplevel = false`, each
without error: `Visited env path a entries a'` leads from the adder `a` before
the first entry to the adder `a'` after the last. -/
inductive Visited (env : Env) (path : Path) : Adder → List (String × FNode) → Adder → Prop where
  | nil (a : Adder) : Visited env path a [] a
  | cons (a a1 a2 : Adder) (name : String) (node : FNode) (rest : List (String × FNode)) :
      addFileNode env node a (path ++ [name]) false = (a1, none) →
      Visited env path a1 rest a2 →
      Visited env path a ((name, node) :: rest) a2

/-- The content of the MFS root of the adder: its links, none before the root is
created. -/
def rootLinks (adder : Adder) : Links := adder.mfsRoot.2

/-- Two adders hold the same content: the same MFS root content, the same events
sent and the same CID builder.  The live-node count and the number of flushes are
left out. -/
def SameContent (a b : Adder) : Prop :=
  a.rootLinks = b.rootLinks ∧ a.Out = b.Out ∧ a.CidBuilder = b.CidBuilder

/-- The end of `AddAll` (lines 253-275), once the result root is chosen. -/
def finishAddAll (env : Env) (adder : Adder) (name : Path) (root : Node) :
    Adder × Except String Node :=
  match adder.outputDirs env root name with
  | (adder, some err) => (adder, .error err)
  | (adder, none) => (adder, .ok root)

/-- The method `AddAll`. -/
def AddAll (env : Env) (adder : Adder) (file : FNode) : Adder × Except String Node :=
  match addFileNode env file adder [] true with
  | (adder, some err) => (adder, .error err)
  | (adder, none) =>
    match adder.mfsRoot with
    | (adder, rootdir) =>
      match file with
      | .dir _ _ => adder.finishAddAll env [] (.dir rootdir)
      | _ =>
        match Mfs.ListNames rootdir with
        | [] => (adder, .error "expected at least one child dir, got none")
        | name :: _ =>
          match Mfs.Child rootdir name with
          | none => (adder, .error "file does not exist")
          | some root => adder.finishAddAll env [name] root

end Adder

/-! ## cid/unixfs.go, utils/warp_path.go, cid/cid.go -/

/-- The file system as `os.Stat` and `files.NewSerialFileWithFilter` see it:
the node found at a path, if there is one. -/
abbrev FileSys := Path → Option FNode

/-- The last component of a path: `filepath.Base(filepath.Clean(path))`. -/
def baseName (path : Path) : String := path.getLast?.getD "."

/-- The function `WarpPath`: the node at `path` is wrapped into a directory
with one entry, named by the last component of the path. -/
def WarpPath (fs : FileSys) (path : Path) : Except String FNode :=
  match fs path with
  | none => .error "no such file or directory"
  | some fileNode => .ok (.dir [(baseName path, fileNode)] none)

/-- The function `AddAndBuildCid`: the options are resolved, an adder is set
up with an empty MFS root, the tree is imported and the CID of the node that
`AddAll` returns is the result. -/
def AddAndBuildCid (env : Env) (prefixFor : Int → Except String Options.Prefix)
    (files : FNode) (opts : List Options.UnixfsAddOption) : Except String Cid :=
  match Options.UnixfsAddOptions prefixFor opts with
  | (_, _, some err) => .error err
  | (none, _, none) => .error "no settings"
  | (some settings, pfx, none) =>
    let fileAdder : Adder :=
      { NewAdder with
        Chunker := settings.Chunker
        Out := settings.Events.map (fun _ => [])
        Silent := settings.Silent
        RawLeaves := settings.RawLeaves
        CidBuilder := pfx }
    let fileAdder := fileAdder.SetMfsRoot []
    match fileAdder.AddAll env files with
    | (_, .error err) => .error err
    | (_, .ok nd) => .ok (nd.Cid pfx)

/-- The function `GetCid`. -/
def GetCid (env : Env) (prefixFor : Int → Except String Options.Prefix)
    (fs : FileSys) (path : Path) : Except String Cid :=
  match fs path with
  | none => .error "no such file or directory"
  | some _ =>
    match WarpPath fs path with
    | .error err => .error err
    | .ok wrapDataDir => AddAndBuildCid env prefixFor wrapDataDir []

/-! ## car/car.go

`PackCarFormat` imports the tree at `input` into a block store, then writes the
blocks reachable from the root into an archive; `UnpackCarFormat` loads an archive
into a fresh block store and restores the tree of its first root below `output`.

The block store, the archive writer and loader (`go-car`), the reader of a UnixFS
DAG (`boxo/ipld/unixfs/file`) and the tar writer and extractor are library code;
they are modelled by what they do to blocks and trees.  The importer cuts the bytes
of a file into chunks and arranges them by the balanced or the trickle layout, so a
file is a DAG of leaf blocks, one per chunk, below blocks of links, and restoring a
file reads the leaves of its DAG in the order of the links.  The digest of a block
is a parameter `hash`; with `ImportOpts.CIDv0()` every CID has the same prefix, so a
CID is given by its digest. -/

namespace Car

/-- The content of a place in the file system: a regular file with its bytes, a
symbolic link with its target, or a directory with its named entries. -/
inductive Tree where
  | file (data : List Nat)
  | symlink (target : String)
  | dir (entries : List (String × Tree))

/-- A block of the DAG: a leaf with the bytes of one chunk of a file, the target of
a symbolic link, the links of a directory, each with its name and the CID of the
child, or the links of an internal node of a file, in the order of the content and
without names. -/
inductive Block where
  | file (data : List Nat)
  | symlink (target : String)
  | dir (links : List (String × Nat))
  | node (links : List (String × Nat))

/-- The links of a block: those of a directory or of an internal node of a file,
none for a leaf or a symbolic link. -/
def Block.links : Block → List (String × Nat)
  | .dir links => links
  | .node links => links
  | _ => []

/-- The interface `blockstore.Blockstore` over a map datastore: the blocks put so
far with their CIDs, the latest first. -/
abbrev Blockstore := List (Nat × Block)

/-- The method `Get`: the block stored last under the CID `c`, if there is one. -/
def Blockstore.Get : Blockstore → Nat → Option Block
  | [], _ => none
  | (k, b) :: rest, c => if k = c then some b else Blockstore.Get rest c

/-- The method `Put`: stores the block `b` under the CID `c`. -/
def Blockstore.Put (bs : Blockstore) (c : Nat) (b : Block) : Blockstore :=
  (c, b) :: bs

mutual
/-- What the source-tree reader yields for a tree whose files can all be read: the
`files.Node` of the tree. -/
def Tree.read : Tree → FNode
  | .file data => .file (.ok data)
  | .symlink target => .symlink target
  | .dir entries => .dir (readEntries entries) none
/-- The entries of a directory as the reader yields them. -/
def readEntries : List (String × Tree) → List (String × FNode)
  | [] => []
  | (name, t) :: rest => (name, t.read) :: readEntries rest
end

/-- Modelled from the spec: a DAG as the node builder holds it before its blocks are
stored (sections 3 and 4.2): a leaf with the bytes of one chunk, an internal node of
a file with its children in the order of the content, a symbolic link, or a
directory with its named children. -/
inductive DagNode where
  | leaf (data : List Nat)
  | node (children : List (String × DagNode))
  | symlink (target : String)
  | dir (entries : List (String × DagNode))

/-- Modelled from the spec: the children of an internal node of a file: the nodes
in order, linked by position, without names (section 3, Link). -/
def asChildren (nodes : List DagNode) : List (String × DagNode) :=
  nodes.map (fun d => ("", d))

/-- Modelled from the spec: cuts a list into pieces of `n` elements in order, the
last one possibly shorter; `fuel` bounds the number of pieces.  The Chunker cuts the
bytes of a file so (section 4.1), the balanced layout the nodes of a round (section
4.2). -/
def splitEvery {α : Type} (n : Nat) : Nat → List α → List (List α)
  | 0, _ => []
  | _ + 1, [] => []
  | fuel + 1, a :: rest => (a :: rest).take n :: splitEvery n fuel ((a :: rest).drop n)

/-- Modelled from the spec: the Chunker with the policy "fixed size `size`" (section
4.1).  The chunks are the pieces of `size` bytes of the input in order, the last one
possibly shorter; empty input yields a single empty chunk.  A size of zero is not a
policy. -/
def Chunker (size : Nat) (data : List Nat) : Except String (List (List Nat)) :=
  if size = 0 then .error "invalid chunk size"
  else
    match data with
    | [] => .ok [[]]
    | _ :: _ => .ok (splitEvery size data.length data)

/-- Modelled from the spec: the rounds of the balanced layout (section 4.2).  While
more than one node remains, up to `maxLinks` nodes at a time, in order, are grouped
into a new internal node; `fuel` bounds the number of rounds. -/
def balancedLevels (maxLinks : Nat) : Nat → List DagNode → Except String DagNode
  | _, [] => .error "no chunk"
  | _, [root] => .ok root
  | 0, _ :: _ :: _ => .error "fanout too small"
  | fuel + 1, a :: b :: rest =>
    balancedLevels maxLinks fuel
      ((splitEvery maxLinks (rest.length + 2) (a :: b :: rest)).map
        (fun group => DagNode.node (asChildren group)))

/-- Modelled from the spec: the balanced layout (section 4.2).  Every chunk becomes
a leaf, and the leaves are grouped by `balancedLevels` until one root remains; the
root of a single chunk is its leaf. -/
def balancedLayout (maxLinks : Nat) (chunks : List (List Nat)) : Except String DagNode :=
  balancedLevels maxLinks chunks.length (chunks.map DagNode.leaf)

/-- Modelled from the spec: builds up to `n` nodes by `fill`, each from the chunks
the one before has left, and stops when no chunk is left (section 4.3). -/
def repeatFill (fill : List (List Nat) → DagNode × List (List Nat)) :
    Nat → List (List Nat) → List DagNode × List (List Nat)
  | 0, chunks => ([], chunks)
  | _ + 1, [] => ([], [])
  | n + 1, c :: rest =>
    match fill (c :: rest) with
    | (child, rest1) =>
      match repeatFill fill n rest1 with
      | (more, rest2) => (child :: more, rest2)

/-- Modelled from the spec: an internal node over the children that `build` makes of
the chunks, with the chunks that `build` leaves (section 4.3). -/
def wrapChildren (build : List (List Nat) → List DagNode × List (List Nat))
    (chunks : List (List Nat)) : DagNode × List (List Nat) :=
  match build chunks with
  | (sub, rest) => (.node (asChildren sub), rest)

/-- Modelled from the spec: the children of a node of the trickle layout that grows
up to the depth `depth` (section 4.3).  The node is first filled with new leaves up
to `maxLinks`; then, for every depth from 1 to `depth`, it takes four more children,
each an internal node that grows up to one depth less, as long as chunks are left.
The result is the children and the chunks not yet placed. -/
def trickleChildren (maxLinks : Nat) :
    Nat → List (List Nat) → List DagNode × List (List Nat)
  | 0, chunks => ((chunks.take maxLinks).map DagNode.leaf, chunks.drop maxLinks)
  | depth + 1, chunks =>
    match trickleChildren maxLinks depth chunks with
    | (children, rest) =>
      match repeatFill (wrapChildren (trickleChildren maxLinks depth)) 4 rest with
      | (subs, rest2) => (children ++ subs, rest2)

/-- Modelled from the spec: the trickle layout (section 4.3).  The root grows as
`trickleChildren` tells until every chunk is placed, so the chunks that come first
are reached by the shortest paths. -/
def trickleLayout (maxLinks : Nat) (chunks : List (List Nat)) : Except String DagNode :=
  match trickleChildren maxLinks chunks.length chunks with
  | (children, []) => .ok (.node (asChildren children))
  | (_, _ :: _) => .error "fanout too small"

/-- Modelled from the spec: the configuration of the importer that matters for the
DAG of a file (section 9): the size of a chunk, the most links of an internal node,
and the layout. -/
structure ImportConfig where
  chunkSize : Nat
  maxLinks : Nat
  layout : Options.Layout

/-- Modelled from the spec: the DAG of a file (section 4.6): the bytes go through
the Chunker, and the chunks through the builder of the configured layout. -/
def buildFile (cfg : ImportConfig) (data : List Nat) : Except String DagNode :=
  match Chunker cfg.chunkSize data with
  | .error err => .error err
  | .ok chunks =>
    match cfg.layout with
    | .BalancedLayout => balancedLayout cfg.maxLinks chunks
    | .TrickleLayout => trickleLayout cfg.maxLinks chunks

mutual
/-- Modelled from the spec: the block of a node of the DAG (section 3): a node with
children links to the CIDs of their blocks, in order. -/
def DagNode.block (hash : Block → Nat) : DagNode → Block
  | .leaf data => .file data
  | .node children => .node (linksOf hash children)
  | .symlink target => .symlink target
  | .dir entries => .dir (linksOf hash entries)
/-- Modelled from the spec: the links to a list of children, each with the name of
the child and the CID of its block. -/
def linksOf (hash : Block → Nat) : List (String × DagNode) → List (String × Nat)
  | [] => []
  | (name, d) :: rest => (name, hash (d.block hash)) :: linksOf hash rest
end

/-- Modelled from the spec: the CID Assigner (section 4.4) for version 0: the CID of
a node is the digest of its block. -/
def DagNode.cid (hash : Block → Nat) (d : DagNode) : Nat := hash (d.block hash)

mutual
/-- Modelled from the spec: stores the blocks of a DAG, those of the children before
the block of their parent, each under its CID, and returns the CID of the root
(section 4.6). -/
def putDag (hash : Block → Nat) : DagNode → Blockstore → Nat × Blockstore
  | .leaf data, bs => (hash (.file data), Blockstore.Put bs (hash (.file data)) (.file data))
  | .node children, bs =>
    match putChildren hash children bs with
    | (links, bs1) => (hash (.node links), Blockstore.Put bs1 (hash (.node links)) (.node links))
  | .symlink target, bs =>
    (hash (.symlink target), Blockstore.Put bs (hash (.symlink target)) (.symlink target))
  | .dir entries, bs =>
    match putChildren hash entries bs with
    | (links, bs1) => (hash (.dir links), Blockstore.Put bs1 (hash (.dir links)) (.dir links))
/-- Modelled from the spec: stores the DAGs of a list of children in order and
returns the links to them. -/
def putChildren (hash : Block → Nat) :
    List (String × DagNode) → Blockstore → List (String × Nat) × Blockstore
  | [], bs => ([], bs)
  | (name, d) :: rest, bs =>
    match putDag hash d bs with
    | (c, bs1) =>
      match putChildren hash rest bs1 with
      | (links, bs2) => ((name, c) :: links, bs2)
end

mutual
/-- Modelled from the spec: the import of one node (section 4.6).  The bytes of a
file go through the Chunker and the layout builder, and the blocks of the DAG they
build are stored; a symbolic link becomes one block; a directory imports its entries
in iteration order and then becomes the block of its links.  Every block is put into
the store under its CID.  A read error, an iteration error or a node that is none of
the three kinds aborts the import. -/
def importNode (hash : Block → Nat) (cfg : ImportConfig) :
    FNode → Blockstore → Except String (Nat × Blockstore)
  | .file (.ok data), bs =>
    match buildFile cfg data with
    | .error err => .error err
    | .ok d => .ok (putDag hash d bs)
  | .file (.error err), _ => .error err
  | .symlink target, bs => .ok (putDag hash (.symlink target) bs)
  | .dir entries iterErr, bs =>
    match importEntries hash cfg entries bs with
    | .error err => .error err
    | .ok (links, bs1) =>
      match iterErr with
      | some err => .error err
      | none => .ok (hash (.dir links), Blockstore.Put bs1 (hash (.dir links)) (.dir links))
  | .other, _ => .error "unknown file type"
/-- Modelled from the spec: the import of the entries of a directory, in order; the
first error aborts. -/
def importEntries (hash : Block → Nat) (cfg : ImportConfig) :
    List (String × FNode) → Blockstore → Except String (List (String × Nat) × Blockstore)
  | [], bs => .ok ([], bs)
  | (name, nd) :: rest, bs =>
    match importNode hash cfg nd bs with
    | .error err => .error err
    | .ok (c, bs1) =>
      match importEntries hash cfg rest bs1 with
      | .error err => .error err
      | .ok (links, bs2) => .ok ((name, c) :: links, bs2)
end

/-- Modelled from the spec: `DataImporter.Import` with `ImportOpts.CIDv0()`, which
imports the tree at `input` into the empty block store of a new importer and returns
the root CID (section 4.6); the store stands for `DataImporter.Blockstore()`. -/
def Import (hash : Block → Nat) (cfg : ImportConfig) (input : FNode) :
    Except String (Nat × Blockstore) :=
  importNode hash cfg input []

/-- The file that `carv1.SelectiveCar.Write` writes and `carv1.LoadCar` reads: the
roots of the header, then the blocks with their CIDs in the order written. -/
structure CarFile where
  Roots : List Nat
  Blocks : List (Nat × Block)

/-- Runs `visit` on the CID of every link in order, threading the blocks written so
far; the first error aborts. -/
def foldLinks (visit : Nat → List (Nat × Block) → Except String (List (Nat × Block))) :
    List (String × Nat) → List (Nat × Block) → Except String (List (Nat × Block))
  | [], out => .ok out
  | (_, c) :: rest, out =>
    match visit c out with
    | .error err => .error err
    | .ok out1 => foldLinks visit rest out1

/-- The traversal of `carv1.SelectiveCar` with the selector
`CommonSelector_ExploreAllRecursively` and the option `TraverseLinksOnlyOnce`: a CID
already written is skipped; otherwise its block is loaded from the store (a missing
block is an error), written, and its links are followed in order.  `fuel` bounds
the depth of the recursion. -/
def traverse (bs : Blockstore) :
    Nat → Nat → List (Nat × Block) → Except String (List (Nat × Block))
  | 0, _, _ => .error "traversal too deep"
  | fuel + 1, c, out =>
    if c ∈ out.map Prod.fst then .ok out
    else
      match Blockstore.Get bs c with
      | none => .error "block not found"
      | some b => foldLinks (traverse bs fuel) b.links (out ++ [(c, b)])

/-- The struct `CarV1` after `Write`: the root and, in place of the selective
archive, the file it writes, or the error of the traversal. -/
structure CarV1 where
  root : Nat
  car : Except String CarFile

/-- The method `Builder.BuildCar` of a new builder (lines 71-97): imports `input`
and sets up the archive of the DAG below the root.  `cfg` is the configuration of
the importer that `NewDataImporter` sets up. -/
def BuildCar (hash : Block → Nat) (cfg : ImportConfig) (fuel : Nat) (input : FNode) :
    Except String CarV1 :=
  match Import hash cfg input with
  | .error err => .error err
  | .ok (root, bs) =>
    .ok { root := root
          car := match traverse bs fuel root [] with
            | .error err => .error err
            | .ok blocks => .ok { Roots := [root], Blocks := blocks } }

/-- The function `PackCarFormat` (lines 99-140).  `input` is what is found at the
input path (`none` when `os.Stat` or `os.Open` fails) and `createErr` the outcome of
`os.Create(output)`.  The result is the string of the root CID and the archive
written to `output`.  `hash` and `cfg` are the digest and the configuration of the
importer that `NewDataImporter(ImportOpts.CIDv0())` sets up.  `log.Fatalf` ends the
process; it is modelled by the error. -/
def PackCarFormat (hash : Block → Nat) (cidString : Nat → String) (cfg : ImportConfig)
    (fuel : Nat) (input : Option FNode) (createErr : Option String) :
    Except String (String × CarFile) :=
  match input with
  | none => .error "Failed to stat input path"
  | some nd =>
    match createErr with
    | some err => .error err
    | none =>
      match BuildCar hash cfg fuel nd with
      | .error err => .error err
      | .ok v1car =>
        match v1car.car with
        | .error err => .error err
        | .ok file => .ok (cidString v1car.root, file)

/-- The function `carv1.LoadCar`: reads the header, which must name a root, puts every
block of the archive into the store in order, and returns the roots. -/
def LoadCar (bs : Blockstore) (car : CarFile) : Except String (Blockstore × List Nat) :=
  match car.Roots with
  | [] => .error "empty car, no roots"
  | roots => .ok (car.Blocks.foldl (fun s e => Blockstore.Put s e.1 e.2) bs, roots)

/-- Runs `restore` on the CID of every link in order and names each result by its
link; the first error aborts. -/
def mapLinks (restore : Nat → Except String Tree) :
    List (String × Nat) → Except String (List (String × Tree))
  | [] => .ok []
  | (name, c) :: rest =>
    match restore c with
    | .error err => .error err
    | .ok t =>
      match mapLinks restore rest with
      | .error err => .error err
      | .ok ts => .ok ((name, t) :: ts)

/-- Reads the content below the links of an internal node of a file: what `restore`
reads below each link in order, one run after the other.  A link to something that
is not file content is an error; the first error aborts. -/
def readLinks (restore : Nat → Except String Tree) :
    List (String × Nat) → Except String (List Nat)
  | [] => .ok []
  | (_, c) :: rest =>
    match restore c with
    | .error err => .error err
    | .ok (.file data) =>
      match readLinks restore rest with
      | .error err => .error err
      | .ok more => .ok (data ++ more)
    | .ok _ => .error "not a file"

/-- What `unixfile.NewUnixfsFile`, the tar writer and `tar.Extractor` do together:
the tree that the DAG below the CID `c` describes is written out.  A leaf is a file
with the bytes of its block; an internal node of a file is a file with the bytes
read below its links in order; a symbolic link has its target; a directory has one
entry per link under the name of the link.  A missing block is an error.  `fuel`
bounds the depth of the recursion. -/
def restore (bs : Blockstore) : Nat → Nat → Except String Tree
  | 0, _ => .error "restore too deep"
  | fuel + 1, c =>
    match Blockstore.Get bs c with
    | none => .error "block not found"
    | some (.file data) => .ok (.file data)
    | some (.symlink target) => .ok (.symlink target)
    | some (.dir links) =>
      match mapLinks (restore bs fuel) links with
      | .error err => .error err
      | .ok entries => .ok (.dir entries)
    | some (.node links) =>
      match readLinks (restore bs fuel) links with
      | .error err => .error err
      | .ok data => .ok (.file data)

/-- The function `restoreFilesFromDag` (lines 182-231): gets the root node, then
writes the tree of the DAG to `outputDir`.  The result is the tree at `outputDir`. -/
def restoreFilesFromDag (bs : Blockstore) (fuel : Nat) (rootCid : Nat) : Except String Tree :=
  match Blockstore.Get bs rootCid with
  | none => .error "failed to get root node: block not found"
  | some _ => restore bs fuel rootCid

/-- The function `UnpackCarFormat` (lines 142-180).  `input` is the archive at the
input path (`none` when it cannot be opened) and `output` tells whether the output
path is a directory (`none` when `os.Stat` fails).  The archive is loaded into a
fresh store and the tree of the first root is restored at
`path.Join(output, rootCid.String())`: the result is that name and the tree there.
`log.Fatalf` ends the process; it is modelled by the error. -/
def UnpackCarFormat (cidString : Nat → String) (fuel : Nat) (input : Option CarFile)
    (output : Option Bool) : Except String (String × Tree) :=
  match input with
  | none => .error "Failed to open input file"
  | some car =>
    match output with
    | none => .error "Failed to stat output file"
    | some false => .error "output path is not directory"
    | some true =>
      match LoadCar [] car with
      | .error err => .error err
      | .ok (bs, roots) =>
        match roots.head? with
        | none => .error "index out of range"
        | some rootCid =>
          match restoreFilesFromDag bs fuel rootCid with
          | .error err => .error err
          | .ok t => .ok (cidString rootCid, t)

mutual
/-- The number of nodes of a DAG. -/
def DagNode.size : DagNode → Nat
  | .leaf _ => 1
  | .node children => 1 + sizeOfChildren children
  | .symlink _ => 1
  | .dir entries => 1 + sizeOfChildren entries
/-- The number of nodes of the DAGs of a list of children. -/
def sizeOfChildren : List (String × DagNode) → Nat
  | [] => 0
  | (_, d) :: rest => d.size + sizeOfChildren rest
end

mutual
/-- The DAG itself and every DAG below it. -/
def DagNode.subdags : DagNode → List DagNode
  | .leaf data => [.leaf data]
  | .node children => .node children :: subdagsOf children
  | .symlink target => [.symlink target]
  | .dir entries => .dir entries :: subdagsOf entries
/-- Every DAG at or below one of the children. -/
def subdagsOf : List (String × DagNode) → List DagNode
  | [] => []
  | (_, d) :: rest => d.subdags ++ subdagsOf rest
end

mutual
/-- The bytes of the leaves of a DAG of file content, in the order of the links. -/
def DagNode.bytes : DagNode → List Nat
  | .leaf data => data
  | .node children => bytesOf children
  | .symlink _ => []
  | .dir _ => []
/-- The bytes of the leaves below a list of children, in order. -/
def bytesOf : List (String × DagNode) → List Nat
  | [] => []
  | (_, d) :: rest => d.bytes ++ bytesOf rest
end

mutual
/-- The tree that a DAG describes: a leaf or an internal node of a file is a file
with the bytes of its leaves. -/
def DagNode.toTree : DagNode → Tree
  | .leaf data => .file data
  | .node children => .file (bytesOf children)
  | .symlink target => .symlink target
  | .dir entries => .dir (toTreeOf entries)
/-- The entries that the named children of a directory describe. -/
def toTreeOf : List (String × DagNode) → List (String × Tree)
  | [] => []
  | (name, d) :: rest => (name, d.toTree) :: toTreeOf rest
end

mutual
/-- A DAG of file content: leaves below internal nodes of a file. -/
def DagNode.fileOnly : DagNode → Prop
  | .leaf _ => True
  | .node children => fileOnlyOf children
  | .symlink _ => False
  | .dir _ => False
/-- Every child is a DAG of file content. -/
def fileOnlyOf : List (String × DagNode) → Prop
  | [] => True
  | (_, d) :: rest => d.fileOnly ∧ fileOnlyOf rest
end

mutual
/-- A DAG as the importer builds it: below an internal node of a file there is file
content only. -/
def DagNode.wellFormed : DagNode → Prop
  | .leaf _ => True
  | .node children => fileOnlyOf children
  | .symlink _ => True
  | .dir entries => wellFormedOf entries
/-- Every child is a DAG as the importer builds it. -/
def wellFormedOf : List (String × DagNode) → Prop
  | [] => True
  | (_, d) :: rest => d.wellFormed ∧ wellFormedOf rest
end

/-- What is known about the blocks written so far: whenever the CID of a DAG with
fewer than `n` nodes has been written, the block of every DAG at or below it has
been written too. -/
def Closed (hash : Block → Nat) (n : Nat) (out : List (Nat × Block)) : Prop :=
  ∀ u : DagNode, u.cid hash ∈ out.map Prod.fst → u.size < n →
    ∀ v ∈ u.subdags, (v.cid hash, v.block hash) ∈ out

/-- What a traversal over the DAGs `sub` that starts with the blocks `out` written
and ends with `out1` has done: nothing written is lost, the block of every DAG of
`sub` is written, and every block written anew is the block of a DAG of `sub`. -/
def Step (hash : Block → Nat) (n : Nat) (sub : List DagNode) (out out1 : List (Nat × Block)) :
    Prop :=
  Closed hash n out1 ∧ (∀ e ∈ out, e ∈ out1) ∧
    (∀ u ∈ sub, (u.cid hash, u.block hash) ∈ out1) ∧
    (∀ e ∈ out1, e ∈ out ∨ ∃ u ∈ sub, e = (u.cid hash, u.block hash))

end Car

/-! ## The events of an import, as the spec words them

The spec asks for one event per completed directory, in DFS completion order:
children before the parent that contains them.  The definitions below say this on
the node tree, without the adder; the theorems compare `outputDirs` with them. -/

namespace Events

/-- The event of the directory with the links `links` at `path`: its path, its CID
and its size. -/
def dirEvent (env : Env) (pfx : Options.Prefix) (links : Links) (path : Path) : AddEvent :=
  ⟨path, (Node.dir links).Cid pfx, toString (env.nodeSize (.dir links))⟩

mutual
/-- The events of a node tree in DFS completion order: for a directory, the events
of the subtrees of its children, child by child, then the event of the directory
itself; nothing for a file or a symbolic
link. -/
def completionOrder (env : Env) (pfx : Options.Prefix) : Node → Path → List AddEvent
  | .dir links, path =>
    completionOrderOf env pfx links path ++ [dirEvent env pfx links path]
  | .file _, _ => []
  | .symlink _, _ => []
/-- The events of the subtrees of the children of a directory at `path`. -/
def completionOrderOf (env : Env) (pfx : Options.Prefix) : Links → Path → List AddEvent
  | [], _ => []
  | (name, child) :: rest, path =>
    completionOrder env pfx child (path ++ [name]) ++ completionOrderOf env pfx rest path
end

mutual
/-- The number of directories of a node tree, the root included. -/
def dirCount : Node → Nat
  | .dir links => dirCountOf links + 1
  | .file _ => 0
  | .symlink _ => 0
/-- The number of directories below a list of links. -/
def dirCountOf : Links → Nat
  | [] => 0
  | (_, child) :: rest => dirCount child + dirCountOf rest
end

mutual
/-- The number of files and directories of a source tree, the root included. -/
def filesAndDirs : FNode → Nat
  | .dir entries _ => filesAndDirsOf entries + 1
  | .file _ => 1
  | .symlink _ => 0
  | .other => 0
/-- The number of files and directories below a list of entries. -/
def filesAndDirsOf : List (String × FNode) → Nat
  | [] => 0
  | (_, node) :: rest => filesAndDirs node + filesAndDirsOf rest
end

mutual
/-- In every directory of the tree the names of the children are distinct, as they
are in an MFS directory. -/
def namesDistinct : Node → Bool
  | .dir links => decide (links.map Prod.fst).Nodup && namesDistinctOf links
  | .file _ => true
  | .symlink _ => true
/-- The names are distinct in every directory below a list of links. -/
def namesDistinctOf : Links → Bool
  | [] => true
  | (_, child) :: rest => namesDistinct child && namesDistinctOf rest
end

/-- The path `q` lies strictly below the path `p`: the directory at `q` is nested
inside the directory at `p`. -/
def StrictlyBelow (p q : Path) : Prop := ∃ s : Path, s ≠ [] ∧ q = p ++ s

end Events

/-! ## ipfs_api/request.go

The request of the HTTP API and its builder.  A Go `map[string]string` is modelled
by the list of its entries, with distinct keys, in the order in which `range` visits
them; every theorem holds for every such order.  The context and the body of a
request play no part in what is proved and are left out. -/

namespace Api

/-- A Go `map[string]string`, by its entries. -/
abbrev StrMap := List (String × String)

/-- The lookup `m[key]`, with `none` when the key is absent. -/
def StrMap.lookup : StrMap → String → Option String
  | [], _ => none
  | (k, v) :: rest, key => if k = key then some v else StrMap.lookup rest key

/-- The assignment `m[key] = value`. -/
def StrMap.set : StrMap → String → String → StrMap
  | [], key, value => [(key, value)]
  | (k, v) :: rest, key, value =>
    if k = key then (k, value) :: rest else (k, v) :: StrMap.set rest key value

/-- The struct `Request`.  A nil map is `none`. -/
structure Request where
  ApiBase : String
  Command : String
  Args : List String
  Opts : Option StrMap
  Headers : Option StrMap

/-- The function `NewRequest` (lines 28-45). -/
def NewRequest (url command : String) (args : List String) : Request :=
  let url := if url.startsWith "http" then url else "http://" ++ url
  { ApiBase := url ++ "/api/v0"
    Command := command
    Args := args
    Opts := some [("encoding", "json"), ("stream-channels", "true")]
    Headers := some [] }

/-- The type `url.Values` of the standard library, a `map[string][]string`, by the
pairs added to it, in the order of the calls of `Add`. -/
abbrev Values := List (String × String)

/-- The method `Values.Add`: the value is appended to the values of the key. -/
def Values.Add (v : Values) (key value : String) : Values := v ++ [(key, value)]

/-- The keys of the map. -/
def Values.keys (v : Values) : List String := (v.map Prod.fst).dedup

/-- The values `v[key]`, in the order in which they were added. -/
def Values.of (v : Values) (key : String) : List String :=
  (v.filter (fun p => p.1 = key)).map Prod.snd

/-- The parameters in the order in which `Values.Encode` writes them: the keys in
ascending order, and for each key its values in the order in which they were added.
Strings compare character by character, which is the byte order of their UTF-8
form that `sort.Strings` uses. -/
def Values.params (v : Values) : List (String × String) :=
  ((Values.keys v).insertionSort (· ≤ ·)).flatMap
    (fun key => (Values.of v key).map (fun value => (key, value)))

/-- The method `Values.Encode`: every parameter is written as `key=value`, both
escaped by `url.QueryEscape`, and the parameters are joined by `&`.  The escape
function is the parameter `escape`. -/
def Values.Encode (escape : String → String) (v : Values) : String :=
  String.intercalate "&" ((Values.params v).map (fun p => escape p.1 ++ "=" ++ escape p.2))

/-- The values that `getURL` collects (lines 176-182): one `arg` for every argument,
then every option. -/
def Request.values (r : Request) : Values :=
  let values := r.Args.foldl (fun vs arg => Values.Add vs "arg" arg) []
  (r.Opts.getD []).foldl (fun vs kv => Values.Add vs kv.1 kv.2) values

/-- The method `Request.getURL` (lines 175-185). -/
def Request.getURL (escape : String → String) (r : Request) : String :=
  r.ApiBase ++ "/" ++ r.Command ++ "?" ++ Values.Encode escape r.values

/-- The method `Header.Get` of `net/http` on a key in canonical form: the first value
of the key, the empty string when there is none. -/
def headerGet : List (String × List String) → String → String
  | [], _ => ""
  | (k, vs) :: rest, key => if k = key then vs.headD "" else headerGet rest key

/-- The error that `trailerReader.Read` returns: the error of the body, unchanged, or
the new error `errors.New(message)`. -/
inductive ReadError (ε : Type) where
  | unchanged (err : ε)
  | errorsNew (message : String)

/-- The method `trailerReader.Read` (lines 51-59), on the outcome `(n, err)` of
`r.resp.Body.Read(b)` and the trailer of the response. -/
def trailerReader.Read {ε : Type} (trailer : List (String × List String))
    (bodyRead : Nat × Option ε) : Nat × Option (ReadError ε) :=
  match bodyRead with
  | (n, some err) =>
    let e := headerGet trailer "X-Stream-Error"
    if e ≠ "" then (n, some (.errorsNew e)) else (n, some (.unchanged err))
  | (n, none) => (n, none)

/-- The struct `HttpClient`, as far as a request needs it. -/
structure HttpClient where
  url : String

/-- The struct `RequestBuilder`.  A nil map is `none`. -/
structure RequestBuilder where
  command : String
  args : List String
  opts : Option StrMap
  headers : Option StrMap
  client : HttpClient

/-- The method `HttpClient.Request`: a builder without options and headers. -/
def HttpClient.Request (h : HttpClient) (command : String) (args : List String) :
    RequestBuilder :=
  { command := command, args := args, opts := none, headers := none, client := h }

/-- A value handed to `RequestBuilder.Option`, by the case of the type switch it falls
into; `other` holds what `fmt.Sprint` prints for it. -/
inductive OptionValue where
  | bool (v : Bool)
  | string (v : String)
  | bytes (v : String)
  | other (printed : String)

/-- The string that `RequestBuilder.Option` stores for a value (lines 216-227). -/
def OptionValue.format : OptionValue → String
  | .bool v => if v then "true" else "false"
  | .string v => v
  | .bytes v => v
  | .other printed => printed

/-- The method `RequestBuilder.Option` (lines 215-233). -/
def RequestBuilder.Option (r : RequestBuilder) (key : String) (value : OptionValue) :
    RequestBuilder :=
  { r with opts := some (StrMap.set (r.opts.getD []) key value.format) }

/-- The request that `RequestBuilder.Send` builds before it sends it (lines 244-247). -/
def RequestBuilder.request (r : RequestBuilder) : Request :=
  { NewRequest r.client.url r.command r.args with Opts := r.opts, Headers := r.headers }

/-- The last value set for `key` by a sequence of calls of `Option`, `none` when no
call sets it. -/
def lastSet : List (String × OptionValue) → String → Option String
  | [], _ => none
  | (k, v) :: rest, key =>
    match lastSet rest key with
    | some s => some s
    | none => if k = key then some v.format else none

end Api

/-! ## car/car.go: the extraction pipeline of `restoreFilesFromDag` (lines 198-231)

A goroutine writes the tar stream into the write end `pipew` of an `io.Pipe` (through
a buffer), and `extractor.Extract` reads it from the read end `piper`.  A write to
an `io.Pipe` returns only when its bytes have been read or an end of the pipe has
been closed.  The writer closes `pipew` on every path: with the error when
`WriteFile` or `Flush` fails (`checkErrAndClosePipe`), plainly at the end.  The
function never closes `piper`.  The pipeline is modelled as a transition system over
the chunks that cross the pipe. -/

namespace Pipeline

/-- What a run depends on: the number of pipe writes the tar stream takes, the point
at which `w.WriteFile` fails (after that many chunks, with that error), and the
point at which `extractor.Extract` fails. -/
structure Input where
  chunks : Nat
  writeErr : Option (Nat × String)
  readErr : Option (Nat × String)

/-- The state of a run: the chunks written and read so far, whether the goroutine has
ended, how the write end was closed if it was (`some none` for `pipew.Close()`,
`some (some err)` for `pipew.CloseWithError(err)`), and what `Extract` returned if it
has, which is what `restoreFilesFromDag` returns. -/
structure State where
  moved : Nat
  writerEnded : Bool
  closed : Option (Option String)
  result : Option (Option String)
  deriving DecidableEq, Repr

/-- The start: nothing written, both sides running, the pipe open. -/
def State.init : State :=
  { moved := 0, writerEnded := false, closed := none, result := none }

/-- The error with which a side fails at the point reached, if it does. -/
def failsAt (point : Option (Nat × String)) (moved : Nat) : Option String :=
  match point with
  | some (n, err) => if n = moved then some err else none
  | none => none

/-- The states that one step leads to.  A chunk crosses the pipe when the writer
writes and the extractor reads; the writer fails and closes `pipew` with the error
(line 222); the writer ends and closes `pipew` (lines 225-226); the extractor fails
and returns its error (line 230), leaving the pipe as it is; the extractor reaches
the end of the archive and returns nil; the extractor reads from a pipe closed with
an error and returns that error. -/
def next (inp : Input) (s : State) : List State :=
  (if s.writerEnded = false ∧ s.result = none ∧ s.moved < inp.chunks ∧
      failsAt inp.writeErr s.moved = none ∧ failsAt inp.readErr s.moved = none
    then [{ s with moved := s.moved + 1 }] else [])
  ++ (match failsAt inp.writeErr s.moved with
      | some err =>
        if s.writerEnded = false then
          [{ s with writerEnded := true, closed := some (some err) }]
        else []
      | none =>
        if s.writerEnded = false ∧ s.moved = inp.chunks then
          [{ s with writerEnded := true, closed := some none }]
        else [])
  ++ (match s.result with
      | some _ => []
      | none =>
        match failsAt inp.readErr s.moved with
        | some err => [{ s with result := some (some err) }]
        | none =>
          (if s.moved = inp.chunks then [{ s with result := some none }] else [])
          ++ (match s.closed with
              | some (some err) => [{ s with result := some (some err) }]
              | _ => []))

/-- The goroutine is blocked in a write: it has not ended, a chunk is still to be
written, and the extractor has returned. -/
def writerBlocked (inp : Input) (s : State) : Prop :=
  s.writerEnded = false ∧ s.moved < inp.chunks ∧ failsAt inp.writeErr s.moved = none ∧
    s.result ≠ none

/-- A run in which the extractor fails at the first header, before it has read the
one chunk of the archive: the output directory cannot be written to. -/
def extractorFails : Input :=
  { chunks := 1, writeErr := none, readErr := some (0, "permission denied") }

/-- A run in which the writer fails at once: the root block links to a missing
block. -/
def writerFails : Input :=
  { chunks := 1, writeErr := some (0, "block not found"), readErr := none }

end Pipeline

/-! ## ipfs_api/dag.go: the record loop of `DagImportWithOpts` (lines 82-99)

The loop decodes one record after the other from the response body with a
`json.Decoder`.  The body is modelled by what the decoder yields: a finite sequence
of decode results, then one terminal result that every later call of `Decode`
returns again, as the decoder does once it has stored an error (`io.EOF`, a syntax
error, `io.ErrUnexpectedEOF`). -/

namespace Dag

/-- The struct `DagImportStats`. -/
structure DagImportStats where
  BlockBytesCount : Nat
  BlockCount : Nat
  deriving DecidableEq, Repr

/-- The struct `DagImportRoot`; `Cid` stands for `Root.Cid.Value`. -/
structure DagImportRoot where
  Cid : String
  Stats : Option DagImportStats
  deriving DecidableEq, Repr

/-- The struct `DagImportOutput`. -/
structure DagImportOutput where
  Roots : List DagImportRoot
  Stats : Option DagImportStats
  deriving DecidableEq, Repr

/-- The error of `dec.Decode`: the value `io.EOF`, or any other error. -/
inductive DecodeError where
  | EOF
  | other (message : String)
  deriving DecidableEq, Repr

/-- The outcome of one call `dec.Decode(&root)` on a fresh `root`: the error, nil when
`none`, and the value of `root` after the call. -/
structure DecodeResult where
  err : Option DecodeError
  root : DagImportRoot
  deriving DecidableEq, Repr

/-- The response body, as the decoder reads it. -/
structure Body where
  results : List DecodeResult
  terminal : DecodeResult

/-- One call of `dec.Decode`: the next result and the body that is left. -/
def Body.decode (body : Body) : DecodeResult × Body :=
  match body.results with
  | [] => (body.terminal, body)
  | res :: rest => (res, { body with results := rest })

/-- The loop of lines 84-97, run for at most `fuel` iterations: `none` when the loop
has not ended by then, else the output at the `break`.  The loop ends on `io.EOF`
and on a record with `Stats`; every other record is appended to `Roots`, whatever
`Decode` returned. -/
def recordLoop : Nat → Body → DagImportOutput → Option DagImportOutput
  | 0, _, _ => none
  | fuel + 1, body, out =>
    match body.decode with
    | (res, rest) =>
      if res.err = some .EOF then some out
      else
        match res.root.Stats with
        | some stats => some { out with Stats := some stats }
        | none => recordLoop fuel rest { out with Roots := out.Roots ++ [res.root] }

/-- A result on which the loop goes on: not `io.EOF`, and no `Stats`. -/
def DecodeResult.goesOn (res : DecodeResult) : Prop :=
  res.err ≠ some .EOF ∧ res.root.Stats = none

/-- The output before the loop (lines 78-80). -/
def emptyOutput : DagImportOutput := { Roots := [], Stats := none }

/-- A body that is cut off inside its first record: every call of `Decode` returns
`io.ErrUnexpectedEOF` and leaves `root` at its zero value. -/
def truncatedBody : Body :=
  { results := []
    terminal := { err := some (.other "unexpected EOF"), root := { Cid := "", Stats := none } } }

end Dag

/-! ## Sample inputs

Concrete surroundings and trees on which the theorems below are exercised. -/

namespace Sample

mutual
/-- The plain size of a node: the bytes of a file, the length of a link target, the
sum over the links of a directory. -/
def size : Node → Nat
  | .file data => data.length
  | .symlink target => target.length
  | .dir links => sizeLinks links
/-- The plain size of a list of links. -/
def sizeLinks : Links → Nat
  | [] => 0
  | (_, child) :: rest => size child + sizeLinks rest
end

/-- Surroundings with threshold `threshold`, flushes that never fail, a string
form of a CID that shows version and size, and the plain size. -/
def env (threshold : Nat) : Env :=
  { liveCacheSize := threshold
    flushErr := fun _ => none
    cidString := fun c => "cid-v" ++ toString c.pfx.Version ++ "-" ++ toString (size c.node)
    nodeSize := size }

/-- Surroundings like `env`, but every flush fails. -/
def failingEnv (threshold : Nat) : Env :=
  { env threshold with flushErr := fun _ => some "flush failed" }

/-- Three entries of a directory: an empty file, a node of unknown type, a file. -/
def entries : List (String × FNode) :=
  [("a", .file (.ok [])), ("b", .other), ("c", .file (.ok [1]))]

/-- A file system with two empty regular files, `a` and `b`. -/
def twoEmptyFiles : FileSys :=
  fun p => if p = ["a"] ∨ p = ["b"] then some (.file (.ok [])) else none

/-- The characters of a name as numbers. -/
def nameCode (s : String) : List Nat := s.data.map Char.toNat

/-- A block as a value of sums, products and lists of numbers. -/
def code : Car.Block →
    (List Nat ⊕ List Nat) ⊕ (List (List Nat × Nat) ⊕ List (List Nat × Nat))
  | .file data => .inl (.inl data)
  | .symlink target => .inl (.inr (nameCode target))
  | .dir links => .inr (.inl (links.map (fun l => (nameCode l.1, l.2))))
  | .node links => .inr (.inr (links.map (fun l => (nameCode l.1, l.2))))

/-- A digest without collisions: the number that encodes the block. -/
def digest (b : Car.Block) : Nat := Encodable.encode (code b)

/-- The directory with the file `a.txt` holding "hello" and the directory `sub` with
the file `b.txt` holding "world". -/
def helloWorld : Car.Tree :=
  .dir [("a.txt", .file [104, 101, 108, 108, 111]),
        ("sub", .dir [("b.txt", .file [119, 111, 114, 108, 100])])]

/-- An importer with chunks of two bytes and at most two links in a node, so that a
file of five bytes is a DAG of three leaves below internal nodes. -/
def smallConfig : Car.ImportConfig :=
  { chunkSize := 2, maxLinks := 2, layout := .BalancedLayout }

end Sample

/-! # Theorems -/

/-! ## The options of the importer -/

namespace Options

/-- When the version resolution succeeds with version 0, the hash function is
SHA2-256. -/
theorem resolveVersion_zero (options resolved : UnixfsAddSettings)
    (h : resolveVersion options = .ok resolved) :
    resolved.MhType = options.MhType ∧
      (resolved.CidVersion = 0 → options.MhType = SHA2_256) := by
  unfold resolveVersion at h
  by_cases hm : options.MhType = SHA2_256
  · by_cases hneg : options.CidVersion < 0
    · simp [hm, hneg] at h
      subst h
      simp [hm]
    · by_cases hpos : options.CidVersion > 0 ∧ ¬ options.RawLeavesSet = true
      · simp [hm, hneg, hpos] at h
        subst h
        simp [hm]
      · simp only [hm, hneg, ne_eq, not_true_eq_false, if_false, hpos] at h
        cases h
        simp [hm]
  · by_cases h0 : options.CidVersion = 0
    · simp [hm, h0] at h
    · by_cases h1 : options.CidVersion = 1 ∨ options.CidVersion = -1
      · simp [hm, h0, h1] at h
        split at h <;> (cases h; simp)
      · simp [hm, h0, h1] at h

/-- C3. When the options apply without error and leave the requested CID version at 0
(and the prefix lookup knows version 0), `UnixfsAddOptions` fails exactly when the hash
function is not SHA2-256: with another hash it returns the error "CIDv0 only supports
sha2-256", no settings and the zero prefix; with SHA2-256 it returns no error, the
settings unchanged with version 0, and the prefix of version 0. -/
theorem unixfsAddOptions_version_zero (prefixFor : Int → Except String Prefix)
    (opts : List UnixfsAddOption) (options : UnixfsAddSettings) (pfx : Prefix)
    (happly : applyOpts defaultSettings opts = .ok options)
    (hver : options.CidVersion = 0)
    (hpfx : prefixFor 0 = .ok pfx) :
    ((UnixfsAddOptions prefixFor opts).2.2 ≠ none ↔ options.MhType ≠ SHA2_256) ∧
    (options.MhType ≠ SHA2_256 →
      UnixfsAddOptions prefixFor opts
        = (none, Prefix.zero, some "CIDv0 only supports sha2-256")) ∧
    (options.MhType = SHA2_256 →
      UnixfsAddOptions prefixFor opts
        = (some options, { pfx with MhType := options.MhType, MhLength := -1 }, none) ∧
      ∃ settings, (UnixfsAddOptions prefixFor opts).1 = some settings ∧
        settings.CidVersion = 0) := by
  have hbad : options.MhType ≠ SHA2_256 →
      UnixfsAddOptions prefixFor opts
        = (none, Prefix.zero, some "CIDv0 only supports sha2-256") := by
    intro hne
    simp [UnixfsAddOptions, happly, resolveVersion, hne, hver]
  have hgood : options.MhType = SHA2_256 →
      UnixfsAddOptions prefixFor opts
        = (some options, { pfx with MhType := options.MhType, MhLength := -1 }, none) := by
    intro heq
    simp [UnixfsAddOptions, happly, resolveVersion, heq, hver, hpfx]
  refine ⟨?_, hbad, fun heq => ⟨hgood heq, options, ?_, hver⟩⟩
  · by_cases h : options.MhType = SHA2_256
    · simp [hgood h, h]
    · simp [hbad h, h]
  · rw [hgood heq]

theorem unixfsAddOptions_version_zero_witness :
    ((UnixfsAddOptions PrefixForCidVersion [Unixfs.Hash 0x13, Unixfs.CidVersion 0]).2.2 ≠ none ↔
        (0x13 : Nat) ≠ SHA2_256) ∧
      UnixfsAddOptions PrefixForCidVersion [Unixfs.Hash 0x13, Unixfs.CidVersion 0]
        = (none, Prefix.zero, some "CIDv0 only supports sha2-256") :=
  have h := unixfsAddOptions_version_zero PrefixForCidVersion
    [Unixfs.Hash 0x13, Unixfs.CidVersion 0]
    { defaultSettings with MhType := 0x13, CidVersion := 0 }
    ⟨0, DagProtobuf, SHA2_256, -1⟩ rfl rfl rfl
  ⟨h.1, h.2.1 (by decide)⟩

/-- C4, as amended. When the options apply without error and leave a requested CID
version v that is greater than 1 (with any hash function), or less than -1 together
with a hash function other than SHA2-256, `UnixfsAddOptions` fails with the error
"unknown CID version: v" and returns no settings and the zero prefix.  The prefix
lookup is taken to reject the versions above 1 with that error. -/
theorem unixfsAddOptions_invalid_version (prefixFor : Int → Except String Prefix)
    (opts : List UnixfsAddOption) (options : UnixfsAddSettings)
    (happly : applyOpts defaultSettings opts = .ok options)
    (hpf : ∀ v : Int, 1 < v → prefixFor v = .error ("unknown CID version: " ++ toString v))
    (hv : 1 < options.CidVersion ∨
      (options.CidVersion < -1 ∧ options.MhType ≠ SHA2_256)) :
    UnixfsAddOptions prefixFor opts
      = (none, Prefix.zero, some ("unknown CID version: " ++ toString options.CidVersion)) := by
  rcases hv with hv | ⟨hv, hm⟩
  · have h0 : options.CidVersion ≠ 0 := by omega
    have h1 : ¬ options.CidVersion < 0 := by omega
    have h2 : options.CidVersion > 0 := by omega
    by_cases hm : options.MhType = SHA2_256
    · by_cases hr : options.RawLeavesSet = true
      · simp [UnixfsAddOptions, happly, resolveVersion, hm, h1, h2, hr, hpf _ hv]
      · simp [UnixfsAddOptions, happly, resolveVersion, hm, h1, h2, hr, hpf _ hv]
    · have h3 : ¬ (options.CidVersion = 1 ∨ options.CidVersion = -1) := by omega
      simp [UnixfsAddOptions, happly, resolveVersion, hm, h0, h3]
  · have h0 : options.CidVersion ≠ 0 := by omega
    have h3 : ¬ (options.CidVersion = 1 ∨ options.CidVersion = -1) := by omega
    simp [UnixfsAddOptions, happly, resolveVersion, hm, h0, h3]

theorem unixfsAddOptions_invalid_version_witness :
    UnixfsAddOptions PrefixForCidVersion [Unixfs.CidVersion 2]
      = (none, Prefix.zero, some ("unknown CID version: " ++ toString (2 : Int))) :=
  unixfsAddOptions_invalid_version PrefixForCidVersion [Unixfs.CidVersion 2]
    { defaultSettings with CidVersion := 2 } rfl
    (fun v hv => by
      have h0 : v ≠ 0 := by omega
      have h1 : v ≠ 1 := by omega
      simp [PrefixForCidVersion, h0, h1])
    (Or.inl (by decide))

/-- C4, counterexample. The version -1, which is outside {0,1}, is the unset value:
requested through `Unixfs.CidVersion` it makes `UnixfsAddOptions` succeed, with
version 0 under SHA2-256 and version 1 under another hash function. -/
theorem unixfsAddOptions_version_minus_one_succeeds :
    UnixfsAddOptions PrefixForCidVersion [Unixfs.CidVersion (-1)]
        = (some { defaultSettings with CidVersion := 0 },
            ⟨0, DagProtobuf, SHA2_256, -1⟩, none) ∧
      UnixfsAddOptions PrefixForCidVersion [Unixfs.Hash 0x13, Unixfs.CidVersion (-1)]
        = (some { defaultSettings with CidVersion := 1, MhType := 0x13, RawLeaves := true },
            ⟨1, DagProtobuf, 0x13, -1⟩, none) := by
  constructor <;> rfl

/-- C5. If the prefix lookup succeeds exactly for the versions 0 and 1, then whenever
`UnixfsAddOptions` returns no error it returns settings whose CID version is 0 or 1,
version 0 only with SHA2-256, and a prefix carrying the hash function of the settings
and the length -1. -/
theorem unixfsAddOptions_success (prefixFor : Int → Except String Prefix)
    (opts : List UnixfsAddOption)
    (hpf : ∀ v : Int, (∃ p, prefixFor v = .ok p) ↔ (v = 0 ∨ v = 1))
    (hok : (UnixfsAddOptions prefixFor opts).2.2 = none) :
    ∃ settings, (UnixfsAddOptions prefixFor opts).1 = some settings ∧
      (settings.CidVersion = 0 ∨ settings.CidVersion = 1) ∧
      (settings.CidVersion = 0 → settings.MhType = SHA2_256) ∧
      (UnixfsAddOptions prefixFor opts).2.1.MhType = settings.MhType ∧
      (UnixfsAddOptions prefixFor opts).2.1.MhLength = -1 := by
  unfold UnixfsAddOptions at hok ⊢
  cases happly : applyOpts defaultSettings opts with
  | error err => simp [happly] at hok
  | ok options =>
    cases hres : resolveVersion options with
    | error err => simp [happly, hres] at hok
    | ok resolved =>
      cases hp : prefixFor resolved.CidVersion with
      | error err => simp [happly, hres, hp] at hok
      | ok pfx =>
        have hz := resolveVersion_zero options resolved hres
        refine ⟨resolved, by simp [hres, hp], (hpf _).1 ⟨pfx, hp⟩, ?_, by simp [hres, hp],
          by simp [hres, hp]⟩
        intro h0
        rw [hz.1]
        exact hz.2 h0

theorem unixfsAddOptions_success_witness :
    ∃ settings, (UnixfsAddOptions PrefixForCidVersion [Unixfs.Hash 0x13]).1 = some settings ∧
      (settings.CidVersion = 0 ∨ settings.CidVersion = 1) ∧
      (settings.CidVersion = 0 → settings.MhType = SHA2_256) ∧
      (UnixfsAddOptions PrefixForCidVersion [Unixfs.Hash 0x13]).2.1.MhType = settings.MhType ∧
      (UnixfsAddOptions PrefixForCidVersion [Unixfs.Hash 0x13]).2.1.MhLength = -1 :=
  unixfsAddOptions_success PrefixForCidVersion [Unixfs.Hash 0x13]
    (fun v => by
      unfold PrefixForCidVersion
      by_cases h0 : v = 0
      · simp [h0]
      · by_cases h1 : v = 1
        · simp [h1]
        · simp [h0, h1])
    rfl

/-- The options of the package never fail, and after a list of them `RawLeaves` and
`RawLeavesSet` are those of the last `RawLeaves` option, or unchanged without one. -/
theorem applyOpts_rawLeaves (opts : List AddOpt) :
    ∀ start : UnixfsAddSettings, ∃ options,
      applyOpts start (opts.map AddOpt.toOption) = .ok options ∧
      (∀ enable, lastRawLeaves opts = some enable →
        options.RawLeaves = enable ∧ options.RawLeavesSet = true) ∧
      (lastRawLeaves opts = none →
        options.RawLeaves = start.RawLeaves ∧ options.RawLeavesSet = start.RawLeavesSet) := by
  induction opts with
  | nil => intro start; exact ⟨start, rfl, by simp [lastRawLeaves], fun _ => ⟨rfl, rfl⟩⟩
  | cons opt rest ih =>
    intro start
    cases opt with
    | RawLeaves enable =>
      obtain ⟨options, h1, h2, h3⟩ :=
        ih { start with RawLeaves := enable, RawLeavesSet := true }
      refine ⟨options, by simpa [applyOpts, AddOpt.toOption, Unixfs.RawLeaves] using h1, ?_, ?_⟩
      · intro b hb
        cases hl : lastRawLeaves rest with
        | some b1 =>
          simp only [lastRawLeaves, hl, Option.some.injEq] at hb
          exact h2 b (by rw [hl, hb])
        | none =>
          simp only [lastRawLeaves, hl, Option.some.injEq] at hb
          have := h3 hl
          simp only at this
          rw [← hb]
          exact this
      · intro hn
        cases hl : lastRawLeaves rest <;> simp [lastRawLeaves, hl] at hn
    | CidVersion version =>
      obtain ⟨options, h1, h2, h3⟩ := ih { start with CidVersion := version }
      refine ⟨options, by simpa [applyOpts, AddOpt.toOption, Unixfs.CidVersion] using h1, ?_, ?_⟩
      · intro b hb
        cases hl : lastRawLeaves rest <;> simp [lastRawLeaves, hl] at hb
        exact h2 b (by rw [hl, hb])
      · intro hn
        cases hl : lastRawLeaves rest <;> simp [lastRawLeaves, hl] at hn
        exact h3 hl
    | Hash mhtype =>
      obtain ⟨options, h1, h2, h3⟩ := ih { start with MhType := mhtype }
      refine ⟨options, by simpa [applyOpts, AddOpt.toOption, Unixfs.Hash] using h1, ?_, ?_⟩
      · intro b hb
        cases hl : lastRawLeaves rest <;> simp [lastRawLeaves, hl] at hb
        exact h2 b (by rw [hl, hb])
      · intro hn
        cases hl : lastRawLeaves rest <;> simp [lastRawLeaves, hl] at hn
        exact h3 hl
    | Inline enable =>
      obtain ⟨options, h1, h2, h3⟩ := ih { start with Inline := enable }
      refine ⟨options, by simpa [applyOpts, AddOpt.toOption, Unixfs.Inline] using h1, ?_, ?_⟩
      · intro b hb
        cases hl : lastRawLeaves rest <;> simp [lastRawLeaves, hl] at hb
        exact h2 b (by rw [hl, hb])
      · intro hn
        cases hl : lastRawLeaves rest <;> simp [lastRawLeaves, hl] at hn
        exact h3 hl
    | InlineLimit limit =>
      obtain ⟨options, h1, h2, h3⟩ := ih { start with InlineLimit := limit }
      refine ⟨options, by simpa [applyOpts, AddOpt.toOption, Unixfs.InlineLimit] using h1, ?_, ?_⟩
      · intro b hb
        cases hl : lastRawLeaves rest <;> simp [lastRawLeaves, hl] at hb
        exact h2 b (by rw [hl, hb])
      · intro hn
        cases hl : lastRawLeaves rest <;> simp [lastRawLeaves, hl] at hn
        exact h3 hl
    | Chunker chunker =>
      obtain ⟨options, h1, h2, h3⟩ := ih { start with Chunker := chunker }
      refine ⟨options, by simpa [applyOpts, AddOpt.toOption, Unixfs.Chunker] using h1, ?_, ?_⟩
      · intro b hb
        cases hl : lastRawLeaves rest <;> simp [lastRawLeaves, hl] at hb
        exact h2 b (by rw [hl, hb])
      · intro hn
        cases hl : lastRawLeaves rest <;> simp [lastRawLeaves, hl] at hn
        exact h3 hl
    | Layout layout =>
      obtain ⟨options, h1, h2, h3⟩ := ih { start with Layout := layout }
      refine ⟨options, by simpa [applyOpts, AddOpt.toOption, Unixfs.Layout] using h1, ?_, ?_⟩
      · intro b hb
        cases hl : lastRawLeaves rest <;> simp [lastRawLeaves, hl] at hb
        exact h2 b (by rw [hl, hb])
      · intro hn
        cases hl : lastRawLeaves rest <;> simp [lastRawLeaves, hl] at hn
        exact h3 hl
    | Events sink =>
      obtain ⟨options, h1, h2, h3⟩ := ih { start with Events := sink }
      refine ⟨options, by simpa [applyOpts, AddOpt.toOption, Unixfs.Events] using h1, ?_, ?_⟩
      · intro b hb
        cases hl : lastRawLeaves rest <;> simp [lastRawLeaves, hl] at hb
        exact h2 b (by rw [hl, hb])
      · intro hn
        cases hl : lastRawLeaves rest <;> simp [lastRawLeaves, hl] at hn
        exact h3 hl

/-- The version resolution leaves `RawLeaves` alone when it was set, and otherwise
switches it on exactly for a resolved version above 0. -/
theorem resolveVersion_rawLeaves (options resolved : UnixfsAddSettings)
    (h : resolveVersion options = .ok resolved) :
    (options.RawLeavesSet = true → resolved.RawLeaves = options.RawLeaves) ∧
      (options.RawLeavesSet = false → options.RawLeaves = false →
        (resolved.RawLeaves = true ↔ resolved.CidVersion > 0)) := by
  unfold resolveVersion at h
  simp only at h
  split at h
  · simp at h
  · rename_i r hr
    have hrs : r.RawLeavesSet = options.RawLeavesSet ∧ r.RawLeaves = options.RawLeaves := by
      split at hr
      · split at hr
        · simp at hr
        · split at hr
          · simp only [Except.ok.injEq] at hr; subst hr; exact ⟨rfl, rfl⟩
          · simp at hr
      · split at hr
        · simp only [Except.ok.injEq] at hr; subst hr; exact ⟨rfl, rfl⟩
        · simp only [Except.ok.injEq] at hr; subst hr; exact ⟨rfl, rfl⟩
    split at h
    · rename_i hc
      simp only [Except.ok.injEq] at h
      subst h
      refine ⟨fun hs => ?_, fun _ _ => ?_⟩
      · rw [hrs.1, hs] at hc
        simp at hc
      · simp [hc.1]
    · rename_i hc
      simp only [Except.ok.injEq] at h
      subst h
      refine ⟨fun _ => hrs.2, fun hs hf => ?_⟩
      rw [hrs.2, hf]
      rw [hrs.1, hs] at hc
      simp only [Bool.false_eq_true, not_false_eq_true, and_true, not_lt] at hc
      simp only [Bool.false_eq_true, gt_iff_lt, false_iff, not_lt]
      exact hc

/-- C17. Whenever `UnixfsAddOptions` succeeds on options of the package, with a prefix
lookup that succeeds for the versions 0 and 1 only: if a `RawLeaves` option was given,
the resolved `RawLeaves` is the value of the last one; if none was given, `RawLeaves`
is true exactly when the resolved CID version is 1. -/
theorem unixfsAddOptions_rawLeaves (prefixFor : Int → Except String Prefix)
    (hpf : ∀ (v : Int) (p : Prefix), prefixFor v = .ok p → v = 0 ∨ v = 1)
    (opts : List AddOpt) (settings : UnixfsAddSettings) (pfx : Prefix)
    (h : UnixfsAddOptions prefixFor (opts.map AddOpt.toOption) = (some settings, pfx, none)) :
    (∀ enable, lastRawLeaves opts = some enable → settings.RawLeaves = enable) ∧
      (lastRawLeaves opts = none →
        (settings.RawLeaves = true ↔ settings.CidVersion = 1)) := by
  obtain ⟨options, h1, h2, h3⟩ := applyOpts_rawLeaves opts defaultSettings
  unfold UnixfsAddOptions at h
  rw [h1] at h
  simp only at h
  cases hres : resolveVersion options with
  | error err => rw [hres] at h; simp at h
  | ok resolved =>
    rw [hres] at h
    simp only at h
    cases hp : prefixFor resolved.CidVersion with
    | error err => rw [hp] at h; simp at h
    | ok p =>
      rw [hp] at h
      simp only [Prod.mk.injEq, Option.some.injEq, and_true] at h
      obtain ⟨hs, _⟩ := h
      subst hs
      have hv := hpf _ p hp
      have hr := resolveVersion_rawLeaves options resolved hres
      refine ⟨fun b hb => ?_, fun hn => ?_⟩
      · rw [hr.1 (h2 b hb).2]
        exact (h2 b hb).1
      · have h3' := h3 hn
        have := hr.2 h3'.2 h3'.1
        rw [this]
        omega

theorem unixfsAddOptions_rawLeaves_witness :
    (∀ enable, lastRawLeaves [.RawLeaves true, .Hash 0x13, .RawLeaves false] = some enable →
        ({ defaultSettings with
            CidVersion := 1, MhType := 0x13, RawLeaves := false, RawLeavesSet := true }
          : UnixfsAddSettings).RawLeaves = enable) ∧
      (lastRawLeaves [.RawLeaves true, .Hash 0x13, .RawLeaves false] = none →
        (({ defaultSettings with
            CidVersion := 1, MhType := 0x13, RawLeaves := false, RawLeavesSet := true }
          : UnixfsAddSettings).RawLeaves = true ↔
         ({ defaultSettings with
            CidVersion := 1, MhType := 0x13, RawLeaves := false, RawLeavesSet := true }
          : UnixfsAddSettings).CidVersion = 1)) :=
  unixfsAddOptions_rawLeaves PrefixForCidVersion
    (fun v p hp => by
      unfold PrefixForCidVersion at hp
      by_cases h0 : v = 0
      · exact Or.inl h0
      · by_cases h1 : v = 1
        · exact Or.inr h1
        · simp [h0, h1] at hp)
    [.RawLeaves true, .Hash 0x13, .RawLeaves false]
    { defaultSettings with
      CidVersion := 1, MhType := 0x13, RawLeaves := false, RawLeavesSet := true }
    ⟨1, DagProtobuf, 0x13, -1⟩ rfl

end Options

/-! ## The import coordinator -/

namespace Adder

/-- `addFileNode` is the eviction step followed by the type switch. -/
theorem addFileNode_eq (env : Env) (file : FNode) (adder : Adder) (path : Path)
    (toplevel : Bool) :
    addFileNode env file adder path toplevel =
      match adder.countLive env with
      | (adder, some err) => (adder, some err)
      | (adder, none) => adder.dispatch env path file toplevel := by
  cases file <;> simp only [addFileNode, dispatch, addDir]

/-- C8. The eviction step of `addFileNode`, for a threshold that fits a `uint64`.
At or above the threshold `FlushMemFree` is called exactly once; when it succeeds the
count is reset before the node is counted, so the node is dispatched with the count 1
and the MFS root unchanged; when it fails its error is returned and nothing is
dispatched.  Below the threshold there is no flush and the count goes up by exactly 1. -/
theorem countLive_step (env : Env) (adder : Adder) (hT : env.liveCacheSize < 2 ^ 64) :
    (adder.liveNodes ≥ env.liveCacheSize →
      (adder.countLive env).1.flushes = adder.flushes + 1 ∧
      (env.flushErr adder.flushes = none →
        adder.countLive env
            = ({ adder.mfsRoot.1 with flushes := adder.flushes + 1, liveNodes := 1 }, none) ∧
        ∀ file path toplevel, addFileNode env file adder path toplevel
            = dispatch env { adder.mfsRoot.1 with flushes := adder.flushes + 1, liveNodes := 1 }
                path file toplevel) ∧
      (∀ err, env.flushErr adder.flushes = some err →
        (adder.countLive env).2 = some err ∧
        (adder.countLive env).1.liveNodes = adder.liveNodes ∧
        ∀ file path toplevel,
          addFileNode env file adder path toplevel = adder.countLive env)) ∧
    (adder.liveNodes < env.liveCacheSize →
      adder.countLive env = ({ adder with liveNodes := adder.liveNodes + 1 }, none) ∧
      ∀ file path toplevel, addFileNode env file adder path toplevel
          = dispatch env { adder with liveNodes := adder.liveNodes + 1 } path file toplevel) := by
  constructor
  · intro hge
    have hroot : adder.mfsRoot.1.flushes = adder.flushes := by
      unfold mfsRoot; cases adder.mroot <;> rfl
    have hroot' : adder.mfsRoot.1.liveNodes = adder.liveNodes := by
      unfold mfsRoot; cases adder.mroot <;> rfl
    refine ⟨?_, ?_, ?_⟩
    · unfold countLive
      simp only [hge, if_true, hroot]
      cases env.flushErr adder.flushes <;> simp [hroot]
    · intro hnone
      have hc : adder.countLive env
          = ({ adder.mfsRoot.1 with flushes := adder.flushes + 1, liveNodes := 1 }, none) := by
        unfold countLive
        simp [hge, hroot, hnone]
      refine ⟨hc, fun file path toplevel => ?_⟩
      rw [addFileNode_eq, hc]
    · intro err herr
      have hc : adder.countLive env
          = ({ adder.mfsRoot.1 with flushes := adder.flushes + 1 }, some err) := by
        unfold countLive
        simp [hge, hroot, herr]
      refine ⟨by rw [hc], by rw [hc]; exact hroot', fun file path toplevel => ?_⟩
      rw [addFileNode_eq, hc]
  · intro hlt
    have hc : adder.countLive env = ({ adder with liveNodes := adder.liveNodes + 1 }, none) := by
      have h64 : adder.liveNodes + 1 < 18446744073709551616 := by omega
      unfold countLive
      simp [Nat.not_le.mpr hlt, h64]
    refine ⟨hc, fun file path toplevel => ?_⟩
    rw [addFileNode_eq, hc]


theorem countLive_step_witness :
    ({ NewAdder with liveNodes := 2 } : Adder).countLive (Sample.env 2)
        = ({ NewAdder with mroot := some [], flushes := 1, liveNodes := 1 }, none) ∧
      ({ NewAdder with liveNodes := 1 } : Adder).countLive (Sample.env 2)
        = ({ NewAdder with liveNodes := 2 }, none) :=
  ⟨(((countLive_step (Sample.env 2) { NewAdder with liveNodes := 2 } (by decide)).1
      (by decide)).2.1 rfl).1,
    ((countLive_step (Sample.env 2) { NewAdder with liveNodes := 1 } (by decide)).2
      (by decide)).1⟩

/-! ### The live-node count is touched by the eviction step only -/

theorem mfsRoot_count (adder : Adder) :
    adder.mfsRoot.1.liveNodes = adder.liveNodes ∧ adder.mfsRoot.1.flushes = adder.flushes := by
  unfold mfsRoot
  cases adder.mroot <;> simp

theorem addNode_count (env : Env) (adder : Adder) (node : Node) (path : Path) :
    (adder.addNode env node path).1.liveNodes = adder.liveNodes ∧
      (adder.addNode env node path).1.flushes = adder.flushes := by
  have h := mfsRoot_count adder
  unfold addNode
  cases hr : adder.mfsRoot with
  | mk a mr =>
    rw [hr] at h
    simp only
    split
    · exact h
    · split <;> exact h

theorem addFile_count (env : Env) (adder : Adder) (path : Path)
    (file : Except String (List Nat)) :
    (adder.addFile env path file).1.liveNodes = adder.liveNodes ∧
      (adder.addFile env path file).1.flushes = adder.flushes := by
  unfold addFile add
  cases file with
  | error err => simp
  | ok data => exact addNode_count env adder _ path

theorem addDirMkdir_count (adder : Adder) (path : Path) (toplevel : Bool) :
    (adder.addDirMkdir path toplevel).1.liveNodes = adder.liveNodes ∧
      (adder.addDirMkdir path toplevel).1.flushes = adder.flushes := by
  have h := mfsRoot_count adder
  unfold addDirMkdir
  split
  · cases hr : adder.mfsRoot with
    | mk a mr =>
      rw [hr] at h
      simp only
      split <;> exact h
  · simp

/-- The eviction step keeps the count between 1 and the threshold. -/
theorem countLive_bounds (env : Env) (adder : Adder) (hT1 : 1 ≤ env.liveCacheSize)
    (hT : env.liveCacheSize < 2 ^ 64) (h : adder.liveNodes ≤ env.liveCacheSize) :
    1 ≤ (adder.countLive env).1.liveNodes ∧
      (adder.countLive env).1.liveNodes ≤ env.liveCacheSize := by
  have hr := mfsRoot_count adder
  unfold countLive
  by_cases hge : adder.liveNodes ≥ env.liveCacheSize
  · simp only [hge, if_true]
    cases env.flushErr adder.mfsRoot.1.flushes with
    | some err => simp only [hr.1]; omega
    | none =>
      have h1 : (0 + 1) % 2 ^ 64 = 1 := by norm_num
      simp only [h1]
      omega
  · have h64 : (adder.liveNodes + 1) % 2 ^ 64 = adder.liveNodes + 1 :=
      Nat.mod_eq_of_lt (by omega)
    simp only [hge, if_false, h64]
    omega

mutual
/-- A visit that starts with the count within the threshold ends with the count
between 1 and the threshold. -/
theorem addFileNode_bounds (env : Env) (hT1 : 1 ≤ env.liveCacheSize)
    (hT : env.liveCacheSize < 2 ^ 64) :
    ∀ (file : FNode) (adder : Adder) (path : Path) (toplevel : Bool),
      adder.liveNodes ≤ env.liveCacheSize →
      1 ≤ (addFileNode env file adder path toplevel).1.liveNodes ∧
        (addFileNode env file adder path toplevel).1.liveNodes ≤ env.liveCacheSize
  | .dir entries iterErr, adder, path, toplevel, h => by
    have hc := countLive_bounds env adder hT1 hT h
    rw [addFileNode]
    cases hcl : adder.countLive env with
    | mk a e =>
      rw [hcl] at hc
      cases e with
      | some err => exact hc
      | none =>
        have hm := addDirMkdir_count a path toplevel
        simp only
        cases hmk : a.addDirMkdir path toplevel with
        | mk a' e' =>
          rw [hmk] at hm
          simp only at hc hm ⊢
          cases e' with
          | some err => simp only [hm.1]; exact hc
          | none =>
            exact addDirLoop_bounds env hT1 hT entries iterErr a' path (by rw [hm.1]; exact hc)
  | .symlink target, adder, path, _, h => by
    have hc := countLive_bounds env adder hT1 hT h
    rw [addFileNode]
    cases hcl : adder.countLive env with
    | mk a e =>
      rw [hcl] at hc
      cases e with
      | some err => exact hc
      | none =>
        simp only [addSymlink, (addNode_count env a _ path).1]
        exact hc
  | .file content, adder, path, _, h => by
    have hc := countLive_bounds env adder hT1 hT h
    rw [addFileNode]
    cases hcl : adder.countLive env with
    | mk a e =>
      rw [hcl] at hc
      cases e with
      | some err => exact hc
      | none =>
        simp only [(addFile_count env a path content).1]
        exact hc
  | .other, adder, _, _, h => by
    have hc := countLive_bounds env adder hT1 hT h
    rw [addFileNode]
    cases hcl : adder.countLive env with
    | mk a e =>
      rw [hcl] at hc
      cases e <;> exact hc
theorem addDirLoop_bounds (env : Env) (hT1 : 1 ≤ env.liveCacheSize)
    (hT : env.liveCacheSize < 2 ^ 64) :
    ∀ (entries : List (String × FNode)) (iterErr : Option String) (adder : Adder) (path : Path),
      (1 ≤ adder.liveNodes ∧ adder.liveNodes ≤ env.liveCacheSize) →
      1 ≤ (addDirLoop env entries iterErr adder path).1.liveNodes ∧
        (addDirLoop env entries iterErr adder path).1.liveNodes ≤ env.liveCacheSize
  | [], _, adder, _, h => by
    rw [addDirLoop]
    exact h
  | (name, node) :: rest, iterErr, adder, path, h => by
    have h1 := addFileNode_bounds env hT1 hT node adder (path ++ [name]) false h.2
    rw [addDirLoop]
    cases hv : addFileNode env node adder (path ++ [name]) false with
    | mk a e =>
      rw [hv] at h1
      cases e with
      | some err => exact h1
      | none => exact addDirLoop_bounds env hT1 hT rest iterErr a path h1
end

/-- C9. The default threshold is 262144, and for every threshold from 1 up (within a
`uint64`), starting from a count of 0, the count after each of n >= 1 visits of
`addFileNode` is between 1 and the threshold inclusive; likewise a whole call of
`addFileNode` on any tree, nested visits included, that starts within the threshold
leaves the count between 1 and the threshold. -/
theorem liveNodes_bounded (env : Env) (hT1 : 1 ≤ env.liveCacheSize)
    (hT : env.liveCacheSize < 2 ^ 64) (adder : Adder) (h0 : adder.liveNodes = 0)
    (n : Nat) (hn : 1 ≤ n) :
    liveCacheSize = 262144 ∧
    (1 ≤ (adder.countAfter env n).liveNodes ∧
      (adder.countAfter env n).liveNodes ≤ env.liveCacheSize) ∧
    (∀ (file : FNode) (path : Path) (toplevel : Bool),
      1 ≤ (addFileNode env file (adder.countAfter env n) path toplevel).1.liveNodes ∧
        (addFileNode env file (adder.countAfter env n) path toplevel).1.liveNodes
          ≤ env.liveCacheSize) := by
  have hle : ∀ m, (adder.countAfter env m).liveNodes ≤ env.liveCacheSize := by
    intro m
    induction m with
    | zero => simp [countAfter, h0]
    | succ m ih => exact (countLive_bounds env _ hT1 hT ih).2
  refine ⟨by decide, ?_, fun file path toplevel =>
    addFileNode_bounds env hT1 hT file _ path toplevel (hle n)⟩
  obtain ⟨m, rfl⟩ : ∃ m, n = m + 1 := ⟨n - 1, by omega⟩
  exact countLive_bounds env _ hT1 hT (hle m)

theorem liveNodes_bounded_witness :
    1 ≤ (NewAdder.countAfter (Sample.env 2) 5).liveNodes ∧
      (NewAdder.countAfter (Sample.env 2) 5).liveNodes ≤ 2 :=
  (liveNodes_bounded (Sample.env 2) (by decide) (by decide) NewAdder rfl 5 (by decide)).2.1

/-- The loop of `addDir` after a run of successful entries goes on with the rest. -/
theorem addDirLoop_append (env : Env) (path : Path) (iterErr : Option String)
    (pre post : List (String × FNode)) (a a1 : Adder) (h : Visited env path a pre a1) :
    addDirLoop env (pre ++ post) iterErr a path = addDirLoop env post iterErr a1 path := by
  induction h with
  | nil a => rfl
  | cons a b c name node rest hstep _ ih =>
    rw [List.cons_append, addDirLoop, hstep]
    exact ih

/-- The loop of `addDir` either visits every entry or stops at the first failing one. -/
theorem addDirLoop_cases (env : Env) (path : Path) :
    ∀ (entries : List (String × FNode)) (a : Adder),
      (∃ a', Visited env path a entries a') ∨
      (∃ pre name node post a1 a2 err, entries = pre ++ (name, node) :: post ∧
        Visited env path a pre a1 ∧
        addFileNode env node a1 (path ++ [name]) false = (a2, some err))
  | [], a => Or.inl ⟨a, .nil a⟩
  | (name, node) :: rest, a => by
    cases hstep : addFileNode env node a (path ++ [name]) false with
    | mk a1 e =>
      cases e with
      | some err =>
        exact Or.inr ⟨[], name, node, rest, a, a1, err, rfl, .nil a, hstep⟩
      | none =>
        rcases addDirLoop_cases env path rest a1 with ⟨a', h⟩ | ⟨pre, n, nd, post, b1, b2, err, he, hv, hf⟩
        · exact Or.inl ⟨a', .cons a a1 a' name node rest hstep h⟩
        · refine Or.inr ⟨(name, node) :: pre, n, nd, post, b1, b2, err, ?_, ?_, hf⟩
          · rw [he]; rfl
          · exact .cons a a1 b1 name node pre hstep hv

/-- C10. Once the head of `addDir` has passed (the directory is made, or it is the
top-level root), leaving the adder `a0`: if every entry is added without error, in
the directory's order, each at join(path, name) with toplevel = false, `addDir`
returns the iterator's own error; if the entries before some entry are added so and
that entry fails, `addDir` returns that error with the adder as the failing call
left it, whatever entries follow; and one of the two always happens. -/
theorem addDir_visits (env : Env) (adder a0 : Adder) (path : Path)
    (entries : List (String × FNode)) (iterErr : Option String) (toplevel : Bool)
    (hmk : adder.addDirMkdir path toplevel = (a0, none)) :
    (∀ a', Visited env path a0 entries a' →
      adder.addDir env path entries iterErr toplevel = (a', iterErr)) ∧
    (∀ pre name node post a1 a2 err, entries = pre ++ (name, node) :: post →
      Visited env path a0 pre a1 →
      addFileNode env node a1 (path ++ [name]) false = (a2, some err) →
      adder.addDir env path entries iterErr toplevel = (a2, some err)) ∧
    ((∃ a', Visited env path a0 entries a') ∨
      (∃ pre name node post a1 a2 err, entries = pre ++ (name, node) :: post ∧
        Visited env path a0 pre a1 ∧
        addFileNode env node a1 (path ++ [name]) false = (a2, some err))) := by
  refine ⟨?_, ?_, addDirLoop_cases env path entries a0⟩
  · intro a' hv
    have h := addDirLoop_append env path iterErr entries [] a0 a' hv
    rw [List.append_nil] at h
    rw [addDir, hmk]
    simp only
    rw [h, addDirLoop]
  · intro pre name node post a1 a2 err he hv hf
    have h := addDirLoop_append env path iterErr pre ((name, node) :: post) a0 a1 hv
    rw [addDir, hmk]
    simp only
    rw [he, h, addDirLoop, hf]

theorem addDir_visits_witness :
    NewAdder.addDir (Sample.env 2) ["d"] Sample.entries none false
      = ({ NewAdder with
            mroot := some [("d", .dir [("a", .file [])])], liveNodes := 2 },
          some "unknown file type") :=
  (addDir_visits (Sample.env 2) NewAdder { NewAdder with mroot := some [("d", .dir [])] }
      ["d"] Sample.entries none false rfl).2.1
    [("a", .file (.ok []))] "b" .other [("c", .file (.ok [1]))]
    { NewAdder with mroot := some [("d", .dir [("a", .file [])])], liveNodes := 1 }
    { NewAdder with mroot := some [("d", .dir [("a", .file [])])], liveNodes := 2 }
    "unknown file type" rfl
    (.cons _ _ _ "a" (.file (.ok [])) [] rfl (.nil _)) rfl

/-! ### The content of the adder does not depend on the eviction policy -/

theorem mfsRoot_eq (adder : Adder) :
    adder.mfsRoot = ({ adder with mroot := some adder.rootLinks }, adder.rootLinks) := by
  unfold rootLinks mfsRoot
  cases h : adder.mroot with
  | none => rfl
  | some mr =>
    cases adder
    simp only at h
    subst h
    rfl

theorem rootLinks_mk (adder : Adder) (mr : Links) :
    ({ adder with mroot := some mr } : Adder).rootLinks = mr := rfl

/-- The eviction step changes neither content nor outcome, as long as the flush
succeeds. -/
theorem countLive_content (env : Env) (adder : Adder)
    (hflush : ∀ k, env.flushErr k = none) :
    (adder.countLive env).2 = none ∧ SameContent (adder.countLive env).1 adder := by
  by_cases hge : adder.liveNodes ≥ env.liveCacheSize
  · have hc : adder.countLive env
        = ({ adder with mroot := some adder.rootLinks, flushes := adder.flushes + 1,
                        liveNodes := (0 + 1) % 2 ^ 64 }, none) := by
      unfold countLive
      rw [if_pos hge, mfsRoot_eq]
      simp only [hflush]
    rw [hc]
    exact ⟨rfl, rfl, rfl, rfl⟩
  · have hc : adder.countLive env
        = ({ adder with liveNodes := (adder.liveNodes + 1) % 2 ^ 64 }, none) := by
      unfold countLive
      rw [if_neg hge]
    rw [hc]
    refine ⟨rfl, ?_, rfl, rfl⟩
    unfold rootLinks mfsRoot
    simp only
    cases adder.mroot <;> rfl

theorem addNode_content (env1 env2 : Env) (hcid : env1.cidString = env2.cidString)
    (a b : Adder) (h : SameContent a b) (node : Node) (path : Path) :
    (a.addNode env1 node path).2 = (b.addNode env2 node path).2 ∧
      SameContent (a.addNode env1 node path).1 (b.addNode env2 node path).1 := by
  obtain ⟨hr, ho, hc⟩ := h
  unfold addNode
  rw [mfsRoot_eq a, mfsRoot_eq b, hcid, hr, hc]
  simp only
  split
  · exact ⟨rfl, rfl, ho, rfl⟩
  · split
    · exact ⟨rfl, rfl, ho, rfl⟩
    · exact ⟨rfl, rfl, ho, rfl⟩

theorem addFile_content (env1 env2 : Env) (hcid : env1.cidString = env2.cidString)
    (a b : Adder) (h : SameContent a b) (path : Path) (file : Except String (List Nat)) :
    (a.addFile env1 path file).2 = (b.addFile env2 path file).2 ∧
      SameContent (a.addFile env1 path file).1 (b.addFile env2 path file).1 := by
  unfold addFile add
  cases file with
  | error err => exact ⟨rfl, h⟩
  | ok data => exact addNode_content env1 env2 hcid a b h _ path

theorem addDirMkdir_content (a b : Adder) (h : SameContent a b) (path : Path)
    (toplevel : Bool) :
    (a.addDirMkdir path toplevel).2 = (b.addDirMkdir path toplevel).2 ∧
      SameContent (a.addDirMkdir path toplevel).1 (b.addDirMkdir path toplevel).1 := by
  obtain ⟨hr, ho, hc⟩ := h
  unfold addDirMkdir
  split
  · rw [mfsRoot_eq a, mfsRoot_eq b, hr]
    simp only
    split
    · exact ⟨rfl, rfl, ho, hc⟩
    · exact ⟨rfl, rfl, ho, hc⟩
  · exact ⟨rfl, hr, ho, hc⟩

theorem SameContent.trans {a b c : Adder} (h1 : SameContent a b) (h2 : SameContent b c) :
    SameContent a c :=
  ⟨h1.1.trans h2.1, h1.2.1.trans h2.2.1, h1.2.2.trans h2.2.2⟩

theorem SameContent.symm {a b : Adder} (h : SameContent a b) : SameContent b a :=
  ⟨h.1.symm, h.2.1.symm, h.2.2.symm⟩

/-- Two eviction steps under different thresholds, with flushes that succeed,
keep two adders of the same content so. -/
theorem countLive_sim (env1 env2 : Env) (hf1 : ∀ k, env1.flushErr k = none)
    (hf2 : ∀ k, env2.flushErr k = none) (a b : Adder) (h : SameContent a b) :
    ∃ a' b', a.countLive env1 = (a', none) ∧ b.countLive env2 = (b', none) ∧
      SameContent a' b' := by
  have h1 := countLive_content env1 a hf1
  have h2 := countLive_content env2 b hf2
  refine ⟨(a.countLive env1).1, (b.countLive env2).1, ?_, ?_, ?_⟩
  · exact Prod.ext rfl h1.1
  · exact Prod.ext rfl h2.1
  · exact (h1.2.trans h).trans h2.2.symm

mutual
theorem addFileNode_content (env1 env2 : Env) (hcid : env1.cidString = env2.cidString)
    (hf1 : ∀ k, env1.flushErr k = none) (hf2 : ∀ k, env2.flushErr k = none) :
    ∀ (file : FNode) (a b : Adder) (path : Path) (toplevel : Bool), SameContent a b →
      (addFileNode env1 file a path toplevel).2 = (addFileNode env2 file b path toplevel).2 ∧
        SameContent (addFileNode env1 file a path toplevel).1
          (addFileNode env2 file b path toplevel).1
  | .dir entries iterErr, a, b, path, toplevel, h => by
    obtain ⟨a', b', ha, hb, h'⟩ := countLive_sim env1 env2 hf1 hf2 a b h
    rw [addFileNode, addFileNode, ha, hb]
    simp only
    have hm := addDirMkdir_content a' b' h' path toplevel
    cases hma : a'.addDirMkdir path toplevel with
    | mk a2 ea =>
      cases hmb : b'.addDirMkdir path toplevel with
      | mk b2 eb =>
        rw [hma, hmb] at hm
        simp only at hm
        obtain ⟨he, hs⟩ := hm
        subst he
        cases ea with
        | some err => exact ⟨rfl, hs⟩
        | none =>
          exact addDirLoop_content env1 env2 hcid hf1 hf2 entries iterErr a2 b2 path hs
  | .symlink target, a, b, path, _, h => by
    obtain ⟨a', b', ha, hb, h'⟩ := countLive_sim env1 env2 hf1 hf2 a b h
    rw [addFileNode, addFileNode, ha, hb]
    exact addNode_content env1 env2 hcid a' b' h' _ path
  | .file content, a, b, path, _, h => by
    obtain ⟨a', b', ha, hb, h'⟩ := countLive_sim env1 env2 hf1 hf2 a b h
    rw [addFileNode, addFileNode, ha, hb]
    exact addFile_content env1 env2 hcid a' b' h' path content
  | .other, a, b, _, _, h => by
    obtain ⟨a', b', ha, hb, h'⟩ := countLive_sim env1 env2 hf1 hf2 a b h
    rw [addFileNode, addFileNode, ha, hb]
    exact ⟨rfl, h'⟩
theorem addDirLoop_content (env1 env2 : Env) (hcid : env1.cidString = env2.cidString)
    (hf1 : ∀ k, env1.flushErr k = none) (hf2 : ∀ k, env2.flushErr k = none) :
    ∀ (entries : List (String × FNode)) (iterErr : Option String) (a b : Adder) (path : Path),
      SameContent a b →
      (addDirLoop env1 entries iterErr a path).2 = (addDirLoop env2 entries iterErr b path).2 ∧
        SameContent (addDirLoop env1 entries iterErr a path).1
          (addDirLoop env2 entries iterErr b path).1
  | [], _, a, b, _, h => by
    rw [addDirLoop, addDirLoop]
    exact ⟨rfl, h⟩
  | (name, node) :: rest, iterErr, a, b, path, h => by
    have h1 := addFileNode_content env1 env2 hcid hf1 hf2 node a b (path ++ [name]) false h
    rw [addDirLoop, addDirLoop]
    cases hva : addFileNode env1 node a (path ++ [name]) false with
    | mk a2 ea =>
      cases hvb : addFileNode env2 node b (path ++ [name]) false with
      | mk b2 eb =>
        rw [hva, hvb] at h1
        simp only at h1
        obtain ⟨he, hs⟩ := h1
        subst he
        cases ea with
        | some err => exact ⟨rfl, hs⟩
        | none => exact addDirLoop_content env1 env2 hcid hf1 hf2 rest iterErr a2 b2 path hs
end

theorem outputDagnode_content (env1 env2 : Env) (hsize : env1.nodeSize = env2.nodeSize)
    (a b : Adder) (h : SameContent a b) (name : Path) (dn : Node) :
    (a.outputDagnode env1 name dn).2 = none ∧ (b.outputDagnode env2 name dn).2 = none ∧
      SameContent (a.outputDagnode env1 name dn).1 (b.outputDagnode env2 name dn).1 ∧
      (a.outputDagnode env1 name dn).1.mroot = a.mroot := by
  obtain ⟨hr, ho, hc⟩ := h
  cases hout : a.Out with
  | none =>
    have ha : a.outputDagnode env1 name dn = (a, none) := by
      unfold outputDagnode
      rw [hout]
    have hb : b.outputDagnode env2 name dn = (b, none) := by
      unfold outputDagnode
      rw [← ho, hout]
    rw [ha, hb]
    exact ⟨rfl, rfl, ⟨hr, ho, hc⟩, rfl⟩
  | some sent =>
    have ha : a.outputDagnode env1 name dn
        = ({ a with Out := some (sent ++
            [⟨name, dn.Cid a.CidBuilder, toString (env1.nodeSize dn)⟩]) }, none) := by
      unfold outputDagnode
      rw [hout]
    have hb : b.outputDagnode env2 name dn
        = ({ b with Out := some (sent ++
            [⟨name, dn.Cid b.CidBuilder, toString (env2.nodeSize dn)⟩]) }, none) := by
      unfold outputDagnode
      rw [← ho, hout]
    rw [ha, hb]
    refine ⟨rfl, rfl, ⟨?_, ?_, hc⟩, rfl⟩
    · unfold rootLinks mfsRoot at hr ⊢
      simp only
      cases hma : a.mroot <;> cases hmb : b.mroot <;> rw [hma, hmb] at hr <;>
        simp only at hr ⊢ <;> exact hr
    · simp only [hsize, hc]

mutual
theorem outputDirs_content (env1 env2 : Env) (hsize : env1.nodeSize = env2.nodeSize) :
    ∀ (nd : Node) (a b : Adder) (path : Path), SameContent a b →
      (outputDirs env1 nd a path).2 = none ∧ (outputDirs env2 nd b path).2 = none ∧
        SameContent (outputDirs env1 nd a path).1 (outputDirs env2 nd b path).1 ∧
        (outputDirs env1 nd a path).1.mroot = a.mroot
  | .dir links, a, b, path, h => by
    have ih := outputDirsLoop_content env1 env2 hsize links a b path h
    rw [outputDirs, outputDirs]
    cases ha : outputDirsLoop env1 links a path with
    | mk a' ea =>
      cases hb : outputDirsLoop env2 links b path with
      | mk b' eb =>
        rw [ha, hb] at ih
        simp only at ih
        obtain ⟨h1, h2, hs, hm⟩ := ih
        subst h1
        subst h2
        simp only
        have hd := outputDagnode_content env1 env2 hsize a' b' hs path (.dir links)
        exact ⟨hd.1, hd.2.1, hd.2.2.1, hd.2.2.2.trans hm⟩
  | .file _, a, b, _, h => by
    rw [outputDirs, outputDirs]
    exact ⟨rfl, rfl, h, rfl⟩
  | .symlink _, a, b, _, h => by
    rw [outputDirs, outputDirs]
    exact ⟨rfl, rfl, h, rfl⟩
theorem outputDirsLoop_content (env1 env2 : Env) (hsize : env1.nodeSize = env2.nodeSize) :
    ∀ (links : Links) (a b : Adder) (path : Path), SameContent a b →
      (outputDirsLoop env1 links a path).2 = none ∧
        (outputDirsLoop env2 links b path).2 = none ∧
        SameContent (outputDirsLoop env1 links a path).1 (outputDirsLoop env2 links b path).1 ∧
        (outputDirsLoop env1 links a path).1.mroot = a.mroot
  | [], a, b, _, h => by
    rw [outputDirsLoop, outputDirsLoop]
    exact ⟨rfl, rfl, h, rfl⟩
  | (name, child) :: rest, a, b, path, h => by
    have ih := outputDirs_content env1 env2 hsize child a b (path ++ [name]) h
    rw [outputDirsLoop, outputDirsLoop]
    cases ha : outputDirs env1 child a (path ++ [name]) with
    | mk a' ea =>
      cases hb : outputDirs env2 child b (path ++ [name]) with
      | mk b' eb =>
        rw [ha, hb] at ih
        simp only at ih
        obtain ⟨h1, h2, hs, hm⟩ := ih
        subst h1
        subst h2
        simp only
        have ih2 := outputDirsLoop_content env1 env2 hsize rest a' b' path hs
        exact ⟨ih2.1, ih2.2.1, ih2.2.2.1, ih2.2.2.2.trans hm⟩
end

theorem SameContent.refl (a : Adder) : SameContent a a := ⟨rfl, rfl, rfl⟩

/-- The end of `AddAll` returns the chosen root and leaves the MFS root alone. -/
theorem finishAddAll_eq (env : Env) (adder : Adder) (name : Path) (root : Node) :
    (adder.finishAddAll env name root).2 = .ok root ∧
      (adder.finishAddAll env name root).1.mroot = adder.mroot := by
  have h := outputDirs_content env env rfl root adder adder name (SameContent.refl adder)
  unfold finishAddAll
  cases ho : outputDirs env root adder name with
  | mk a e =>
    rw [ho] at h
    simp only at h
    obtain ⟨h1, _, _, hm⟩ := h
    subst h1
    exact ⟨rfl, hm⟩

/-- `AddAll` on two adders of the same content, under two eviction policies whose
flushes succeed, has the same outcome. -/
theorem addAll_content (env1 env2 : Env) (hcid : env1.cidString = env2.cidString)
    (hf1 : ∀ k, env1.flushErr k = none) (hf2 : ∀ k, env2.flushErr k = none)
    (a b : Adder) (h : SameContent a b) (file : FNode) :
    (a.AddAll env1 file).2 = (b.AddAll env2 file).2 := by
  have h1 := addFileNode_content env1 env2 hcid hf1 hf2 file a b [] true h
  unfold AddAll
  cases hva : addFileNode env1 file a [] true with
  | mk a2 ea =>
    cases hvb : addFileNode env2 file b [] true with
    | mk b2 eb =>
      rw [hva, hvb] at h1
      simp only at h1
      obtain ⟨he, hs⟩ := h1
      subst he
      cases ea with
      | some err => rfl
      | none =>
        simp only
        rw [mfsRoot_eq a2, mfsRoot_eq b2, hs.1]
        simp only
        cases file with
        | dir entries iterErr =>
          simp only
          rw [(finishAddAll_eq env1 _ _ _).1, (finishAddAll_eq env2 _ _ _).1]
        | file content =>
          simp only
          split
          · rfl
          · split
            · rfl
            · rw [(finishAddAll_eq env1 _ _ _).1, (finishAddAll_eq env2 _ _ _).1]
        | symlink target =>
          simp only
          split
          · rfl
          · split
            · rfl
            · rw [(finishAddAll_eq env1 _ _ _).1, (finishAddAll_eq env2 _ _ _).1]
        | other =>
          simp only
          split
          · rfl
          · split
            · rfl
            · rw [(finishAddAll_eq env1 _ _ _).1, (finishAddAll_eq env2 _ _ _).1]

/-- C2. With flushes that succeed, `AddAll` on any tree has the same outcome, and so
returns a root with the same CID, under any two thresholds; and the flush-and-reset
step of `addFileNode` leaves the content of the MFS root and the events alone: it
resets the count, which is 1 once the node is counted, and counts one flush. -/
theorem addAll_threshold_independent (env : Env) (hflush : ∀ k, env.flushErr k = none)
    (T1 T2 : Nat) (adder : Adder) (file : FNode) :
    (adder.AddAll { env with liveCacheSize := T1 } file).2
        = (adder.AddAll { env with liveCacheSize := T2 } file).2 ∧
    (∀ nd1 nd2, (adder.AddAll { env with liveCacheSize := T1 } file).2 = .ok nd1 →
      (adder.AddAll { env with liveCacheSize := T2 } file).2 = .ok nd2 →
      nd1.Cid adder.CidBuilder = nd2.Cid adder.CidBuilder) ∧
    (∀ a : Adder, a.liveNodes ≥ T1 →
      (a.countLive { env with liveCacheSize := T1 }).1.rootLinks = a.rootLinks ∧
      (a.countLive { env with liveCacheSize := T1 }).1.Out = a.Out ∧
      (a.countLive { env with liveCacheSize := T1 }).1.liveNodes = 1 ∧
      (a.countLive { env with liveCacheSize := T1 }).1.flushes = a.flushes + 1) := by
  have hmain := addAll_content { env with liveCacheSize := T1 } { env with liveCacheSize := T2 }
    rfl hflush hflush adder adder (SameContent.refl adder) file
  refine ⟨hmain, ?_, ?_⟩
  · intro nd1 nd2 h1 h2
    rw [hmain, h2] at h1
    cases h1
    rfl
  · intro a hge
    have hc := countLive_content { env with liveCacheSize := T1 } a hflush
    refine ⟨hc.2.1, hc.2.2.1, ?_, ?_⟩
    · unfold countLive
      rw [if_pos hge, mfsRoot_eq]
      simp only [hflush]
      norm_num
    · unfold countLive
      rw [if_pos hge, mfsRoot_eq]
      simp only [hflush]

theorem addAll_threshold_independent_witness :
    (NewAdder.AddAll { Sample.env 0 with liveCacheSize := 1 }
        (.dir [("a", .file (.ok [1]))] none)).2
      = (NewAdder.AddAll { Sample.env 0 with liveCacheSize := 1000 }
        (.dir [("a", .file (.ok [1]))] none)).2 ∧
    (NewAdder.AddAll { Sample.env 0 with liveCacheSize := 1 }
        (.dir [("a", .file (.ok [1]))] none)).2 = .ok (.dir [("a", .file [1])]) ∧
    (NewAdder.AddAll { Sample.env 0 with liveCacheSize := 1 }
        (.dir [("a", .file (.ok [1]))] none)).1.flushes = 1 ∧
    (NewAdder.AddAll { Sample.env 0 with liveCacheSize := 1000 }
        (.dir [("a", .file (.ok [1]))] none)).1.flushes = 0 :=
  ⟨(addAll_threshold_independent (Sample.env 0) (fun _ => rfl) 1 1000 NewAdder
      (.dir [("a", .file (.ok [1]))] none)).1, rfl, rfl, rfl⟩

/-- The unwrapping of `AddAll` for an input that is not a directory: a successful
outcome is the child under the first name listed. -/
theorem unwrap_result (env : Env) (a adder' : Adder) (rootdir : Links) (nd : Node)
    (h : (match Mfs.ListNames rootdir with
          | [] => (a, Except.error "expected at least one child dir, got none")
          | name :: _ =>
            match Mfs.Child rootdir name with
            | none => (a, Except.error "file does not exist")
            | some root => a.finishAddAll env [name] root) = (adder', Except.ok nd)) :
    adder'.mroot = a.mroot ∧
      ∃ name rest, Mfs.ListNames rootdir = name :: rest ∧ Mfs.Child rootdir name = some nd := by
  cases hl : Mfs.ListNames rootdir with
  | nil =>
    rw [hl] at h
    simp at h
  | cons name rest =>
    rw [hl] at h
    simp only at h
    cases hc : Mfs.Child rootdir name with
    | none =>
      rw [hc] at h
      simp at h
    | some root =>
      rw [hc] at h
      simp only at h
      have hf := finishAddAll_eq env a [name] root
      rw [h] at hf
      simp only at hf
      cases hf.1
      exact ⟨hf.2, name, rest, rfl, hc⟩

/-- C6. When `AddAll` succeeds the MFS root exists, and the node returned is the node
of the root directory if the input is a Directory, and otherwise the child of the
root directory under the first name that `ListNames` reports. -/
theorem addAll_result (env : Env) (adder adder' : Adder) (file : FNode) (nd : Node)
    (h : adder.AddAll env file = (adder', .ok nd)) :
    ∃ rootdir, adder'.mroot = some rootdir ∧
      ((∃ entries iterErr, file = .dir entries iterErr) → nd = .dir rootdir) ∧
      ((∀ entries iterErr, file ≠ .dir entries iterErr) →
        ∃ name rest, Mfs.ListNames rootdir = name :: rest ∧
          Mfs.Child rootdir name = some nd) := by
  unfold AddAll at h
  cases hv : addFileNode env file adder [] true with
  | mk a e =>
    rw [hv] at h
    cases e with
    | some err => simp at h
    | none =>
      simp only at h
      rw [mfsRoot_eq a] at h
      simp only at h
      refine ⟨a.rootLinks, ?_⟩
      cases file with
      | dir entries iterErr =>
        simp only at h
        have hf := finishAddAll_eq env { a with mroot := some a.rootLinks } [] (.dir a.rootLinks)
        rw [h] at hf
        simp only at hf
        cases hf.1
        exact ⟨hf.2, fun _ => rfl, fun hnd => absurd rfl (hnd entries iterErr)⟩
      | file content =>
        have hu := unwrap_result env _ adder' a.rootLinks nd h
        exact ⟨hu.1, fun he => (by obtain ⟨_, _, he⟩ := he; cases he), fun _ => hu.2⟩
      | symlink target =>
        have hu := unwrap_result env _ adder' a.rootLinks nd h
        exact ⟨hu.1, fun he => (by obtain ⟨_, _, he⟩ := he; cases he), fun _ => hu.2⟩
      | other =>
        have hu := unwrap_result env _ adder' a.rootLinks nd h
        exact ⟨hu.1, fun he => (by obtain ⟨_, _, he⟩ := he; cases he), fun _ => hu.2⟩

theorem addAll_result_witness :
    ∃ rootdir,
      ({ NewAdder with mroot := some [("cid-v0-1", .file [1])], liveNodes := 1 } : Adder).mroot
          = some rootdir ∧
      ((∃ entries iterErr, FNode.file (.ok [1]) = .dir entries iterErr) →
        Node.file [1] = .dir rootdir) ∧
      ((∀ entries iterErr, FNode.file (.ok [1]) ≠ .dir entries iterErr) →
        ∃ name rest, Mfs.ListNames rootdir = name :: rest ∧
          Mfs.Child rootdir name = some (Node.file [1])) :=
  addAll_result (Sample.env 2) NewAdder
    { NewAdder with mroot := some [("cid-v0-1", .file [1])], liveNodes := 1 }
    (.file (.ok [1])) (.file [1]) rfl

/-- Quotient and remainder of a successor, by the remainder before. -/
theorem succ_div_mod (T a : Nat) (hT : 0 < T) :
    (a % T + 1 = T → (a + 1) / T = a / T + 1 ∧ (a + 1) % T = 0) ∧
      (a % T + 1 ≠ T → (a + 1) / T = a / T ∧ (a + 1) % T = a % T + 1) := by
  have hdm := Nat.div_add_mod a T
  have hlt := Nat.mod_lt a hT
  constructor
  · intro h
    apply (Nat.div_mod_unique hT).2
    rw [Nat.mul_succ]
    omega
  · intro h
    apply (Nat.div_mod_unique hT).2
    omega

/-- The counters after the eviction step, when flushes succeed and the threshold fits
a `uint64`. -/
theorem countLive_counters (env : Env) (adder : Adder) (hflush : ∀ k, env.flushErr k = none)
    (hT : env.liveCacheSize < 2 ^ 64) :
    (adder.liveNodes ≥ env.liveCacheSize →
      (adder.countLive env).1.liveNodes = 1 ∧
        (adder.countLive env).1.flushes = adder.flushes + 1) ∧
    (adder.liveNodes < env.liveCacheSize →
      (adder.countLive env).1.liveNodes = adder.liveNodes + 1 ∧
        (adder.countLive env).1.flushes = adder.flushes) := by
  have hr := mfsRoot_count adder
  constructor
  · intro hge
    unfold countLive
    simp only [hge, if_true, hflush]
    exact ⟨by norm_num, by rw [hr.2]⟩
  · intro hlt
    unfold countLive
    have hge : ¬ adder.liveNodes ≥ env.liveCacheSize := by omega
    simp only [hge, if_false]
    exact ⟨Nat.mod_eq_of_lt (by omega), trivial⟩

/-- After `n + 1` visits that start from the count 0, the count is `n % T + 1` and
`n / T` flushes have been made. -/
theorem countAfter_counters (env : Env) (adder : Adder) (hT1 : 1 ≤ env.liveCacheSize)
    (hT : env.liveCacheSize < 2 ^ 64) (hflush : ∀ k, env.flushErr k = none)
    (hlive : adder.liveNodes = 0) (n : Nat) :
    (countAfter env adder (n + 1)).liveNodes = n % env.liveCacheSize + 1 ∧
      (countAfter env adder (n + 1)).flushes = adder.flushes + n / env.liveCacheSize := by
  induction n with
  | zero =>
    have h := (countLive_counters env adder hflush hT).2 (by rw [hlive]; omega)
    simp only [countAfter, Nat.zero_mod, Nat.zero_div]
    rw [h.1, h.2, hlive]
    simp
  | succ n ih =>
    have hlt := Nat.mod_lt n (show 0 < env.liveCacheSize by omega)
    have hs := succ_div_mod env.liveCacheSize n (by omega)
    have hc := countLive_counters env (countAfter env adder (n + 1)) hflush hT
    show ((countAfter env adder (n + 1)).countLive env).1.liveNodes = _ ∧
      ((countAfter env adder (n + 1)).countLive env).1.flushes = _
    by_cases hfull : n % env.liveCacheSize + 1 = env.liveCacheSize
    · have h := hc.1 (by rw [ih.1]; omega)
      rw [h.1, h.2, ih.2, (hs.1 hfull).1, (hs.1 hfull).2]
      omega
    · have h := hc.2 (by rw [ih.1]; omega)
      rw [h.1, h.2, ih.1, ih.2, (hs.2 hfull).1, (hs.2 hfull).2]
      omega

/-- C18. For a threshold `T` from 1 up (within a `uint64`), flushes that succeed and a
live-node count that starts at 0: after `n` visits, `n` from 1 up, exactly
`(n - 1) / T` eviction flushes have been made, and visit number `m` makes a flush
exactly when `m = k * T + 1` for some `k` from 1 up; every other visit makes none. -/
theorem flush_count (env : Env) (adder : Adder) (hT1 : 1 ≤ env.liveCacheSize)
    (hT : env.liveCacheSize < 2 ^ 64) (hflush : ∀ k, env.flushErr k = none)
    (hlive : adder.liveNodes = 0) (n : Nat) (hn : 1 ≤ n) :
    (countAfter env adder n).flushes = adder.flushes + (n - 1) / env.liveCacheSize ∧
      ∀ m, 1 ≤ m →
        ((∃ k, 1 ≤ k ∧ m = k * env.liveCacheSize + 1) →
          (countAfter env adder m).flushes = (countAfter env adder (m - 1)).flushes + 1) ∧
        ((¬ ∃ k, 1 ≤ k ∧ m = k * env.liveCacheSize + 1) →
          (countAfter env adder m).flushes = (countAfter env adder (m - 1)).flushes) := by
  constructor
  · obtain ⟨n, rfl⟩ : ∃ k, n = k + 1 := ⟨n - 1, by omega⟩
    exact (countAfter_counters env adder hT1 hT hflush hlive n).2
  · intro m hm
    obtain ⟨m, rfl⟩ : ∃ k, m = k + 1 := ⟨m - 1, by omega⟩
    have h1 := (countAfter_counters env adder hT1 hT hflush hlive m).2
    cases m with
    | zero =>
      simp only [Nat.zero_div, Nat.add_zero] at h1
      constructor
      · rintro ⟨k, hk, hk2⟩
        have : 0 < k * env.liveCacheSize := Nat.mul_pos (by omega) (by omega)
        omega
      · intro _
        rw [h1]
        rfl
    | succ m =>
      have h0 := (countAfter_counters env adder hT1 hT hflush hlive m).2
      have hs := succ_div_mod env.liveCacheSize m (by omega)
      have hdm := Nat.div_add_mod (m + 1) env.liveCacheSize
      simp only [Nat.add_sub_cancel]
      rw [h1, h0]
      constructor
      · rintro ⟨k, hk, hk2⟩
        have hmod : (m + 1) % env.liveCacheSize = 0 := by
          have : m + 1 = k * env.liveCacheSize := by omega
          rw [this]
          exact Nat.mul_mod_left _ _
        by_cases hfull : m % env.liveCacheSize + 1 = env.liveCacheSize
        · rw [(hs.1 hfull).1]; omega
        · rw [(hs.2 hfull).2] at hmod; omega
      · intro hno
        by_cases hfull : m % env.liveCacheSize + 1 = env.liveCacheSize
        · exfalso
          apply hno
          refine ⟨m / env.liveCacheSize + 1, Nat.le_add_left _ _, ?_⟩
          have h2 := (hs.1 hfull)
          rw [h2.1, h2.2] at hdm
          rw [Nat.mul_comm]
          omega
        · rw [(hs.2 hfull).1]

theorem flush_count_witness :
    (countAfter (Sample.env 2) NewAdder 5).flushes = NewAdder.flushes + (5 - 1) / 2 ∧
      ∀ m, 1 ≤ m →
        ((∃ k, 1 ≤ k ∧ m = k * 2 + 1) →
          (countAfter (Sample.env 2) NewAdder m).flushes
            = (countAfter (Sample.env 2) NewAdder (m - 1)).flushes + 1) ∧
        ((¬ ∃ k, 1 ≤ k ∧ m = k * 2 + 1) →
          (countAfter (Sample.env 2) NewAdder m).flushes
            = (countAfter (Sample.env 2) NewAdder (m - 1)).flushes) :=
  flush_count (Sample.env 2) NewAdder (by decide) (by decide) (fun _ => rfl) rfl 5 (by decide)

/-! ### What the walk leaves alone: the event sink and the CID builder -/

theorem mfsRoot_frame (adder : Adder) :
    adder.mfsRoot.1.Out = adder.Out ∧ adder.mfsRoot.1.CidBuilder = adder.CidBuilder := by
  unfold mfsRoot
  cases adder.mroot <;> simp

/-- The eviction step changes neither the sink, nor the CID builder, nor the content
of the MFS root. -/
theorem countLive_frame (env : Env) (adder : Adder) :
    (adder.countLive env).1.Out = adder.Out ∧
      (adder.countLive env).1.CidBuilder = adder.CidBuilder ∧
      (adder.countLive env).1.rootLinks = adder.rootLinks := by
  unfold countLive
  by_cases hge : adder.liveNodes ≥ env.liveCacheSize
  · rw [if_pos hge, mfsRoot_eq]
    simp only
    cases env.flushErr adder.flushes <;> exact ⟨rfl, rfl, rfl⟩
  · rw [if_neg hge]
    refine ⟨rfl, rfl, ?_⟩
    unfold rootLinks mfsRoot
    simp only
    cases adder.mroot <;> rfl

theorem addNode_frame (env : Env) (adder : Adder) (node : Node) (path : Path) :
    (adder.addNode env node path).1.Out = adder.Out ∧
      (adder.addNode env node path).1.CidBuilder = adder.CidBuilder := by
  unfold addNode
  rw [mfsRoot_eq]
  simp only
  split
  · exact ⟨rfl, rfl⟩
  · split <;> exact ⟨rfl, rfl⟩

theorem addFile_frame (env : Env) (adder : Adder) (path : Path)
    (file : Except String (List Nat)) :
    (adder.addFile env path file).1.Out = adder.Out ∧
      (adder.addFile env path file).1.CidBuilder = adder.CidBuilder := by
  unfold addFile add
  cases file with
  | error err => exact ⟨rfl, rfl⟩
  | ok data => exact addNode_frame env adder _ path

theorem addDirMkdir_frame (adder : Adder) (path : Path) (toplevel : Bool) :
    (adder.addDirMkdir path toplevel).1.Out = adder.Out ∧
      (adder.addDirMkdir path toplevel).1.CidBuilder = adder.CidBuilder := by
  unfold addDirMkdir
  split
  · rw [mfsRoot_eq]
    simp only
    split <;> exact ⟨rfl, rfl⟩
  · exact ⟨rfl, rfl⟩

mutual
/-- A visit sends no event and keeps the CID builder. -/
theorem addFileNode_frame (env : Env) :
    ∀ (file : FNode) (adder : Adder) (path : Path) (toplevel : Bool),
      (addFileNode env file adder path toplevel).1.Out = adder.Out ∧
        (addFileNode env file adder path toplevel).1.CidBuilder = adder.CidBuilder
  | .dir entries iterErr, adder, path, toplevel => by
    have hc := countLive_frame env adder
    unfold addFileNode
    cases h1 : adder.countLive env with
    | mk a e =>
      rw [h1] at hc
      cases e with
      | some err => exact ⟨hc.1, hc.2.1⟩
      | none =>
        have hm := addDirMkdir_frame a path toplevel
        simp only
        cases h2 : a.addDirMkdir path toplevel with
        | mk a2 e2 =>
          rw [h2] at hm
          cases e2 with
          | some err => exact ⟨hm.1.trans hc.1, hm.2.trans hc.2.1⟩
          | none =>
            have hl := addDirLoop_frame env entries iterErr a2 path
            exact ⟨hl.1.trans (hm.1.trans hc.1), hl.2.trans (hm.2.trans hc.2.1)⟩
  | .symlink target, adder, path, _ => by
    have hc := countLive_frame env adder
    unfold addFileNode
    cases h1 : adder.countLive env with
    | mk a e =>
      rw [h1] at hc
      cases e with
      | some err => exact ⟨hc.1, hc.2.1⟩
      | none =>
        have hn := addNode_frame env a (.symlink target) path
        exact ⟨hn.1.trans hc.1, hn.2.trans hc.2.1⟩
  | .file content, adder, path, _ => by
    have hc := countLive_frame env adder
    unfold addFileNode
    cases h1 : adder.countLive env with
    | mk a e =>
      rw [h1] at hc
      cases e with
      | some err => exact ⟨hc.1, hc.2.1⟩
      | none =>
        have hn := addFile_frame env a path content
        exact ⟨hn.1.trans hc.1, hn.2.trans hc.2.1⟩
  | .other, adder, _, _ => by
    have hc := countLive_frame env adder
    unfold addFileNode
    cases h1 : adder.countLive env with
    | mk a e =>
      rw [h1] at hc
      cases e with
      | some err => exact ⟨hc.1, hc.2.1⟩
      | none => exact ⟨hc.1, hc.2.1⟩
/-- The loop of `addDir` sends no event and keeps the CID builder. -/
theorem addDirLoop_frame (env : Env) :
    ∀ (entries : List (String × FNode)) (iterErr : Option String) (adder : Adder)
      (path : Path),
      (addDirLoop env entries iterErr adder path).1.Out = adder.Out ∧
        (addDirLoop env entries iterErr adder path).1.CidBuilder = adder.CidBuilder
  | [], _, adder, _ => by
    unfold addDirLoop
    exact ⟨rfl, rfl⟩
  | (name, node) :: rest, iterErr, adder, path => by
    have hv := addFileNode_frame env node adder (path ++ [name]) false
    unfold addDirLoop
    cases h1 : addFileNode env node adder (path ++ [name]) false with
    | mk a e =>
      rw [h1] at hv
      cases e with
      | some err => exact hv
      | none =>
        have hl := addDirLoop_frame env rest iterErr a path
        exact ⟨hl.1.trans hv.1, hl.2.trans hv.2⟩
end

/-- A node added at the empty path into an empty MFS root becomes the only child of
the root, under the string of its CID. -/
theorem addNode_empty_root (env : Env) (adder : Adder) (node : Node)
    (hroot : adder.rootLinks = []) :
    adder.addNode env node []
      = ({ adder with mroot := some [(env.cidString (node.Cid adder.CidBuilder), node)] },
          none) := by
  unfold addNode
  rw [mfsRoot_eq, hroot]
  simp [Mfs.PutNode, Mfs.Child, Mfs.insertLink]

/-- C19. For a top-level input that is not a directory and an adder whose MFS root is
empty: when `addFileNode` succeeds, the root directory has exactly one child, named by
the string of the CID of the imported node, so `ListNames` is not empty, the error
"expected at least one child dir, got none" is not returned, and `AddAll` returns that
child. -/
theorem toplevel_single_child (env : Env) (adder a1 : Adder) (file : FNode)
    (hfile : ∀ entries iterErr, file ≠ .dir entries iterErr)
    (hroot : adder.rootLinks = [])
    (hadd : addFileNode env file adder [] true = (a1, none)) :
    ∃ node : Node,
      a1.rootLinks = [(env.cidString (node.Cid adder.CidBuilder), node)] ∧
      Mfs.ListNames a1.rootLinks = [env.cidString (node.Cid adder.CidBuilder)] ∧
      (adder.AddAll env file).2 = .ok node := by
  have hc := countLive_frame env adder
  have key : ∀ node : Node,
      a1.rootLinks = [(env.cidString (node.Cid adder.CidBuilder), node)] →
      a1.rootLinks = [(env.cidString (node.Cid adder.CidBuilder), node)] ∧
      Mfs.ListNames a1.rootLinks = [env.cidString (node.Cid adder.CidBuilder)] ∧
      (adder.AddAll env file).2 = .ok node := by
    intro node hl
    refine ⟨hl, by rw [hl]; rfl, ?_⟩
    unfold AddAll
    rw [hadd]
    simp only
    rw [mfsRoot_eq, hl]
    cases file with
    | dir entries iterErr => exact absurd rfl (hfile entries iterErr)
    | file content =>
      simp only [Mfs.ListNames, List.map, Mfs.Child, if_true]
      exact (finishAddAll_eq env _ _ node).1
    | symlink target =>
      simp only [Mfs.ListNames, List.map, Mfs.Child, if_true]
      exact (finishAddAll_eq env _ _ node).1
    | other =>
      simp only [Mfs.ListNames, List.map, Mfs.Child, if_true]
      exact (finishAddAll_eq env _ _ node).1
  cases hf : file with
  | dir entries iterErr => exact absurd hf (hfile entries iterErr)
  | other =>
    rw [hf] at hadd
    unfold addFileNode at hadd
    cases h1 : adder.countLive env with
    | mk a e =>
      rw [h1] at hadd
      cases e <;> simp at hadd
  | symlink target =>
    rw [hf] at hadd
    unfold addFileNode at hadd
    cases h1 : adder.countLive env with
    | mk a e =>
      rw [h1] at hadd hc
      cases e with
      | some err => simp at hadd
      | none =>
        simp only [addSymlink] at hadd
        rw [addNode_empty_root env a _ (hc.2.2.trans hroot)] at hadd
        simp only [Prod.mk.injEq, and_true] at hadd
        rw [hc.2.1] at hadd
        refine ⟨.symlink target, ?_⟩
        rw [← hf]
        apply key
        rw [← hadd]; rfl
  | file content =>
    rw [hf] at hadd
    unfold addFileNode at hadd
    cases h1 : adder.countLive env with
    | mk a e =>
      rw [h1] at hadd hc
      cases e with
      | some err => simp at hadd
      | none =>
        cases content with
        | error err => simp [addFile, add] at hadd
        | ok data =>
          simp only [addFile, add] at hadd
          rw [addNode_empty_root env a _ (hc.2.2.trans hroot)] at hadd
          simp only [Prod.mk.injEq, and_true] at hadd
          rw [hc.2.1] at hadd
          refine ⟨.file data, ?_⟩
          rw [← hf]
          apply key
          rw [← hadd]; rfl

theorem toplevel_single_child_witness :
    ∃ node : Node,
      ({ NewAdder with mroot := some [("cid-v0-1", .file [7])], liveNodes := 1 } : Adder).rootLinks
        = [((Sample.env 2).cidString (node.Cid NewAdder.CidBuilder), node)] ∧
      Mfs.ListNames
          ({ NewAdder with mroot := some [("cid-v0-1", .file [7])], liveNodes := 1 }
            : Adder).rootLinks
        = [(Sample.env 2).cidString (node.Cid NewAdder.CidBuilder)] ∧
      (NewAdder.AddAll (Sample.env 2) (.file (.ok [7]))).2 = .ok node :=
  toplevel_single_child (Sample.env 2) NewAdder
    { NewAdder with mroot := some [("cid-v0-1", .file [7])], liveNodes := 1 }
    (.file (.ok [7])) (fun _ _ h => by cases h) rfl rfl

end Adder


/-! ## The events of an import -/

namespace Events

mutual
/-- With a sink, `outputDirs` succeeds and sends the events of the tree in DFS
completion order, after those sent before. -/
theorem outputDirs_events (env : Env) :
    ∀ (node : Node) (adder : Adder) (path : Path) (sent : List AddEvent),
      adder.Out = some sent →
      Adder.outputDirs env node adder path
        = ({ adder with Out := some (sent ++ completionOrder env adder.CidBuilder node path) },
            none)
  | .file data, adder, path, sent, hout => by
    cases adder
    simp only at hout
    subst hout
    simp [Adder.outputDirs, completionOrder]
  | .symlink target, adder, path, sent, hout => by
    cases adder
    simp only at hout
    subst hout
    simp [Adder.outputDirs, completionOrder]
  | .dir links, adder, path, sent, hout => by
    have hl := outputDirsLoop_events env links adder path sent hout
    simp only [Adder.outputDirs, hl, Adder.outputDagnode, completionOrder, dirEvent,
      List.append_assoc]
/-- With a sink, the loop of `outputDirs` succeeds and sends the events of the
subtrees of the children, child by child. -/
theorem outputDirsLoop_events (env : Env) :
    ∀ (links : Links) (adder : Adder) (path : Path) (sent : List AddEvent),
      adder.Out = some sent →
      Adder.outputDirsLoop env links adder path
        = ({ adder with
              Out := some (sent ++ completionOrderOf env adder.CidBuilder links path) }, none)
  | [], adder, path, sent, hout => by
    cases adder
    simp only at hout
    subst hout
    simp [Adder.outputDirsLoop, completionOrderOf]
  | (name, child) :: rest, adder, path, sent, hout => by
    have h1 := outputDirs_events env child adder (path ++ [name]) sent hout
    have h2 := outputDirsLoop_events env rest
      { adder with
        Out := some (sent ++ completionOrder env adder.CidBuilder child (path ++ [name])) }
      path _ rfl
    simp only [Adder.outputDirsLoop, h1, h2, completionOrderOf, List.append_assoc]
end

mutual
/-- There is one event for each directory of the tree. -/
theorem completionOrder_length (env : Env) (pfx : Options.Prefix) :
    ∀ (node : Node) (path : Path), (completionOrder env pfx node path).length = dirCount node
  | .file _, _ => rfl
  | .symlink _, _ => rfl
  | .dir links, path => by
    simp only [completionOrder, dirCount, List.length_append, List.length_singleton,
      completionOrderOf_length env pfx links path]
theorem completionOrderOf_length (env : Env) (pfx : Options.Prefix) :
    ∀ (links : Links) (path : Path),
      (completionOrderOf env pfx links path).length = dirCountOf links
  | [], _ => rfl
  | (name, child) :: rest, path => by
    simp only [completionOrderOf, dirCountOf, List.length_append,
      completionOrder_length env pfx child (path ++ [name]),
      completionOrderOf_length env pfx rest path]
end

mutual
/-- Every event is the event of a directory, at or below the path of the root. -/
theorem completionOrder_mem (env : Env) (pfx : Options.Prefix) :
    ∀ (node : Node) (path : Path), ∀ e ∈ completionOrder env pfx node path,
      path <+: e.Name ∧ ∃ links, e.Path = (Node.dir links).Cid pfx
  | .file _, _, e, he => by simp [completionOrder] at he
  | .symlink _, _, e, he => by simp [completionOrder] at he
  | .dir links, path, e, he => by
    simp only [completionOrder, List.mem_append, List.mem_singleton] at he
    rcases he with he | he
    · obtain ⟨name, _, h1, h2⟩ := completionOrderOf_mem env pfx links path e he
      exact ⟨(List.prefix_append path [name]).trans h1, h2⟩
    · subst he
      exact ⟨List.prefix_refl _, links, rfl⟩
/-- Every event of the children is the event of a directory, at or below the path of
one child. -/
theorem completionOrderOf_mem (env : Env) (pfx : Options.Prefix) :
    ∀ (links : Links) (path : Path), ∀ e ∈ completionOrderOf env pfx links path,
      ∃ name, name ∈ links.map Prod.fst ∧ (path ++ [name]) <+: e.Name ∧
        ∃ ls, e.Path = (Node.dir ls).Cid pfx
  | [], _, e, he => by simp [completionOrderOf] at he
  | (name, child) :: rest, path, e, he => by
    simp only [completionOrderOf, List.mem_append] at he
    rcases he with he | he
    · obtain ⟨h1, h2⟩ := completionOrder_mem env pfx child (path ++ [name]) e he
      exact ⟨name, by simp, h1, h2⟩
    · obtain ⟨n, hn, h1, h2⟩ := completionOrderOf_mem env pfx rest path e he
      exact ⟨n, by simp [hn], h1, h2⟩
end

/-- Two children of one directory whose paths lead to the same place have the same
name. -/
theorem child_name_eq (path q : Path) (n1 n2 : String)
    (h1 : (path ++ [n1]) <+: q) (h2 : (path ++ [n2]) <+: q) : n1 = n2 := by
  have h := List.prefix_of_prefix_length_le h1 h2 (by simp)
  have := h.eq_of_length (by simp)
  simpa using this

mutual
/-- With distinct names in every directory, no event comes before the event of a
directory nested inside its own directory. -/
theorem completionOrder_pairwise (env : Env) (pfx : Options.Prefix) :
    ∀ (node : Node) (path : Path), namesDistinct node = true →
      (completionOrder env pfx node path).Pairwise
        (fun a b => ¬ StrictlyBelow a.Name b.Name)
  | .file _, _, _ => by simp [completionOrder]
  | .symlink _, _, _ => by simp [completionOrder]
  | .dir links, path, hd => by
    simp only [namesDistinct, Bool.and_eq_true, decide_eq_true_eq] at hd
    simp only [completionOrder, List.pairwise_append, List.pairwise_singleton, true_and,
      List.mem_singleton, forall_eq]
    refine ⟨completionOrderOf_pairwise env pfx links path hd.1 hd.2, ?_⟩
    intro a ha
    obtain ⟨name, _, h1, _⟩ := completionOrderOf_mem env pfx links path a ha
    rintro ⟨s, _, hs⟩
    change path = a.Name ++ s at hs
    have hlen := h1.length_le
    have := congrArg List.length hs
    simp only [List.length_append, List.length_singleton] at hlen this
    omega
theorem completionOrderOf_pairwise (env : Env) (pfx : Options.Prefix) :
    ∀ (links : Links) (path : Path), (links.map Prod.fst).Nodup →
      namesDistinctOf links = true →
      (completionOrderOf env pfx links path).Pairwise
        (fun a b => ¬ StrictlyBelow a.Name b.Name)
  | [], _, _, _ => by simp [completionOrderOf]
  | (name, child) :: rest, path, hn, hd => by
    simp only [namesDistinctOf, Bool.and_eq_true] at hd
    simp only [List.map_cons, List.nodup_cons] at hn
    simp only [completionOrderOf, List.pairwise_append]
    refine ⟨completionOrder_pairwise env pfx child (path ++ [name]) hd.1,
      completionOrderOf_pairwise env pfx rest path hn.2 hd.2, ?_⟩
    intro a ha b hb
    obtain ⟨h1, _⟩ := completionOrder_mem env pfx child (path ++ [name]) a ha
    obtain ⟨n2, hn2, h2, _⟩ := completionOrderOf_mem env pfx rest path b hb
    rintro ⟨s, _, hs⟩
    have h3 : (path ++ [name]) <+: b.Name := by
      rw [hs]
      exact h1.trans (List.prefix_append _ _)
    have := child_name_eq path b.Name name n2 h3 h2
    subst this
    exact hn.1 hn2
end

/-- The end of `AddAll` with a sink: the events of the chosen root are sent, in DFS
completion order, and the root is returned. -/
theorem finishAddAll_events (env : Env) (adder : Adder) (name : Path) (root : Node)
    (sent : List AddEvent) (hout : adder.Out = some sent) :
    adder.finishAddAll env name root
      = ({ adder with Out := some (sent ++ completionOrder env adder.CidBuilder root name) },
          .ok root) := by
  unfold Adder.finishAddAll
  rw [outputDirs_events env root adder name sent hout]

/-- C11, as amended. With a sink, a successful `AddAll` sends exactly one event for
every directory of the node it returns and no event for a file or a symbolic link:
the events sent are those of the directories of the returned tree, each carrying the
CID of a directory node, and their number is the number of directories. -/
theorem addAll_events (env : Env) (adder adder1 : Adder) (file : FNode) (nd : Node)
    (sent : List AddEvent) (hout : adder.Out = some sent)
    (h : adder.AddAll env file = (adder1, .ok nd)) :
    ∃ name : Path,
      adder1.Out = some (sent ++ completionOrder env adder.CidBuilder nd name) ∧
      (completionOrder env adder.CidBuilder nd name).length = dirCount nd ∧
      ∀ e ∈ completionOrder env adder.CidBuilder nd name,
        ∃ links, e.Path = (Node.dir links).Cid adder.CidBuilder := by
  have key : ∀ (a : Adder) (name : Path) (root : Node), a.Out = some sent →
      a.CidBuilder = adder.CidBuilder →
      a.finishAddAll env name root = (adder1, .ok nd) →
      adder1.Out = some (sent ++ completionOrder env adder.CidBuilder nd name) ∧
      (completionOrder env adder.CidBuilder nd name).length = dirCount nd ∧
      ∀ e ∈ completionOrder env adder.CidBuilder nd name,
        ∃ links, e.Path = (Node.dir links).Cid adder.CidBuilder := by
    intro a name root ha hb hfin
    rw [finishAddAll_events env a name root sent ha, hb] at hfin
    simp only [Prod.mk.injEq, Except.ok.injEq] at hfin
    obtain ⟨h1, h2⟩ := hfin
    subst h1 h2
    exact ⟨rfl, completionOrder_length env _ _ _,
      fun e he => (completionOrder_mem env _ _ _ e he).2⟩
  have hframe := Adder.addFileNode_frame env file adder [] true
  unfold Adder.AddAll at h
  cases hv : Adder.addFileNode env file adder [] true with
  | mk a e =>
    rw [hv] at h hframe
    cases e with
    | some err => simp at h
    | none =>
      simp only at h hframe
      rw [Adder.mfsRoot_eq a] at h
      simp only at h
      cases file with
      | dir entries iterErr =>
        simp only at h
        exact ⟨[], key { a with mroot := some a.rootLinks } [] _ (hframe.1.trans hout) hframe.2 h⟩
      | file content =>
        cases hl : Mfs.ListNames a.rootLinks with
        | nil => rw [hl] at h; simp at h
        | cons name rest =>
          rw [hl] at h
          simp only at h
          cases hc : Mfs.Child a.rootLinks name with
          | none => rw [hc] at h; simp at h
          | some root =>
            rw [hc] at h
            simp only at h
            exact ⟨[name], key { a with mroot := some a.rootLinks } [name] root (hframe.1.trans hout) hframe.2 h⟩
      | symlink target =>
        cases hl : Mfs.ListNames a.rootLinks with
        | nil => rw [hl] at h; simp at h
        | cons name rest =>
          rw [hl] at h
          simp only at h
          cases hc : Mfs.Child a.rootLinks name with
          | none => rw [hc] at h; simp at h
          | some root =>
            rw [hc] at h
            simp only at h
            exact ⟨[name], key { a with mroot := some a.rootLinks } [name] root (hframe.1.trans hout) hframe.2 h⟩
      | other =>
        cases hl : Mfs.ListNames a.rootLinks with
        | nil => rw [hl] at h; simp at h
        | cons name rest =>
          rw [hl] at h
          simp only at h
          cases hc : Mfs.Child a.rootLinks name with
          | none => rw [hc] at h; simp at h
          | some root =>
            rw [hc] at h
            simp only at h
            exact ⟨[name], key { a with mroot := some a.rootLinks } [name] root (hframe.1.trans hout) hframe.2 h⟩

theorem addAll_events_witness :
    ∃ name : Path,
      ({ NewAdder with
          Out := some [dirEvent (Sample.env 4) Options.Prefix.zero [("a", .file [])] []]
          mroot := some [("a", .file [])], liveNodes := 2 } : Adder).Out
        = some ([] ++ completionOrder (Sample.env 4) Options.Prefix.zero
            (.dir [("a", .file [])]) name) ∧
      (completionOrder (Sample.env 4) Options.Prefix.zero (.dir [("a", .file [])]) name).length
        = dirCount (.dir [("a", .file [])]) ∧
      ∀ e ∈ completionOrder (Sample.env 4) Options.Prefix.zero (.dir [("a", .file [])]) name,
        ∃ links, e.Path = (Node.dir links).Cid Options.Prefix.zero :=
  addAll_events (Sample.env 4) { NewAdder with Out := some [] }
    { NewAdder with
      Out := some [dirEvent (Sample.env 4) Options.Prefix.zero [("a", .file [])] []]
      mroot := some [("a", .file [])], liveNodes := 2 }
    (.dir [("a", .file (.ok []))] none) (.dir [("a", .file [])]) [] rfl rfl

/-- C11, counterexample. The import of a directory that holds one file sends one event
only, the event of the directory; the tree has two files and directories, and the
file `a` gets no event. -/
theorem addAll_no_file_event :
    (({ NewAdder with Out := some [] } : Adder).AddAll (Sample.env 4)
        (.dir [("a", .file (.ok []))] none)).2 = .ok (.dir [("a", .file [])]) ∧
      (({ NewAdder with Out := some [] } : Adder).AddAll (Sample.env 4)
        (.dir [("a", .file (.ok []))] none)).1.Out
        = some [dirEvent (Sample.env 4) Options.Prefix.zero [("a", .file [])] []] ∧
      filesAndDirs (.dir [("a", .file (.ok []))] none) = 2 :=
  ⟨rfl, rfl, rfl⟩

/-- C12. For every directory tree with distinct names in each directory, given to
`outputDirs` with a sink: `outputDirs` succeeds and sends one event per directory of
the tree; the last event is the event of the root and carries the path passed in;
every event before it carries a path strictly below that path; and no event comes
before the event of a directory nested inside its own directory, so the event of each
directory comes after the events of all directories nested inside it. -/
theorem outputDirs_completion_order (env : Env) (links : Links) (adder : Adder) (path : Path)
    (sent : List AddEvent) (hout : adder.Out = some sent)
    (hnames : namesDistinct (.dir links) = true) :
    ∃ nested : List AddEvent,
      Adder.outputDirs env (.dir links) adder path
        = ({ adder with
              Out := some (sent ++ (nested ++ [dirEvent env adder.CidBuilder links path])) },
            none) ∧
      (dirEvent env adder.CidBuilder links path).Name = path ∧
      (nested ++ [dirEvent env adder.CidBuilder links path]
        = completionOrder env adder.CidBuilder (.dir links) path) ∧
      nested.length + 1 = dirCount (.dir links) ∧
      (∀ e ∈ nested, StrictlyBelow path e.Name) ∧
      (nested ++ [dirEvent env adder.CidBuilder links path]).Pairwise
        (fun a b => ¬ StrictlyBelow a.Name b.Name) := by
  refine ⟨completionOrderOf env adder.CidBuilder links path, ?_, rfl, ?_, ?_, ?_, ?_⟩
  · rw [outputDirs_events env _ adder path sent hout]
    simp only [completionOrder]
  · simp only [completionOrder]
  · simp only [dirCount, completionOrderOf_length]
  · intro e he
    obtain ⟨name, _, h1, _⟩ := completionOrderOf_mem env _ links path e he
    obtain ⟨t, ht⟩ := h1
    exact ⟨[name] ++ t, by simp, by rw [← ht, List.append_assoc]⟩
  · have := completionOrder_pairwise env adder.CidBuilder (.dir links) path hnames
    simpa only [completionOrder] using this

theorem outputDirs_completion_order_witness :
    ∃ nested : List AddEvent,
      Adder.outputDirs (Sample.env 4) (.dir [("a", .dir [("b", .dir [])]), ("c", .file [1])])
          { NewAdder with Out := some [] } ["r"]
        = ({ ({ NewAdder with Out := some [] } : Adder) with
              Out := some ([] ++ (nested ++ [dirEvent (Sample.env 4) Options.Prefix.zero
                [("a", .dir [("b", .dir [])]), ("c", .file [1])] ["r"]])) }, none) ∧
      (dirEvent (Sample.env 4) Options.Prefix.zero
        [("a", .dir [("b", .dir [])]), ("c", .file [1])] ["r"]).Name = ["r"] ∧
      (nested ++ [dirEvent (Sample.env 4) Options.Prefix.zero
          [("a", .dir [("b", .dir [])]), ("c", .file [1])] ["r"]]
        = completionOrder (Sample.env 4) Options.Prefix.zero
            (.dir [("a", .dir [("b", .dir [])]), ("c", .file [1])]) ["r"]) ∧
      nested.length + 1 = dirCount (.dir [("a", .dir [("b", .dir [])]), ("c", .file [1])]) ∧
      (∀ e ∈ nested, StrictlyBelow ["r"] e.Name) ∧
      (nested ++ [dirEvent (Sample.env 4) Options.Prefix.zero
          [("a", .dir [("b", .dir [])]), ("c", .file [1])] ["r"]]).Pairwise
        (fun a b => ¬ StrictlyBelow a.Name b.Name) :=
  outputDirs_completion_order (Sample.env 4)
    [("a", .dir [("b", .dir [])]), ("c", .file [1])] { NewAdder with Out := some [] } ["r"] []
    rfl (by decide)

end Events

/-! ## GetCid -/

/-- The import of a directory that wraps one empty file, into an empty MFS root and
with a threshold of 2, which the two visits do not reach. -/
theorem addAll_wrapped_empty_file (env : Env) (hT : env.liveCacheSize = 2) (adder : Adder)
    (hroot : adder.mroot = some []) (hlive : adder.liveNodes = 0) (hout : adder.Out = none)
    (name : String) :
    (adder.AddAll env (.dir [(name, .file (.ok []))] none)).2
      = .ok (.dir [(name, .file [])]) := by
  cases adder
  simp only at hroot hlive hout
  subst hroot hlive hout
  simp [Adder.AddAll, Adder.addFileNode, Adder.countLive, hT, Adder.addDirMkdir,
    Adder.addDirLoop, Adder.addFile, Adder.add, Adder.addNode, Adder.mfsRoot, Mfs.PutNode,
    Mfs.Child, Mfs.insertLink, Adder.finishAddAll, Adder.outputDirs, Adder.outputDirsLoop,
    Adder.outputDagnode]

/-- C7, as amended. For a path that names an empty regular file, with flushes that
succeed and a prefix lookup that knows version 0, `GetCid` returns the CID of a
Directory node: the directory wrapping the file, whose one link is named by the last
component of the path and leads to the File node of the empty content.  The CID is
made of the prefix of version 0 with SHA2-256 and of that name only. -/
theorem getCid_empty_file (env : Env) (prefixFor : Int → Except String Options.Prefix)
    (fs : FileSys) (path : Path) (pfx : Options.Prefix)
    (hflush : ∀ k, env.flushErr k = none)
    (hfs : fs path = some (.file (.ok [])))
    (hpfx : prefixFor 0 = .ok pfx) :
    GetCid env prefixFor fs path
      = .ok ⟨{ pfx with MhType := Options.SHA2_256, MhLength := -1 },
          .dir [(baseName path, .file [])]⟩ := by
  have hopts : Options.UnixfsAddOptions prefixFor []
      = (some { Options.defaultSettings with CidVersion := 0 },
          { pfx with MhType := Options.SHA2_256, MhLength := -1 }, none) := by
    simp [Options.UnixfsAddOptions, Options.applyOpts, Options.resolveVersion,
      Options.defaultSettings, hpfx]
  have hadd : ∀ a : Adder, a.mroot = some [] → a.liveNodes = 0 → a.Out = none →
      (a.AddAll env (.dir [(baseName path, .file (.ok []))] none)).2
        = .ok (.dir [(baseName path, .file [])]) := by
    intro a h1 h2 h3
    rw [Adder.addAll_content env { env with liveCacheSize := 2 } rfl hflush hflush a a
      (Adder.SameContent.refl a)]
    exact addAll_wrapped_empty_file _ rfl a h1 h2 h3 _
  unfold GetCid WarpPath
  rw [hfs]
  simp only
  unfold AddAndBuildCid
  rw [hopts]
  simp only
  have h := hadd (Adder.SetMfsRoot
    { NewAdder with
      Chunker := Options.defaultSettings.Chunker
      Out := Option.map (fun _ => []) Options.defaultSettings.Events
      Silent := Options.defaultSettings.Silent
      RawLeaves := Options.defaultSettings.RawLeaves
      CidBuilder := { pfx with MhType := Options.SHA2_256, MhLength := -1 } } [])
    rfl rfl rfl
  cases hr : Adder.AddAll env (Adder.SetMfsRoot
    { NewAdder with
      Chunker := Options.defaultSettings.Chunker
      Out := Option.map (fun _ => []) Options.defaultSettings.Events
      Silent := Options.defaultSettings.Silent
      RawLeaves := Options.defaultSettings.RawLeaves
      CidBuilder := { pfx with MhType := Options.SHA2_256, MhLength := -1 } } [])
    (.dir [(baseName path, .file (.ok []))] none) with
  | mk a r =>
    rw [hr] at h
    simp only at h
    subst h
    rfl

theorem getCid_empty_file_witness :
    GetCid (Sample.env liveCacheSize) Options.PrefixForCidVersion Sample.twoEmptyFiles ["a"]
      = .ok ⟨⟨0, Options.DagProtobuf, Options.SHA2_256, -1⟩, .dir [("a", .file [])]⟩ :=
  getCid_empty_file (Sample.env liveCacheSize) Options.PrefixForCidVersion Sample.twoEmptyFiles
    ["a"] ⟨0, Options.DagProtobuf, Options.SHA2_256, -1⟩ (fun _ => rfl) rfl rfl

/-- C7, counterexample. For two empty regular files named `a` and `b`, `GetCid` returns
the CIDs of two Directory nodes, not of a File node, and the two CIDs differ: the
result depends on the name of the file. -/
theorem getCid_depends_on_name :
    GetCid (Sample.env liveCacheSize) Options.PrefixForCidVersion Sample.twoEmptyFiles ["a"]
        = .ok ⟨⟨0, Options.DagProtobuf, Options.SHA2_256, -1⟩, .dir [("a", .file [])]⟩ ∧
      GetCid (Sample.env liveCacheSize) Options.PrefixForCidVersion Sample.twoEmptyFiles ["b"]
        = .ok ⟨⟨0, Options.DagProtobuf, Options.SHA2_256, -1⟩, .dir [("b", .file [])]⟩ ∧
      GetCid (Sample.env liveCacheSize) Options.PrefixForCidVersion Sample.twoEmptyFiles ["a"]
        ≠ GetCid (Sample.env liveCacheSize) Options.PrefixForCidVersion Sample.twoEmptyFiles
            ["b"] := by
  have ha : GetCid (Sample.env liveCacheSize) Options.PrefixForCidVersion
      Sample.twoEmptyFiles ["a"]
      = .ok ⟨⟨0, Options.DagProtobuf, Options.SHA2_256, -1⟩, .dir [("a", .file [])]⟩ := rfl
  have hb : GetCid (Sample.env liveCacheSize) Options.PrefixForCidVersion
      Sample.twoEmptyFiles ["b"]
      = .ok ⟨⟨0, Options.DagProtobuf, Options.SHA2_256, -1⟩, .dir [("b", .file [])]⟩ := rfl
  refine ⟨ha, hb, ?_⟩
  rw [ha, hb]
  simp

/-! ## Packing and restoring an archive -/

namespace Sample

/-- Two names with the same characters are equal. -/
theorem nameCode_injective : Function.Injective nameCode := by
  intro a b h
  apply String.ext
  have hc : Function.Injective Char.toNat :=
    Function.LeftInverse.injective Char.ofNat_toNat
  exact List.map_injective_iff.mpr hc h

/-- Two blocks with the same code are equal. -/
theorem code_injective : Function.Injective code := by
  have hl : Function.Injective (fun l : String × Nat => (nameCode l.1, l.2)) := by
    intro a b h
    simp only [Prod.mk.injEq] at h
    exact Prod.ext (nameCode_injective h.1) h.2
  intro a b h
  cases a <;> cases b <;> simp only [code, Sum.inl.injEq, Sum.inr.injEq, reduceCtorEq] at h
  · rw [h]
  · rw [nameCode_injective h]
  · rw [List.map_injective_iff.mpr hl h]
  · rw [List.map_injective_iff.mpr hl h]

/-- The sample digest has no collisions. -/
theorem digest_injective : Function.Injective digest :=
  fun _ _ h => code_injective (Encodable.encode_injective h)

end Sample

namespace Car

/-- Cutting an empty list yields no piece. -/
theorem splitEvery_nil {α : Type} (n fuel : Nat) : splitEvery n fuel ([] : List α) = [] := by
  cases fuel <;> rfl

/-- With enough fuel the pieces of a list, one after the other, are the list. -/
theorem splitEvery_join {α : Type} (n : Nat) (hn : 0 < n) :
    ∀ (fuel : Nat) (l : List α), l.length ≤ fuel → (splitEvery n fuel l).flatten = l
  | 0, l, h => by
    have : l = [] := List.length_eq_zero.mp (by omega)
    subst this; rfl
  | fuel + 1, [], _ => rfl
  | fuel + 1, a :: rest, h => by
    have hlen : ((a :: rest).drop n).length ≤ fuel := by
      rw [List.length_drop]
      simp only [List.length_cons] at h ⊢
      omega
    simp only [splitEvery, List.flatten_cons, splitEvery_join n hn fuel _ hlen,
      List.take_append_drop]

/-- With pieces of two elements or more there are about half as many pieces as
elements, at most. -/
theorem splitEvery_length {α : Type} (n : Nat) (hn : 2 ≤ n) :
    ∀ (fuel : Nat) (l : List α), 2 * (splitEvery n fuel l).length ≤ l.length + 1
  | 0, l => by simp [splitEvery]
  | fuel + 1, [] => by simp [splitEvery]
  | fuel + 1, a :: rest => by
    have ih := splitEvery_length n hn fuel ((a :: rest).drop n)
    rw [List.length_drop] at ih
    simp only [splitEvery, List.length_cons] at ih ⊢
    omega

/-- Every element of a piece is an element of the list. -/
theorem splitEvery_mem {α : Type} (n : Nat) :
    ∀ (fuel : Nat) (l : List α), ∀ g ∈ splitEvery n fuel l, ∀ x ∈ g, x ∈ l
  | 0, l, g, hg, _, _ => by simp [splitEvery] at hg
  | fuel + 1, [], g, hg, _, _ => by simp [splitEvery] at hg
  | fuel + 1, a :: rest, g, hg, x, hx => by
    simp only [splitEvery, List.mem_cons] at hg
    rcases hg with hg | hg
    · subst hg; exact List.mem_of_mem_take hx
    · exact List.mem_of_mem_drop (splitEvery_mem n fuel _ g hg x hx)

/-- The Chunker with a positive size yields at least one chunk, and the chunks, one
after the other, are the input. -/
theorem Chunker_join (size : Nat) (hsize : 0 < size) (data : List Nat) :
    ∃ chunks, Chunker size data = .ok chunks ∧ chunks.flatten = data ∧ chunks ≠ [] := by
  cases data with
  | nil => exact ⟨[[]], by simp [Chunker, Nat.pos_iff_ne_zero.mp hsize], rfl, by simp⟩
  | cons a rest =>
    refine ⟨splitEvery size (a :: rest).length (a :: rest), ?_, ?_, ?_⟩
    · simp [Chunker, Nat.pos_iff_ne_zero.mp hsize]
    · exact splitEvery_join size hsize _ _ (Nat.le_refl _)
    · simp [splitEvery]

/-- The bytes below the children that stand for a list of nodes. -/
theorem bytesOf_asChildren :
    ∀ l : List DagNode, bytesOf (asChildren l) = (l.map DagNode.bytes).flatten
  | [] => rfl
  | d :: rest => by
    have ih := bytesOf_asChildren rest
    simp only [asChildren, List.map_cons, bytesOf, List.flatten_cons] at ih ⊢
    rw [ih]

/-- The children that stand for a list of nodes are file content when the nodes are. -/
theorem fileOnlyOf_asChildren :
    ∀ l : List DagNode, (∀ d ∈ l, d.fileOnly) → fileOnlyOf (asChildren l)
  | [], _ => trivial
  | d :: rest, h => by
    have ih := fileOnlyOf_asChildren rest (fun x hx => h x (List.mem_cons_of_mem _ hx))
    simp only [asChildren, List.map_cons, fileOnlyOf] at ih ⊢
    exact ⟨h d (List.mem_cons_self _ _), ih⟩

/-- The bytes below the internal nodes over groups of nodes are the bytes below the
nodes of the groups. -/
theorem bytes_groups :
    ∀ groups : List (List DagNode),
      ((groups.map (fun group => DagNode.node (asChildren group))).map DagNode.bytes).flatten
        = (groups.flatten.map DagNode.bytes).flatten
  | [] => rfl
  | g :: rest => by
    have ih := bytes_groups rest
    simp only [List.map_cons, List.flatten_cons, List.map_append, List.flatten_append,
      DagNode.bytes, bytesOf_asChildren] at ih ⊢
    rw [ih]

/-- With a fanout of two or more and enough fuel the rounds of the balanced layout
end with a root of file content that holds the bytes of the nodes in order. -/
theorem balancedLevels_ok (maxLinks : Nat) (hlinks : 2 ≤ maxLinks) :
    ∀ (fuel : Nat) (nodes : List DagNode), nodes ≠ [] → nodes.length ≤ fuel + 1 →
      (∀ d ∈ nodes, d.fileOnly) →
      ∃ root, balancedLevels maxLinks fuel nodes = .ok root ∧ root.fileOnly ∧
        root.bytes = (nodes.map DagNode.bytes).flatten
  | _, [], h, _, _ => absurd rfl h
  | fuel, [root], _, _, hall => by
    refine ⟨root, ?_, hall root (List.mem_singleton.mpr rfl), by simp⟩
    cases fuel <;> rfl
  | 0, a :: b :: rest, _, hlen, _ => by simp at hlen
  | fuel + 1, a :: b :: rest, _, hlen, hall => by
    have hsplit := splitEvery_length maxLinks hlinks (rest.length + 2) (a :: b :: rest)
    have hjoin := splitEvery_join maxLinks (by omega) (rest.length + 2) (a :: b :: rest)
      (by simp)
    have hmem := splitEvery_mem maxLinks (rest.length + 2) (a :: b :: rest)
    obtain ⟨root, h1, h2, h3⟩ := balancedLevels_ok maxLinks hlinks fuel
      ((splitEvery maxLinks (rest.length + 2) (a :: b :: rest)).map
        (fun group => DagNode.node (asChildren group)))
      (by simp [splitEvery])
      (by
        simp only [List.length_map, List.length_cons] at hsplit hlen ⊢
        omega)
      (by
        intro d hd
        obtain ⟨g, hg, rfl⟩ := List.mem_map.mp hd
        exact fileOnlyOf_asChildren g (fun x hx => hall x (hmem g hg x hx)))
    refine ⟨root, ?_, h2, ?_⟩
    · simp only [balancedLevels]
      exact h1
    · rw [h3, bytes_groups, hjoin]

/-- With a fanout of two or more the balanced layout builds, from every list of
chunks but the empty one, a DAG of file content that holds the bytes of the chunks
in order. -/
theorem balancedLayout_ok (maxLinks : Nat) (hlinks : 2 ≤ maxLinks) (chunks : List (List Nat))
    (hne : chunks ≠ []) :
    ∃ root, balancedLayout maxLinks chunks = .ok root ∧ root.fileOnly ∧
      root.bytes = chunks.flatten := by
  obtain ⟨root, h1, h2, h3⟩ := balancedLevels_ok maxLinks hlinks chunks.length
    (chunks.map DagNode.leaf) (by simpa using hne) (by simp)
    (by
      intro d hd
      obtain ⟨c, _, rfl⟩ := List.mem_map.mp hd
      trivial)
  refine ⟨root, h1, h2, ?_⟩
  rw [h3, List.map_map]
  have : (DagNode.bytes ∘ DagNode.leaf) = id := by
    funext c; rfl
  rw [this, List.map_id]

/-- When every node that `fill` builds is file content, holds the bytes of the
chunks it takes and takes at least one chunk, the nodes that `repeatFill` builds are
file content and hold the bytes of the chunks taken, and a chunk is taken when there
is one and the count is positive. -/
theorem repeatFill_spec (fill : List (List Nat) → DagNode × List (List Nat))
    (hfill : ∀ cs, cs ≠ [] → (fill cs).1.fileOnly ∧
      (fill cs).1.bytes ++ (fill cs).2.flatten = cs.flatten ∧ (fill cs).2.length < cs.length) :
    ∀ (n : Nat) (cs : List (List Nat)),
      (∀ d ∈ (repeatFill fill n cs).1, d.fileOnly) ∧
      ((repeatFill fill n cs).1.map DagNode.bytes).flatten ++ (repeatFill fill n cs).2.flatten
        = cs.flatten ∧
      (repeatFill fill n cs).2.length ≤ cs.length ∧
      (0 < n → cs ≠ [] → (repeatFill fill n cs).2.length < cs.length)
  | 0, cs => by simp [repeatFill]
  | n + 1, [] => by simp [repeatFill]
  | n + 1, c :: rest => by
    obtain ⟨f1, f2, f3⟩ := hfill (c :: rest) (by simp)
    rcases hf : fill (c :: rest) with ⟨child, rest1⟩
    rw [hf] at f1 f2 f3
    obtain ⟨r1, r2, r3, _⟩ := repeatFill_spec fill hfill n rest1
    rcases hr : repeatFill fill n rest1 with ⟨more, rest2⟩
    rw [hr] at r1 r2 r3
    simp only at f1 f2 f3 r1 r2 r3
    simp only [repeatFill, hf, hr]
    refine ⟨?_, ?_, by omega, fun _ _ => by omega⟩
    · intro d hd
      rcases List.mem_cons.mp hd with hd | hd
      · subst hd; exact f1
      · exact r1 d hd
    · simp only [List.map_cons, List.flatten_cons, List.append_assoc, r2]
      exact f2

/-- With a fanout of one or more, the children that `trickleChildren` builds are
file content and hold the bytes of the chunks placed, in order, and either every
chunk is placed or more than `depth` chunks are. -/
theorem trickleChildren_spec (maxLinks : Nat) (hlinks : 1 ≤ maxLinks) :
    ∀ (depth : Nat) (cs : List (List Nat)),
      (∀ d ∈ (trickleChildren maxLinks depth cs).1, d.fileOnly) ∧
      ((trickleChildren maxLinks depth cs).1.map DagNode.bytes).flatten
          ++ (trickleChildren maxLinks depth cs).2.flatten = cs.flatten ∧
      ((trickleChildren maxLinks depth cs).2 = [] ∨
        (trickleChildren maxLinks depth cs).2.length + depth + 1 ≤ cs.length)
  | 0, cs => by
    simp only [trickleChildren]
    refine ⟨?_, ?_, ?_⟩
    · intro d hd
      obtain ⟨c, _, rfl⟩ := List.mem_map.mp hd
      trivial
    · rw [List.map_map]
      have : (DagNode.bytes ∘ DagNode.leaf) = id := by
        funext c; rfl
      rw [this, List.map_id, ← List.flatten_append, List.take_append_drop]
    · by_cases h : cs.length ≤ maxLinks
      · exact Or.inl (List.drop_eq_nil_of_le h)
      · right
        rw [List.length_drop]
        omega
  | depth + 1, cs => by
    have ih := trickleChildren_spec maxLinks hlinks depth
    obtain ⟨c1, c2, c3⟩ := ih cs
    rcases hc : trickleChildren maxLinks depth cs with ⟨children, rest⟩
    rw [hc] at c1 c2 c3
    simp only at c1 c2 c3
    have hfill : ∀ cs1 : List (List Nat), cs1 ≠ [] →
        (wrapChildren (trickleChildren maxLinks depth) cs1).1.fileOnly ∧
        (wrapChildren (trickleChildren maxLinks depth) cs1).1.bytes
          ++ (wrapChildren (trickleChildren maxLinks depth) cs1).2.flatten = cs1.flatten ∧
        (wrapChildren (trickleChildren maxLinks depth) cs1).2.length < cs1.length := by
      intro cs1 hne
      obtain ⟨s1, s2, s3⟩ := ih cs1
      rcases hs : trickleChildren maxLinks depth cs1 with ⟨sub, rest1⟩
      rw [hs] at s1 s2 s3
      simp only at s1 s2 s3
      have hpos : 0 < cs1.length := List.length_pos.mpr hne
      simp only [wrapChildren, hs]
      refine ⟨fileOnlyOf_asChildren sub s1, ?_, ?_⟩
      · simp only [DagNode.bytes, bytesOf_asChildren]
        exact s2
      · rcases s3 with s3 | s3
        · rw [s3]; exact hpos
        · omega
    obtain ⟨r1, r2, r3, r4⟩ := repeatFill_spec _ hfill 4 rest
    rcases hr : repeatFill (wrapChildren (trickleChildren maxLinks depth)) 4 rest with
      ⟨subs, rest2⟩
    rw [hr] at r1 r2 r3 r4
    simp only at r1 r2 r3 r4
    simp only [trickleChildren, hc, hr]
    refine ⟨?_, ?_, ?_⟩
    · intro d hd
      rcases List.mem_append.mp hd with hd | hd
      · exact c1 d hd
      · exact r1 d hd
    · rw [List.map_append, List.flatten_append, List.append_assoc, r2]
      exact c2
    · by_cases hrest : rest = []
      · subst hrest
        left
        exact List.length_eq_zero.mp (by simpa using r3)
      · right
        have := r4 (by decide) hrest
        rcases c3 with c3 | c3
        · exact absurd c3 hrest
        · omega

/-- With a fanout of one or more the trickle layout builds, from every list of
chunks, a DAG of file content that holds the bytes of the chunks in order. -/
theorem trickleLayout_ok (maxLinks : Nat) (hlinks : 1 ≤ maxLinks) (chunks : List (List Nat)) :
    ∃ root, trickleLayout maxLinks chunks = .ok root ∧ root.fileOnly ∧
      root.bytes = chunks.flatten := by
  obtain ⟨c1, c2, c3⟩ := trickleChildren_spec maxLinks hlinks chunks.length chunks
  rcases hc : trickleChildren maxLinks chunks.length chunks with ⟨children, rest⟩
  rw [hc] at c1 c2 c3
  simp only at c1 c2 c3
  have hrest : rest = [] := by
    rcases c3 with c3 | c3
    · exact c3
    · omega
  subst hrest
  refine ⟨.node (asChildren children), ?_, fileOnlyOf_asChildren children c1, ?_⟩
  · simp only [trickleLayout, hc]
  · simp only [DagNode.bytes, bytesOf_asChildren]
    simpa using c2

/-- With a positive chunk size and a fanout of two or more, the chunker and the
layout build a DAG of file content that holds the bytes of the file. -/
theorem buildFile_ok (cfg : ImportConfig) (hchunk : 0 < cfg.chunkSize)
    (hlinks : 2 ≤ cfg.maxLinks) (data : List Nat) :
    ∃ d, buildFile cfg data = .ok d ∧ d.fileOnly ∧ d.bytes = data := by
  obtain ⟨chunks, h1, h2, h3⟩ := Chunker_join cfg.chunkSize hchunk data
  cases hl : cfg.layout with
  | BalancedLayout =>
    obtain ⟨d, k1, k2, k3⟩ := balancedLayout_ok cfg.maxLinks hlinks chunks h3
    exact ⟨d, by simp only [buildFile, h1, hl, k1], k2, by rw [k3, h2]⟩
  | TrickleLayout =>
    obtain ⟨d, k1, k2, k3⟩ := trickleLayout_ok cfg.maxLinks (by omega) chunks
    exact ⟨d, by simp only [buildFile, h1, hl, k1], k2, by rw [k3, h2]⟩

/-- A DAG is among its own sub-DAGs. -/
theorem DagNode.self_mem_subdags (d : DagNode) : d ∈ d.subdags := by
  cases d <;> simp [DagNode.subdags]

mutual
/-- With a digest without collisions, two DAGs with the same block are equal. -/
theorem block_inj (hash : Block → Nat) (hinj : Function.Injective hash) :
    ∀ d1 d2 : DagNode, d1.block hash = d2.block hash → d1 = d2
  | .leaf b, d2, h => by
    cases d2 <;> simp [DagNode.block] at h
    rw [h]
  | .symlink s, d2, h => by
    cases d2 <;> simp [DagNode.block] at h
    rw [h]
  | .node cs, d2, h => by
    cases d2 with
    | leaf b => simp [DagNode.block] at h
    | symlink s => simp [DagNode.block] at h
    | dir es => simp [DagNode.block] at h
    | node cs2 =>
      simp only [DagNode.block, Block.node.injEq] at h
      rw [linksOf_inj hash hinj cs cs2 h]
  | .dir es, d2, h => by
    cases d2 with
    | leaf b => simp [DagNode.block] at h
    | symlink s => simp [DagNode.block] at h
    | node cs => simp [DagNode.block] at h
    | dir es2 =>
      simp only [DagNode.block, Block.dir.injEq] at h
      rw [linksOf_inj hash hinj es es2 h]
/-- With a digest without collisions, two lists of children with the same links are
equal. -/
theorem linksOf_inj (hash : Block → Nat) (hinj : Function.Injective hash) :
    ∀ es1 es2 : List (String × DagNode), linksOf hash es1 = linksOf hash es2 → es1 = es2
  | [], es2, h => by
    cases es2 with
    | nil => rfl
    | cons e r => obtain ⟨n, t⟩ := e; simp [linksOf] at h
  | (n, t) :: r, es2, h => by
    cases es2 with
    | nil => simp [linksOf] at h
    | cons e r2 =>
      obtain ⟨n2, t2⟩ := e
      simp only [linksOf, List.cons.injEq, Prod.mk.injEq] at h
      obtain ⟨⟨hn, hc⟩, hr⟩ := h
      rw [hn, block_inj hash hinj t t2 (hinj hc), linksOf_inj hash hinj r r2 hr]
end

/-- With a digest without collisions, two DAGs with the same CID are equal. -/
theorem cid_inj (hash : Block → Nat) (hinj : Function.Injective hash) (d1 d2 : DagNode)
    (h : d1.cid hash = d2.cid hash) : d1 = d2 :=
  block_inj hash hinj d1 d2 (hinj h)

mutual
/-- A sub-DAG of a sub-DAG of `d` is a sub-DAG of `d`. -/
theorem subdags_trans :
    ∀ (d u v : DagNode), u ∈ d.subdags → v ∈ u.subdags → v ∈ d.subdags
  | .leaf b, u, v, hu, hv => by
    simp only [DagNode.subdags, List.mem_singleton] at hu
    subst hu; exact hv
  | .symlink s, u, v, hu, hv => by
    simp only [DagNode.subdags, List.mem_singleton] at hu
    subst hu; exact hv
  | .node cs, u, v, hu, hv => by
    simp only [DagNode.subdags, List.mem_cons] at hu
    rcases hu with hu | hu
    · subst hu; exact hv
    · simp only [DagNode.subdags, List.mem_cons]
      exact Or.inr (subdagsOf_trans cs u v hu hv)
  | .dir es, u, v, hu, hv => by
    simp only [DagNode.subdags, List.mem_cons] at hu
    rcases hu with hu | hu
    · subst hu; exact hv
    · simp only [DagNode.subdags, List.mem_cons]
      exact Or.inr (subdagsOf_trans es u v hu hv)
/-- A sub-DAG of a DAG below the children `es` is below `es`. -/
theorem subdagsOf_trans :
    ∀ (es : List (String × DagNode)) (u v : DagNode), u ∈ subdagsOf es → v ∈ u.subdags →
      v ∈ subdagsOf es
  | [], u, v, hu, _ => by simp [subdagsOf] at hu
  | (n, t) :: r, u, v, hu, hv => by
    simp only [subdagsOf, List.mem_append] at hu ⊢
    rcases hu with hu | hu
    · exact Or.inl (subdags_trans t u v hu hv)
    · exact Or.inr (subdagsOf_trans r u v hu hv)
end

/-- In a store whose every block is stored under its own digest, a block that is in
the store is found under its digest. -/
theorem get_of_mem (hash : Block → Nat) (hinj : Function.Injective hash) :
    ∀ (bs : Blockstore), (∀ e ∈ bs, e.1 = hash e.2) → ∀ b : Block, (hash b, b) ∈ bs →
      Blockstore.Get bs (hash b) = some b
  | [], _, b, hm => by simp at hm
  | (k, b1) :: rest, hk, b, hm => by
    simp only [Blockstore.Get]
    by_cases hkb : k = hash b
    · have h1 : k = hash b1 := hk (k, b1) (List.mem_cons_self _ _)
      have : b1 = b := hinj (by rw [← h1, hkb])
      simp [hkb, this]
    · simp only [hkb, if_false]
      apply get_of_mem hash hinj rest (fun e he => hk e (List.mem_cons_of_mem _ he)) b
      simp only [List.mem_cons, Prod.mk.injEq] at hm
      rcases hm with ⟨h1, _⟩ | hm
      · exact absurd h1.symm hkb
      · exact hm

/-- What storing or importing has done to the store: it keeps what it held, holds the
block of every DAG of `sub`, and every block put is stored under its digest. -/
theorem stored_put (hash : Block → Nat) (bs bs1 : Blockstore) (sub : List DagNode)
    (d : DagNode)
    (h2 : ∀ e ∈ bs, e ∈ bs1)
    (h3 : ∀ u ∈ sub, (u.cid hash, u.block hash) ∈ bs1)
    (h4 : ∀ e ∈ bs1, e ∈ bs ∨ e.1 = hash e.2) :
    (∀ e ∈ bs, e ∈ Blockstore.Put bs1 (hash (d.block hash)) (d.block hash)) ∧
    (∀ u ∈ d :: sub, (u.cid hash, u.block hash)
        ∈ Blockstore.Put bs1 (hash (d.block hash)) (d.block hash)) ∧
    (∀ e ∈ Blockstore.Put bs1 (hash (d.block hash)) (d.block hash),
        e ∈ bs ∨ e.1 = hash e.2) := by
  refine ⟨?_, ?_, ?_⟩
  · intro e he; exact List.mem_cons_of_mem _ (h2 e he)
  · intro u hu
    rcases List.mem_cons.mp hu with hu | hu
    · subst hu; exact List.mem_cons_self _ _
    · exact List.mem_cons_of_mem _ (h3 u hu)
  · intro e he
    simp only [Blockstore.Put, List.mem_cons] at he
    rcases he with he | he
    · right; rw [he]
    · exact h4 e he

mutual
/-- Storing a DAG returns its CID; the store keeps what it held, holds the block of
every sub-DAG, and every block put is stored under its digest. -/
theorem putDag_spec (hash : Block → Nat) :
    ∀ (d : DagNode) (bs : Blockstore), ∃ bs1,
      putDag hash d bs = (d.cid hash, bs1) ∧
      (∀ e ∈ bs, e ∈ bs1) ∧
      (∀ u ∈ d.subdags, (u.cid hash, u.block hash) ∈ bs1) ∧
      (∀ e ∈ bs1, e ∈ bs ∨ e.1 = hash e.2)
  | .leaf b, bs => by
    obtain ⟨k2, k3, k4⟩ := stored_put hash bs bs [] (.leaf b) (fun _ h => h)
      (fun _ h => absurd h (List.not_mem_nil _)) (fun _ h => Or.inl h)
    exact ⟨_, rfl, k2, k3, k4⟩
  | .symlink s, bs => by
    obtain ⟨k2, k3, k4⟩ := stored_put hash bs bs [] (.symlink s) (fun _ h => h)
      (fun _ h => absurd h (List.not_mem_nil _)) (fun _ h => Or.inl h)
    exact ⟨_, rfl, k2, k3, k4⟩
  | .node cs, bs => by
    obtain ⟨bs1, h1, h2, h3, h4⟩ := putChildren_spec hash cs bs
    obtain ⟨k2, k3, k4⟩ := stored_put hash bs bs1 (subdagsOf cs) (.node cs) h2 h3 h4
    refine ⟨_, ?_, k2, k3, k4⟩
    simp only [putDag, h1]
    rfl
  | .dir es, bs => by
    obtain ⟨bs1, h1, h2, h3, h4⟩ := putChildren_spec hash es bs
    obtain ⟨k2, k3, k4⟩ := stored_put hash bs bs1 (subdagsOf es) (.dir es) h2 h3 h4
    refine ⟨_, ?_, k2, k3, k4⟩
    simp only [putDag, h1]
    rfl
/-- Storing the DAGs of a list of children returns the links to them, with the same
store as in `putDag_spec`. -/
theorem putChildren_spec (hash : Block → Nat) :
    ∀ (es : List (String × DagNode)) (bs : Blockstore), ∃ bs1,
      putChildren hash es bs = (linksOf hash es, bs1) ∧
      (∀ e ∈ bs, e ∈ bs1) ∧
      (∀ u ∈ subdagsOf es, (u.cid hash, u.block hash) ∈ bs1) ∧
      (∀ e ∈ bs1, e ∈ bs ∨ e.1 = hash e.2)
  | [], bs => ⟨bs, rfl, fun _ h => h, by simp [subdagsOf], fun _ h => Or.inl h⟩
  | (n, t) :: r, bs => by
    obtain ⟨bs1, h1, h2, h3, h4⟩ := putDag_spec hash t bs
    obtain ⟨bs2, k1, k2, k3, k4⟩ := putChildren_spec hash r bs1
    refine ⟨bs2, ?_, ?_, ?_, ?_⟩
    · simp only [putChildren, h1, k1, linksOf]
      rfl
    · intro e he; exact k2 e (h2 e he)
    · intro u hu
      simp only [subdagsOf, List.mem_append] at hu
      rcases hu with hu | hu
      · exact k2 _ (h3 u hu)
      · exact k3 u hu
    · intro e he
      rcases k4 e he with he | he
      · exact h4 e he
      · exact Or.inr he
end

/-- A DAG of file content is a DAG as the importer builds it, and the tree it
describes is the file of its bytes. -/
theorem fileOnly_toTree (d : DagNode) (h : d.fileOnly) :
    d.wellFormed ∧ d.toTree = .file d.bytes := by
  cases d with
  | leaf b => exact ⟨trivial, rfl⟩
  | node cs => exact ⟨h, rfl⟩
  | symlink s => exact absurd h (by simp [DagNode.fileOnly])
  | dir es => exact absurd h (by simp [DagNode.fileOnly])

mutual
/-- The import of a tree that is read without error succeeds, with a positive chunk
size and a fanout of two or more: it returns the CID of a DAG that describes the tree
and is built as the importer builds; the store keeps what it held, holds the block
of every sub-DAG, and every block put is stored under its digest. -/
theorem importNode_read (hash : Block → Nat) (cfg : ImportConfig)
    (hchunk : 0 < cfg.chunkSize) (hlinks : 2 ≤ cfg.maxLinks) :
    ∀ (t : Tree) (bs : Blockstore), ∃ (d : DagNode) (bs1 : Blockstore),
      importNode hash cfg t.read bs = .ok (d.cid hash, bs1) ∧
      d.wellFormed ∧ d.toTree = t ∧
      (∀ e ∈ bs, e ∈ bs1) ∧
      (∀ u ∈ d.subdags, (u.cid hash, u.block hash) ∈ bs1) ∧
      (∀ e ∈ bs1, e ∈ bs ∨ e.1 = hash e.2)
  | .file data, bs => by
    obtain ⟨d, b1, b2, b3⟩ := buildFile_ok cfg hchunk hlinks data
    obtain ⟨bs1, h1, h2, h3, h4⟩ := putDag_spec hash d bs
    obtain ⟨w1, w2⟩ := fileOnly_toTree d b2
    refine ⟨d, bs1, ?_, w1, by rw [w2, b3], h2, h3, h4⟩
    simp only [Tree.read, importNode, b1, h1]
  | .symlink s, bs => by
    obtain ⟨bs1, h1, h2, h3, h4⟩ := putDag_spec hash (.symlink s) bs
    refine ⟨.symlink s, bs1, ?_, trivial, rfl, h2, h3, h4⟩
    simp only [Tree.read, importNode, h1]
  | .dir es, bs => by
    obtain ⟨ds, bs1, h1, hw, ht, h2, h3, h4⟩ := importEntries_read hash cfg hchunk hlinks es bs
    obtain ⟨k2, k3, k4⟩ := stored_put hash bs bs1 (subdagsOf ds) (.dir ds) h2 h3 h4
    refine ⟨.dir ds, _, ?_, hw, by simp only [DagNode.toTree, ht], k2, k3, k4⟩
    simp only [Tree.read, importNode, h1]
    rfl
/-- The import of the entries of a directory that are read without error succeeds and
returns the links to DAGs that describe the entries, as in `importNode_read`. -/
theorem importEntries_read (hash : Block → Nat) (cfg : ImportConfig)
    (hchunk : 0 < cfg.chunkSize) (hlinks : 2 ≤ cfg.maxLinks) :
    ∀ (es : List (String × Tree)) (bs : Blockstore),
      ∃ (ds : List (String × DagNode)) (bs1 : Blockstore),
      importEntries hash cfg (readEntries es) bs = .ok (linksOf hash ds, bs1) ∧
      wellFormedOf ds ∧ toTreeOf ds = es ∧
      (∀ e ∈ bs, e ∈ bs1) ∧
      (∀ u ∈ subdagsOf ds, (u.cid hash, u.block hash) ∈ bs1) ∧
      (∀ e ∈ bs1, e ∈ bs ∨ e.1 = hash e.2)
  | [], bs =>
    ⟨[], bs, rfl, trivial, rfl, fun _ h => h, by simp [subdagsOf], fun _ h => Or.inl h⟩
  | (n, t) :: r, bs => by
    obtain ⟨d, bs1, h1, hw, ht, h2, h3, h4⟩ := importNode_read hash cfg hchunk hlinks t bs
    obtain ⟨ds, bs2, k1, kw, kt, k2, k3, k4⟩ :=
      importEntries_read hash cfg hchunk hlinks r bs1
    refine ⟨(n, d) :: ds, bs2, ?_, ⟨hw, kw⟩, by simp only [toTreeOf, ht, kt], ?_, ?_, ?_⟩
    · simp only [readEntries, importEntries, h1, k1, linksOf]
      rfl
    · intro e he; exact k2 e (h2 e he)
    · intro u hu
      simp only [subdagsOf, List.mem_append] at hu
      rcases hu with hu | hu
      · exact k2 _ (h3 u hu)
      · exact k3 u hu
    · intro e he
      rcases k4 e he with he | he
      · exact h4 e he
      · exact Or.inr he
end

/-- The traversal of a block without links that is in the store: the block is
written unless it has been written before. -/
theorem traverse_atom (hash : Block → Nat) (hinj : Function.Injective hash) (bs : Blockstore)
    (hbs : ∀ e ∈ bs, e.1 = hash e.2) (d : DagNode) (hsubs : d.subdags = [d])
    (hlinks : (d.block hash).links = [])
    (hsub : ∀ u ∈ d.subdags, (u.cid hash, u.block hash) ∈ bs)
    (fuel n : Nat) (out : List (Nat × Block)) (hf : d.size < fuel) (hn : d.size < n)
    (hc : Closed hash n out) :
    ∃ out1, traverse bs fuel (d.cid hash) out = .ok out1 ∧ Step hash n d.subdags out out1 := by
  obtain ⟨fuel, rfl⟩ : ∃ k, fuel = k + 1 := ⟨fuel - 1, by omega⟩
  by_cases hseen : d.cid hash ∈ out.map Prod.fst
  · exact ⟨out, by simp [traverse, hseen], hc, fun _ h => h, hc _ hseen hn,
      fun e he => Or.inl he⟩
  · have hget : Blockstore.Get bs (d.cid hash) = some (d.block hash) :=
      get_of_mem hash hinj bs hbs _ (hsub _ (DagNode.self_mem_subdags _))
    refine ⟨out ++ [(d.cid hash, d.block hash)], ?_, ?_, ?_, ?_, ?_⟩
    · simp [traverse, hseen, hget, hlinks, foldLinks]
    · intro u hu hs v hv
      simp only [List.map_append, List.map_cons, List.map_nil, List.mem_append,
        List.mem_singleton] at hu
      rcases hu with hu | hu
      · exact List.mem_append_left _ (hc u hu hs v hv)
      · have := cid_inj hash hinj _ _ hu
        subst this
        rw [hsubs, List.mem_singleton] at hv
        subst hv
        simp
    · intro e he; exact List.mem_append_left _ he
    · intro u hu
      rw [hsubs, List.mem_singleton] at hu
      subst hu
      simp
    · intro e he
      simp only [List.mem_append, List.mem_singleton] at he
      rcases he with he | he
      · exact Or.inl he
      · exact Or.inr ⟨_, DagNode.self_mem_subdags _, he⟩

/-- The traversal of a block with links, once the links are traversed: `d` is a DAG
whose block links to the children `es`, and `h` is what the traversal of the links
does from the blocks written so far and the block of `d`. -/
theorem traverse_links (hash : Block → Nat) (hinj : Function.Injective hash) (bs : Blockstore)
    (hbs : ∀ e ∈ bs, e.1 = hash e.2) (d : DagNode) (es : List (String × DagNode))
    (hsubs : d.subdags = d :: subdagsOf es) (hblock : (d.block hash).links = linksOf hash es)
    (hsize : d.size = 1 + sizeOfChildren es)
    (hsub : ∀ u ∈ d.subdags, (u.cid hash, u.block hash) ∈ bs)
    (fuel n : Nat) (out : List (Nat × Block)) (hn : d.size < n)
    (hc : Closed hash n out)
    (h : Closed hash d.size (out ++ [(d.cid hash, d.block hash)]) →
      ∃ out1, foldLinks (traverse bs fuel) (linksOf hash es)
          (out ++ [(d.cid hash, d.block hash)]) = .ok out1 ∧
        Step hash d.size (subdagsOf es) (out ++ [(d.cid hash, d.block hash)]) out1) :
    ∃ out1, traverse bs (fuel + 1) (d.cid hash) out = .ok out1 ∧
      Step hash n d.subdags out out1 := by
  by_cases hseen : d.cid hash ∈ out.map Prod.fst
  · exact ⟨out, by simp [traverse, hseen], hc, fun _ h => h, hc _ hseen hn,
      fun e he => Or.inl he⟩
  · have hget : Blockstore.Get bs (d.cid hash) = some (d.block hash) :=
      get_of_mem hash hinj bs hbs _ (hsub _ (DagNode.self_mem_subdags _))
    have hc1 : Closed hash d.size (out ++ [(d.cid hash, d.block hash)]) := by
      intro u hu hs v hv
      simp only [List.map_append, List.map_cons, List.map_nil, List.mem_append,
        List.mem_singleton] at hu
      rcases hu with hu | hu
      · exact List.mem_append_left _ (hc u hu (by omega) v hv)
      · have := cid_inj hash hinj _ _ hu
        subst this
        omega
    obtain ⟨out1, h1, h2, h3, h4, h5⟩ := h hc1
    have hself : (d.cid hash, d.block hash) ∈ out1 := h3 _ (by simp)
    have hall : ∀ u ∈ d.subdags, (u.cid hash, u.block hash) ∈ out1 := by
      intro u hu
      rw [hsubs, List.mem_cons] at hu
      rcases hu with hu | hu
      · subst hu; exact hself
      · exact h4 u hu
    refine ⟨out1, ?_, ?_, ?_, hall, ?_⟩
    · simp [traverse, hseen, hget, hblock, h1]
    · intro u hu hs v hv
      obtain ⟨e, he, hk⟩ := List.mem_map.mp hu
      rcases h5 e he with he1 | ⟨w, hw, he1⟩
      · simp only [List.mem_append, List.mem_singleton] at he1
        rcases he1 with he1 | he1
        · have hu1 : u.cid hash ∈ out.map Prod.fst := List.mem_map.mpr ⟨e, he1, hk⟩
          exact h3 _ (List.mem_append_left _ (hc u hu1 hs v hv))
        · rw [he1] at hk
          have := cid_inj hash hinj _ _ hk
          subst this
          exact hall v hv
      · rw [he1] at hk
        have := cid_inj hash hinj _ _ hk
        subst this
        exact h4 v (subdagsOf_trans es _ v hw hv)
    · intro e he; exact h3 e (List.mem_append_left _ he)
    · intro e he
      rcases h5 e he with he1 | ⟨w, hw, he1⟩
      · simp only [List.mem_append, List.mem_singleton] at he1
        rcases he1 with he1 | he1
        · exact Or.inl he1
        · exact Or.inr ⟨_, DagNode.self_mem_subdags _, he1⟩
      · exact Or.inr ⟨w, by rw [hsubs, List.mem_cons]; exact Or.inr hw, he1⟩

mutual
/-- Over a store that holds the block of every sub-DAG of `d`, the traversal from the
CID of `d` succeeds with enough fuel and writes the block of every sub-DAG of `d`,
and nothing but such blocks. -/
theorem traverse_dag (hash : Block → Nat) (hinj : Function.Injective hash) (bs : Blockstore)
    (hbs : ∀ e ∈ bs, e.1 = hash e.2) :
    ∀ (d : DagNode), (∀ u ∈ d.subdags, (u.cid hash, u.block hash) ∈ bs) →
      ∀ (fuel n : Nat) (out : List (Nat × Block)), d.size < fuel → d.size < n →
        Closed hash n out →
        ∃ out1, traverse bs fuel (d.cid hash) out = .ok out1 ∧ Step hash n d.subdags out out1
  | .leaf b, hsub, fuel, n, out, hf, hn, hc =>
    traverse_atom hash hinj bs hbs (.leaf b) rfl rfl hsub fuel n out hf hn hc
  | .symlink s, hsub, fuel, n, out, hf, hn, hc =>
    traverse_atom hash hinj bs hbs (.symlink s) rfl rfl hsub fuel n out hf hn hc
  | .node cs, hsub, fuel, n, out, hf, hn, hc => by
    obtain ⟨fuel, rfl⟩ : ∃ k, fuel = k + 1 := ⟨fuel - 1, by omega⟩
    have hsz : (DagNode.node cs).size = 1 + sizeOfChildren cs := by simp [DagNode.size]
    exact traverse_links hash hinj bs hbs (.node cs) cs rfl rfl hsz hsub fuel n out hn hc
      (fun hc1 => traverse_children hash hinj bs hbs cs
        (fun u hu => hsub u (by simp only [DagNode.subdags, List.mem_cons]; exact Or.inr hu))
        fuel _ _ (by omega) (by omega) hc1)
  | .dir es, hsub, fuel, n, out, hf, hn, hc => by
    obtain ⟨fuel, rfl⟩ : ∃ k, fuel = k + 1 := ⟨fuel - 1, by omega⟩
    have hsz : (DagNode.dir es).size = 1 + sizeOfChildren es := by simp [DagNode.size]
    exact traverse_links hash hinj bs hbs (.dir es) es rfl rfl hsz hsub fuel n out hn hc
      (fun hc1 => traverse_children hash hinj bs hbs es
        (fun u hu => hsub u (by simp only [DagNode.subdags, List.mem_cons]; exact Or.inr hu))
        fuel _ _ (by omega) (by omega) hc1)
/-- The traversal of the links to a list of children, as in `traverse_dag`. -/
theorem traverse_children (hash : Block → Nat) (hinj : Function.Injective hash)
    (bs : Blockstore) (hbs : ∀ e ∈ bs, e.1 = hash e.2) :
    ∀ (es : List (String × DagNode)),
      (∀ u ∈ subdagsOf es, (u.cid hash, u.block hash) ∈ bs) →
      ∀ (fuel n : Nat) (out : List (Nat × Block)), sizeOfChildren es < fuel →
        sizeOfChildren es < n → Closed hash n out →
        ∃ out1, foldLinks (traverse bs fuel) (linksOf hash es) out = .ok out1 ∧
          Step hash n (subdagsOf es) out out1
  | [], _, fuel, n, out, _, _, hc =>
    ⟨out, rfl, hc, fun _ h => h, by simp [subdagsOf], fun _ h => Or.inl h⟩
  | (name, t) :: r, hsub, fuel, n, out, hf, hn, hc => by
    have hsz : sizeOfChildren ((name, t) :: r) = t.size + sizeOfChildren r := by
      simp [sizeOfChildren]
    obtain ⟨out1, h1, h2, h3, h4, h5⟩ := traverse_dag hash hinj bs hbs t
      (fun u hu => hsub u (by simp only [subdagsOf, List.mem_append]; exact Or.inl hu))
      fuel n out (by omega) (by omega) hc
    obtain ⟨out2, k1, k2, k3, k4, k5⟩ := traverse_children hash hinj bs hbs r
      (fun u hu => hsub u (by simp only [subdagsOf, List.mem_append]; exact Or.inr hu))
      fuel n out1 (by omega) (by omega) h2
    refine ⟨out2, ?_, k2, fun e he => k3 e (h3 e he), ?_, ?_⟩
    · simp only [linksOf, foldLinks]
      have h1' : traverse bs fuel (hash (t.block hash)) out = .ok out1 := h1
      rw [h1']
      exact k1
    · intro u hu
      simp only [subdagsOf, List.mem_append] at hu
      rcases hu with hu | hu
      · exact k3 _ (h4 u hu)
      · exact k4 u hu
    · intro e he
      rcases k5 e he with he1 | ⟨w, hw, he1⟩
      · rcases h5 e he1 with he2 | ⟨w, hw, he2⟩
        · exact Or.inl he2
        · exact Or.inr ⟨w, by simp only [subdagsOf, List.mem_append]; exact Or.inl hw, he2⟩
      · exact Or.inr ⟨w, by simp only [subdagsOf, List.mem_append]; exact Or.inr hw, he1⟩
end

mutual
/-- Over a store in which the block of every sub-DAG of a DAG `d` of file content is
found under its CID, restoring from the CID of `d` yields the file with the bytes of
the leaves of `d` in order, with enough fuel. -/
theorem restore_file (hash : Block → Nat) (bs : Blockstore) :
    ∀ (d : DagNode), d.fileOnly →
      (∀ u ∈ d.subdags, Blockstore.Get bs (u.cid hash) = some (u.block hash)) →
      ∀ fuel : Nat, d.size < fuel → restore bs fuel (d.cid hash) = .ok (.file d.bytes)
  | .leaf b, _, hsub, fuel, hf => by
    obtain ⟨fuel, rfl⟩ : ∃ k, fuel = k + 1 := ⟨fuel - 1, by omega⟩
    have h := hsub _ (DagNode.self_mem_subdags _)
    simp only [restore, h, DagNode.block, DagNode.bytes]
  | .symlink s, hfile, _, _, _ => absurd hfile (by simp [DagNode.fileOnly])
  | .dir es, hfile, _, _, _ => absurd hfile (by simp [DagNode.fileOnly])
  | .node cs, hfile, hsub, fuel, hf => by
    obtain ⟨fuel, rfl⟩ : ∃ k, fuel = k + 1 := ⟨fuel - 1, by omega⟩
    have h := hsub _ (DagNode.self_mem_subdags _)
    have hsz : (DagNode.node cs).size = 1 + sizeOfChildren cs := by simp [DagNode.size]
    have hr := read_children hash bs cs hfile
      (fun u hu => hsub u (by simp only [DagNode.subdags, List.mem_cons]; exact Or.inr hu))
      fuel (by omega)
    simp only [restore, h, DagNode.block, hr, DagNode.bytes]
/-- Reading below the links of an internal node of a file yields the bytes of the
leaves below its children in order, as in `restore_file`. -/
theorem read_children (hash : Block → Nat) (bs : Blockstore) :
    ∀ (cs : List (String × DagNode)), fileOnlyOf cs →
      (∀ u ∈ subdagsOf cs, Blockstore.Get bs (u.cid hash) = some (u.block hash)) →
      ∀ fuel : Nat, sizeOfChildren cs < fuel →
        readLinks (restore bs fuel) (linksOf hash cs) = .ok (bytesOf cs)
  | [], _, _, _, _ => rfl
  | (name, d) :: r, hfile, hsub, fuel, hf => by
    have hsz : sizeOfChildren ((name, d) :: r) = d.size + sizeOfChildren r := by
      simp [sizeOfChildren]
    have h1 := restore_file hash bs d hfile.1
      (fun u hu => hsub u (by simp only [subdagsOf, List.mem_append]; exact Or.inl hu))
      fuel (by omega)
    have h2 := read_children hash bs r hfile.2
      (fun u hu => hsub u (by simp only [subdagsOf, List.mem_append]; exact Or.inr hu))
      fuel (by omega)
    have h1' : restore bs fuel (hash (d.block hash)) = .ok (.file d.bytes) := h1
    simp only [linksOf, readLinks, h1', h2, bytesOf]
end

mutual
/-- Over a store in which the block of every sub-DAG of a DAG `d` that is built as
the importer builds is found under its CID, restoring from the CID of `d` yields the
tree that `d` describes, with enough fuel. -/
theorem restore_dag (hash : Block → Nat) (bs : Blockstore) :
    ∀ (d : DagNode), d.wellFormed →
      (∀ u ∈ d.subdags, Blockstore.Get bs (u.cid hash) = some (u.block hash)) →
      ∀ fuel : Nat, d.size < fuel → restore bs fuel (d.cid hash) = .ok d.toTree
  | .leaf b, _, hsub, fuel, hf => restore_file hash bs (.leaf b) trivial hsub fuel hf
  | .node cs, hwf, hsub, fuel, hf => restore_file hash bs (.node cs) hwf hsub fuel hf
  | .symlink s, _, hsub, fuel, hf => by
    obtain ⟨fuel, rfl⟩ : ∃ k, fuel = k + 1 := ⟨fuel - 1, by omega⟩
    have h := hsub _ (DagNode.self_mem_subdags _)
    simp only [restore, h, DagNode.block, DagNode.toTree]
  | .dir es, hwf, hsub, fuel, hf => by
    obtain ⟨fuel, rfl⟩ : ∃ k, fuel = k + 1 := ⟨fuel - 1, by omega⟩
    have h := hsub _ (DagNode.self_mem_subdags _)
    have hsz : (DagNode.dir es).size = 1 + sizeOfChildren es := by simp [DagNode.size]
    have hr := restore_children hash bs es hwf
      (fun u hu => hsub u (by simp only [DagNode.subdags, List.mem_cons]; exact Or.inr hu))
      fuel (by omega)
    simp only [restore, h, DagNode.block, hr, DagNode.toTree]
/-- Restoring the links of a directory yields the entries that its children describe,
as in `restore_dag`. -/
theorem restore_children (hash : Block → Nat) (bs : Blockstore) :
    ∀ (es : List (String × DagNode)), wellFormedOf es →
      (∀ u ∈ subdagsOf es, Blockstore.Get bs (u.cid hash) = some (u.block hash)) →
      ∀ fuel : Nat, sizeOfChildren es < fuel →
        mapLinks (restore bs fuel) (linksOf hash es) = .ok (toTreeOf es)
  | [], _, _, _, _ => rfl
  | (name, d) :: r, hwf, hsub, fuel, hf => by
    have hsz : sizeOfChildren ((name, d) :: r) = d.size + sizeOfChildren r := by
      simp [sizeOfChildren]
    have h1 := restore_dag hash bs d hwf.1
      (fun u hu => hsub u (by simp only [subdagsOf, List.mem_append]; exact Or.inl hu))
      fuel (by omega)
    have h2 := restore_children hash bs r hwf.2
      (fun u hu => hsub u (by simp only [subdagsOf, List.mem_append]; exact Or.inr hu))
      fuel (by omega)
    have h1' : restore bs fuel (hash (d.block hash)) = .ok d.toTree := h1
    simp only [linksOf, mapLinks, h1', h2, toTreeOf]
end

/-- The store after loading holds what it held and the blocks of the archive. -/
theorem loadCar_mem (blocks : List (Nat × Block)) :
    ∀ (bs : Blockstore) (e : Nat × Block),
      e ∈ blocks.foldl (fun s e => Blockstore.Put s e.1 e.2) bs ↔ e ∈ bs ∨ e ∈ blocks := by
  induction blocks with
  | nil => intro bs e; simp
  | cons x rest ih =>
    intro bs e
    rw [List.foldl_cons, ih]
    simp only [Blockstore.Put, List.mem_cons]
    tauto

/-- With chunks of two bytes and at most two links in a node, the balanced layout
makes of a file of five bytes three leaves below two rounds of internal nodes. -/
theorem buildFile_balanced_sample :
    buildFile Sample.smallConfig [104, 101, 108, 108, 111]
      = .ok (.node [("", .node [("", .leaf [104, 101]), ("", .leaf [108, 108])]),
                    ("", .node [("", .leaf [111])])]) := rfl

/-- With chunks of one byte and at most two links in a node, the trickle layout puts
the first two bytes of a file of five right below the root and the others one level
further down. -/
theorem buildFile_trickle_sample :
    buildFile { chunkSize := 1, maxLinks := 2, layout := .TrickleLayout } [1, 2, 3, 4, 5]
      = .ok (.node [("", .leaf [1]), ("", .leaf [2]),
                    ("", .node [("", .leaf [3]), ("", .leaf [4])]),
                    ("", .node [("", .leaf [5])])]) := rfl

/-- C1. For every tree of regular files, symbolic links and directories that is read
without error, for a digest without collisions and for an importer with a positive
chunk size, a fanout of two or more and either layout, so that a file is cut into
chunks and becomes a DAG of leaves below internal nodes: with enough fuel,
`PackCarFormat` writes an archive and returns the string of the root CID, and
`UnpackCarFormat` on that archive restores, under the name given by that string, a
tree equal to the source tree: the same names, the same bytes in every file, the same
target in every symbolic link. -/
theorem pack_unpack_round_trip (hash : Block → Nat) (hinj : Function.Injective hash)
    (cidString : Nat → String) (cfg : ImportConfig) (hchunk : 0 < cfg.chunkSize)
    (hlinks : 2 ≤ cfg.maxLinks) (T : Tree) :
    ∃ (root bound : Nat), ∀ fuelPack fuelUnpack : Nat, bound ≤ fuelPack → bound ≤ fuelUnpack →
      ∃ car : CarFile,
        PackCarFormat hash cidString cfg fuelPack (some T.read) none
            = .ok (cidString root, car) ∧
          UnpackCarFormat cidString fuelUnpack (some car) (some true)
            = .ok (cidString root, T) := by
  obtain ⟨d, bs, hi1, hwf, htree, _, hi3, hi4⟩ :=
    importNode_read hash cfg hchunk hlinks T []
  have hbs : ∀ e ∈ bs, e.1 = hash e.2 := by
    intro e he
    rcases hi4 e he with h | h
    · simp at h
    · exact h
  refine ⟨d.cid hash, d.size + 1, fun fuelPack fuelUnpack hpack hunpack => ?_⟩
  obtain ⟨out, ht1, _, _, ht4, ht5⟩ := traverse_dag hash hinj bs hbs d hi3 fuelPack
    (d.size + 1) [] (by omega) (by omega) (by intro u hu; simp at hu)
  refine ⟨{ Roots := [d.cid hash], Blocks := out }, ?_, ?_⟩
  · simp only [PackCarFormat, BuildCar, Import, hi1, ht1]
  · have hkeyed : ∀ e ∈ out.foldl (fun s e => Blockstore.Put s e.1 e.2) [], e.1 = hash e.2 := by
      intro e he
      rw [loadCar_mem] at he
      rcases he with he | he
      · simp at he
      · rcases ht5 e he with h | ⟨u, _, h⟩
        · simp at h
        · rw [h]; rfl
    have hget : ∀ u ∈ d.subdags,
        Blockstore.Get (out.foldl (fun s e => Blockstore.Put s e.1 e.2) []) (u.cid hash)
          = some (u.block hash) := by
      intro u hu
      apply get_of_mem hash hinj _ hkeyed
      rw [loadCar_mem]
      exact Or.inr (ht4 u hu)
    have hroot := hget d (DagNode.self_mem_subdags d)
    have hres := restore_dag hash _ d hwf hget fuelUnpack (by omega)
    rw [htree] at hres
    simp only [UnpackCarFormat, LoadCar, List.head?, restoreFilesFromDag, hroot, hres]

theorem pack_unpack_round_trip_witness :
    ∃ (root bound : Nat), ∀ fuelPack fuelUnpack : Nat, bound ≤ fuelPack → bound ≤ fuelUnpack →
      ∃ car : CarFile,
        PackCarFormat Sample.digest toString Sample.smallConfig fuelPack
            (some Sample.helloWorld.read) none
            = .ok (toString root, car) ∧
          UnpackCarFormat toString fuelUnpack (some car) (some true)
            = .ok (toString root, Sample.helloWorld) :=
  pack_unpack_round_trip Sample.digest Sample.digest_injective toString Sample.smallConfig
    (by decide) (by decide) Sample.helloWorld

/-- A CID under which no block is stored is not found. -/
theorem get_none_of_not_mem :
    ∀ (bs : Blockstore) (c : Nat), c ∉ bs.map Prod.fst → Blockstore.Get bs c = none
  | [], _, _ => rfl
  | (k, b) :: rest, c, h => by
    simp only [List.map_cons, List.mem_cons, not_or] at h
    simp only [Blockstore.Get, if_neg (Ne.symm h.1)]
    exact get_none_of_not_mem rest c h.2

/-- C13. For every archive whose first declared root is the CID of none of its blocks,
`UnpackCarFormat` fails: with an output directory the root lookup of
`restoreFilesFromDag` fails and its error is the result, and whatever the output
path is, the result is an error, never a restored tree. -/
theorem unpack_missing_root (cidString : Nat → String) (fuel : Nat) (car : CarFile)
    (root : Nat) (rest : List Nat) (hroots : car.Roots = root :: rest)
    (hmissing : root ∉ car.Blocks.map Prod.fst) :
    restoreFilesFromDag (car.Blocks.foldl (fun s e => Blockstore.Put s e.1 e.2) []) fuel root
        = .error "failed to get root node: block not found" ∧
      UnpackCarFormat cidString fuel (some car) (some true)
        = .error "failed to get root node: block not found" ∧
      ∀ output : Option Bool, ∃ err,
        UnpackCarFormat cidString fuel (some car) output = .error err := by
  have hget : Blockstore.Get (car.Blocks.foldl (fun s e => Blockstore.Put s e.1 e.2) []) root
      = none := by
    apply get_none_of_not_mem
    intro hmem
    obtain ⟨e, he, hk⟩ := List.mem_map.mp hmem
    rw [loadCar_mem] at he
    rcases he with he | he
    · simp at he
    · exact hmissing (List.mem_map.mpr ⟨e, he, hk⟩)
  have hrestore : restoreFilesFromDag
      (car.Blocks.foldl (fun s e => Blockstore.Put s e.1 e.2) []) fuel root
        = .error "failed to get root node: block not found" := by
    simp only [restoreFilesFromDag, hget]
  have hunpack : UnpackCarFormat cidString fuel (some car) (some true)
        = .error "failed to get root node: block not found" := by
    simp only [UnpackCarFormat, LoadCar, hroots, List.head?, hrestore]
  refine ⟨hrestore, hunpack, fun output => ?_⟩
  cases output with
  | none => exact ⟨_, rfl⟩
  | some isDir =>
    cases isDir with
    | false => exact ⟨_, rfl⟩
    | true => exact ⟨_, hunpack⟩

theorem unpack_missing_root_witness :
    restoreFilesFromDag
        (({ Roots := [7], Blocks := [(3, .file [1])] } : CarFile).Blocks.foldl
          (fun s e => Blockstore.Put s e.1 e.2) []) 5 7
        = .error "failed to get root node: block not found" ∧
      UnpackCarFormat toString 5 (some { Roots := [7], Blocks := [(3, .file [1])] }) (some true)
        = .error "failed to get root node: block not found" ∧
      ∀ output : Option Bool, ∃ err,
        UnpackCarFormat toString 5 (some { Roots := [7], Blocks := [(3, .file [1])] }) output
          = .error err :=
  unpack_missing_root toString 5 { Roots := [7], Blocks := [(3, .file [1])] } 7 [] rfl
    (by decide)

end Car

/-! ## The requests of the HTTP API -/

namespace Api

/-- C15. For every read through `trailerReader.Read`: the byte count is the one the
body returned; when the body returns no error, no error is returned; when the body
returns an error and the trailer `X-Stream-Error` is not empty, the error returned is
a new error whose message is the trailer; when the body returns an error and the
trailer is empty, the error of the body is returned unchanged. -/
theorem trailerReader_read {ε : Type} (trailer : List (String × List String)) (n : Nat)
    (err : ε) :
    trailerReader.Read trailer (n, (none : Option ε)) = (n, none) ∧
      (trailerReader.Read trailer (n, some err)).1 = n ∧
      (headerGet trailer "X-Stream-Error" ≠ "" →
        (trailerReader.Read trailer (n, some err)).2
          = some (.errorsNew (headerGet trailer "X-Stream-Error"))) ∧
      (headerGet trailer "X-Stream-Error" = "" →
        (trailerReader.Read trailer (n, some err)).2 = some (.unchanged err)) := by
  refine ⟨rfl, ?_, ?_, ?_⟩
  · unfold trailerReader.Read
    simp only
    split <;> rfl
  · intro h
    unfold trailerReader.Read
    simp only [h, ne_eq, not_false_eq_true, if_true]
  · intro h
    unfold trailerReader.Read
    simp only [h, ne_eq, not_true_eq_false, if_false]

/-! ### The query of a request -/

/-- The values of a key, paired with the key again, are the pairs of that key. -/
theorem of_map_key (key : String) :
    ∀ v : Values, (Values.of v key).map (fun value => (key, value))
      = v.filter (fun p => p.1 = key)
  | [] => rfl
  | (k, x) :: rest => by
    have ih := of_map_key key rest
    unfold Values.of at ih ⊢
    by_cases h : k = key
    · simp only [List.filter_cons, h, decide_True, if_true, List.map_cons, ih]
    · simp only [List.filter_cons, h, decide_False, Bool.false_eq_true, if_false, ih]

/-- Two filters that no element passes together split the filter of their
disjunction, up to order. -/
theorem filter_append_filter_perm {α : Type} (p q : α → Bool) (hpq : ∀ x, ¬ (p x ∧ q x)) :
    ∀ l : List α, (l.filter p ++ l.filter q).Perm (l.filter (fun x => p x || q x))
  | [] => by simp
  | x :: l => by
    have ih := filter_append_filter_perm p q hpq l
    cases hp : p x <;> cases hq : q x
    · simpa [List.filter_cons, hp, hq] using ih
    · simp only [List.filter_cons, hp, hq, Bool.false_eq_true, if_false, if_true,
        Bool.or_true]
      exact List.perm_middle.trans (List.Perm.cons x ih)
    · simp only [List.filter_cons, hp, hq, Bool.false_eq_true, if_false, if_true,
        Bool.or_false, List.cons_append]
      exact List.Perm.cons x ih
    · exact absurd ⟨hp, hq⟩ (hpq x)

/-- Over distinct keys, the groups of the keys make up the pairs whose key is among
them, up to order. -/
theorem groups_perm (v : Values) :
    ∀ ks : List String, ks.Nodup →
      (ks.flatMap (fun key => v.filter (fun p => p.1 = key))).Perm
        (v.filter (fun p => decide (p.1 ∈ ks)))
  | [], _ => by simp
  | k :: ks, hnd => by
    rw [List.nodup_cons] at hnd
    have ih := groups_perm v ks hnd.2
    rw [List.flatMap_cons]
    refine ((List.Perm.append_left _ ih).trans
      (filter_append_filter_perm _ _ ?_ v)).trans (List.Perm.of_eq ?_)
    · intro x hx
      simp only [decide_eq_true_eq] at hx
      exact hnd.1 (hx.1 ▸ hx.2)
    · apply List.filter_congr
      intro x _
      simp only [List.mem_cons]
      by_cases h1 : x.1 = k <;> by_cases h2 : x.1 ∈ ks <;> simp [h1, h2]

/-- Over distinct keys, the pairs of one key among the groups are the group of that
key, in its order. -/
theorem groups_filter (v : Values) (key : String) :
    ∀ ks : List String, ks.Nodup →
      (ks.flatMap (fun k => v.filter (fun p => p.1 = k))).filter (fun p => p.1 = key)
        = if key ∈ ks then v.filter (fun p => p.1 = key) else []
  | [], _ => by simp
  | k :: ks, hnd => by
    rw [List.nodup_cons] at hnd
    have ih := groups_filter v key ks hnd.2
    rw [List.flatMap_cons, List.filter_append, ih, List.filter_filter]
    by_cases hk : k = key
    · subst hk
      have : (fun a : String × String => decide (a.1 = k) && decide (a.1 = k))
          = fun a => decide (a.1 = k) := by
        funext a; simp
      simp [hnd.1, this]
    · have hf : v.filter (fun a => decide (a.1 = key) && decide (a.1 = k)) = [] := by
        rw [List.filter_eq_nil_iff]
        intro a _
        simp only [Bool.and_eq_true, decide_eq_true_eq, not_and]
        intro h1 h2
        exact hk (h2.symm.trans h1)
      have hmem : (key ∈ k :: ks) ↔ key ∈ ks := by
        simp only [List.mem_cons]
        constructor
        · rintro (h | h)
          · exact absurd h.symm hk
          · exact h
        · exact Or.inr
      rw [hf, List.nil_append]
      by_cases hin : key ∈ ks
      · rw [if_pos hin, if_pos (hmem.2 hin)]
      · rw [if_neg hin, if_neg (fun h => hin (hmem.1 h))]

/-- The sorted keys of the values: distinct, ascending, and the keys of all pairs. -/
theorem sortedKeys (v : Values) :
    ((Values.keys v).insertionSort (· ≤ ·)).Nodup ∧
      ((Values.keys v).insertionSort (· ≤ ·)).Sorted (· ≤ ·) ∧
      ∀ p ∈ v, p.1 ∈ (Values.keys v).insertionSort (· ≤ ·) := by
  have hperm := List.perm_insertionSort (· ≤ ·) (Values.keys v)
  refine ⟨hperm.nodup_iff.2 (List.nodup_dedup _), List.sorted_insertionSort _ _, ?_⟩
  intro p hp
  rw [hperm.mem_iff]
  unfold Values.keys
  rw [List.mem_dedup]
  exact List.mem_map_of_mem _ hp

/-- The parameters as groups of pairs. -/
theorem params_eq (v : Values) :
    Values.params v
      = ((Values.keys v).insertionSort (· ≤ ·)).flatMap
          (fun key => v.filter (fun p => p.1 = key)) := by
  unfold Values.params
  congr 1
  funext key
  exact of_map_key key v

/-- The parameters are the pairs added, up to order. -/
theorem params_perm (v : Values) : (Values.params v).Perm v := by
  obtain ⟨hnd, _, hall⟩ := sortedKeys v
  rw [params_eq]
  refine (groups_perm v _ hnd).trans (List.Perm.of_eq ?_)
  rw [List.filter_eq_self]
  intro p hp
  simpa using hall p hp

/-- The keys of the parameters ascend. -/
theorem params_sorted (v : Values) : ((Values.params v).map Prod.fst).Sorted (· ≤ ·) := by
  obtain ⟨_, hs, _⟩ := sortedKeys v
  rw [params_eq, List.map_flatMap]
  unfold List.Sorted
  rw [List.pairwise_flatMap]
  constructor
  · intro key _
    rw [List.pairwise_map]
    apply List.pairwise_of_forall_mem_list
    intro a ha b hb
    simp only [List.mem_filter, decide_eq_true_eq] at ha hb
    rw [ha.2, hb.2]
  · refine List.Pairwise.imp ?_ hs
    intro a b hab x hx y hy
    simp only [List.mem_map, List.mem_filter, decide_eq_true_eq] at hx hy
    obtain ⟨p, ⟨_, hp⟩, rfl⟩ := hx
    obtain ⟨q, ⟨_, hq⟩, rfl⟩ := hy
    rw [hp, hq]
    exact hab

/-- The parameters of one key carry the values of the key in the order in which they
were added. -/
theorem params_of (v : Values) (key : String) :
    ((Values.params v).filter (fun p => p.1 = key)).map Prod.snd = Values.of v key := by
  obtain ⟨hnd, _, hall⟩ := sortedKeys v
  rw [params_eq, groups_filter v key _ hnd]
  unfold Values.of
  split
  · rfl
  · rename_i hnot
    have : v.filter (fun p => decide (p.1 = key)) = [] := by
      rw [List.filter_eq_nil_iff]
      intro p hp
      simp only [decide_eq_true_eq]
      intro h
      exact hnot (h ▸ hall p hp)
    rw [this]

/-- The values of a request: the arguments under `arg`, then the options. -/
theorem values_eq (r : Request) :
    r.values = r.Args.map (fun arg => ("arg", arg)) ++ r.Opts.getD [] := by
  have h1 : ∀ (args : List String) (acc : Values),
      args.foldl (fun vs arg => Values.Add vs "arg" arg) acc
        = acc ++ args.map (fun arg => ("arg", arg)) := by
    intro args
    induction args with
    | nil => intro acc; simp
    | cons a rest ih =>
      intro acc
      rw [List.foldl_cons, ih]
      simp [Values.Add]
  have h2 : ∀ (opts : StrMap) (acc : Values),
      opts.foldl (fun vs kv => Values.Add vs kv.1 kv.2) acc = acc ++ opts := by
    intro opts
    induction opts with
    | nil => intro acc; simp
    | cons a rest ih =>
      intro acc
      rw [List.foldl_cons, ih]
      simp [Values.Add]
  unfold Request.values
  simp only [h1, h2, List.nil_append]

/-- C16. For every request, `getURL` returns `ApiBase`, `/`, `Command`, `?` and the
query.  The query joins by `&` the parameters `key=value`, key and value escaped;
the parameters are one `arg` per argument and one per option and nothing else; their
keys ascend, so they are grouped by key; and the `arg` parameters carry the arguments
in argument order (followed by the value of an option named `arg`, if there is
one). -/
theorem getURL_query (escape : String → String) (r : Request) :
    ∃ params : List (String × String),
      r.getURL escape = r.ApiBase ++ "/" ++ r.Command ++ "?"
        ++ String.intercalate "&" (params.map (fun p => escape p.1 ++ "=" ++ escape p.2)) ∧
      params.Perm (r.Args.map (fun arg => ("arg", arg)) ++ r.Opts.getD []) ∧
      (params.map Prod.fst).Sorted (· ≤ ·) ∧
      (params.filter (fun p => p.1 = "arg")).map Prod.snd
        = r.Args ++ ((r.Opts.getD []).filter (fun p => p.1 = "arg")).map Prod.snd := by
  refine ⟨Values.params r.values, rfl, ?_, params_sorted _, ?_⟩
  · rw [← values_eq r]
    exact params_perm _
  · rw [params_of, values_eq]
    unfold Values.of
    rw [List.filter_append, List.map_append]
    congr 1
    have : (r.Args.map (fun arg => ("arg", arg))).filter (fun p => decide (p.1 = "arg"))
        = r.Args.map (fun arg => ("arg", arg)) := by
      rw [List.filter_eq_self]
      intro p hp
      obtain ⟨a, _, rfl⟩ := List.mem_map.mp hp
      simp
    rw [this, List.map_map]
    simp

/-! ### The options of a builder -/

/-- After `m[key] = value` the key holds the value and every other key is as before. -/
theorem lookup_set (key value k : String) :
    ∀ m : StrMap, StrMap.lookup (StrMap.set m key value) k
      = if key = k then some value else StrMap.lookup m k
  | [] => by simp [StrMap.set, StrMap.lookup]
  | (k1, v1) :: rest => by
    have ih := lookup_set key value k rest
    by_cases h1 : k1 = key
    · subst h1
      by_cases h2 : k1 = k <;> simp [StrMap.set, StrMap.lookup, h2]
    · by_cases h2 : k1 = k
      · subst h2
        have h3 : ¬ key = k1 := fun h => h1 h.symm
        simp [StrMap.set, StrMap.lookup, h1, h3]
      · simp [StrMap.set, StrMap.lookup, h1, h2, ih]

/-- The keys after `m[key] = value`: those before, and the key. -/
theorem mem_keys_set (key value k : String) :
    ∀ m : StrMap, k ∈ (StrMap.set m key value).map Prod.fst ↔ k ∈ m.map Prod.fst ∨ k = key
  | [] => by simp [StrMap.set]
  | (k1, v1) :: rest => by
    have ih := mem_keys_set key value k rest
    by_cases h1 : k1 = key
    · subst h1
      simp only [StrMap.set, if_true, List.map_cons, List.mem_cons]
      tauto
    · simp only [StrMap.set, h1, if_false, List.map_cons, List.mem_cons, ih]
      tauto

/-- The assignment keeps the keys of a map distinct. -/
theorem nodup_set (key value : String) :
    ∀ m : StrMap, (m.map Prod.fst).Nodup → ((StrMap.set m key value).map Prod.fst).Nodup
  | [], _ => by simp [StrMap.set]
  | (k1, v1) :: rest, h => by
    simp only [List.map_cons, List.nodup_cons] at h
    by_cases h1 : k1 = key
    · simp only [StrMap.set, h1, if_true, List.map_cons, List.nodup_cons]
      rw [← h1]
      exact h
    · simp only [StrMap.set, h1, if_false, List.map_cons, List.nodup_cons]
      refine ⟨?_, nodup_set key value rest h.2⟩
      rw [mem_keys_set]
      rintro (h2 | h2)
      · exact h.1 h2
      · exact h1 h2

/-- In a map with distinct keys an entry is what the lookup of its key finds. -/
theorem lookup_of_mem :
    ∀ m : StrMap, (m.map Prod.fst).Nodup → ∀ p ∈ m, StrMap.lookup m p.1 = some p.2
  | [], _, p, hp => by simp at hp
  | (k1, v1) :: rest, h, p, hp => by
    simp only [List.map_cons, List.nodup_cons] at h
    simp only [List.mem_cons] at hp
    rcases hp with hp | hp
    · subst hp
      simp [StrMap.lookup]
    · have hne : ¬ k1 = p.1 := by
        intro heq
        exact h.1 (heq ▸ List.mem_map_of_mem Prod.fst hp)
      simp only [StrMap.lookup, hne, if_false]
      exact lookup_of_mem rest h.2 p hp

/-- The options of a builder after a sequence of calls of `Option`: a map with
distinct keys in which every key holds the last value set for it, or what it held
before when no call sets it. -/
theorem options_after (sets : List (String × OptionValue)) :
    ∀ r : RequestBuilder, ((r.opts.getD []).map Prod.fst).Nodup →
      (((sets.foldl (fun b kv => b.Option kv.1 kv.2) r).opts.getD []).map Prod.fst).Nodup ∧
      (sets.foldl (fun b kv => b.Option kv.1 kv.2) r).args = r.args ∧
      ∀ key, StrMap.lookup ((sets.foldl (fun b kv => b.Option kv.1 kv.2) r).opts.getD []) key
        = match lastSet sets key with
          | some s => some s
          | none => StrMap.lookup (r.opts.getD []) key := by
  induction sets with
  | nil => intro r h; exact ⟨h, rfl, fun key => rfl⟩
  | cons kv rest ih =>
    intro r h
    obtain ⟨h1, h2, h3⟩ := ih (r.Option kv.1 kv.2) (nodup_set _ _ _ h)
    refine ⟨h1, h2, fun key => ?_⟩
    rw [List.foldl_cons, h3 key]
    cases hl : lastSet rest key with
    | some s => simp [lastSet, hl]
    | none =>
      simp only [lastSet, hl, RequestBuilder.Option, Option.getD_some, lookup_set]
      by_cases hk : kv.1 = key <;> simp [hk]

/-- C20. For every builder made by `HttpClient.Request` and any sequence of calls of
`Option`: the request that `Send` builds has the options of the builder as its
options, in place of the defaults of `NewRequest`; every key holds the last value set
for it and no other key is present; and every parameter of the request URL is an
`arg` with one of the arguments or an option with the last value set for its key, so
`encoding` and `stream-channels` appear only if they were set on the builder. -/
theorem send_options (client : HttpClient) (command : String) (args : List String)
    (sets : List (String × OptionValue)) :
    (sets.foldl (fun b kv => b.Option kv.1 kv.2) (client.Request command args)).request.Opts
        = (sets.foldl (fun b kv => b.Option kv.1 kv.2) (client.Request command args)).opts ∧
      (∀ key, StrMap.lookup
          ((sets.foldl (fun b kv => b.Option kv.1 kv.2)
            (client.Request command args)).request.Opts.getD []) key
        = lastSet sets key) ∧
      ∀ p ∈ Values.params
          (sets.foldl (fun b kv => b.Option kv.1 kv.2)
            (client.Request command args)).request.values,
        (p.1 = "arg" ∧ p.2 ∈ args) ∨ lastSet sets p.1 = some p.2 := by
  obtain ⟨h1, h2, h3⟩ := options_after sets (client.Request command args)
    (by simp [HttpClient.Request])
  have hlook : ∀ key, StrMap.lookup
      ((sets.foldl (fun b kv => b.Option kv.1 kv.2)
        (client.Request command args)).opts.getD []) key = lastSet sets key := by
    intro key
    rw [h3 key]
    cases lastSet sets key <;> simp [HttpClient.Request, StrMap.lookup]
  refine ⟨rfl, hlook, fun p hp => ?_⟩
  rw [(params_perm _).mem_iff, values_eq, List.mem_append] at hp
  rcases hp with hp | hp
  · obtain ⟨a, ha, rfl⟩ := List.mem_map.mp hp
    left
    refine ⟨rfl, ?_⟩
    have : (sets.foldl (fun b kv => b.Option kv.1 kv.2)
        (client.Request command args)).request.Args = args := by
      show (sets.foldl (fun b kv => b.Option kv.1 kv.2) (client.Request command args)).args
        = args
      rw [h2]
      rfl
    rw [← this]
    exact ha
  · right
    rw [← hlook]
    exact lookup_of_mem _ h1 p hp

end Api

/-! ## The extraction pipeline -/

namespace Pipeline

/-- A blocked goroutine stays blocked: from a state in which the writer is blocked no
step is possible, whatever the run. -/
theorem blocked_is_stuck (inp : Input) (s : State) (h : writerBlocked inp s) :
    next inp s = [] := by
  obtain ⟨h1, h2, h3, h4⟩ := h
  have h5 : ¬ s.moved = inp.chunks := by omega
  cases hr : s.result with
  | none => exact absurd hr h4
  | some r => simp [next, h1, h3, h5, hr]

/-- C14, the defect. When the extractor fails before it has read the archive, the one
step possible is its return with the error; after it `restoreFilesFromDag` has
returned the error, the pipe has not been closed, the goroutine is blocked in its
write, and no step is left: the goroutine stays blocked. -/
theorem writer_left_blocked :
    next extractorFails State.init
        = [{ State.init with result := some (some "permission denied") }] ∧
      ({ State.init with result := some (some "permission denied") } : State).closed = none ∧
      writerBlocked extractorFails { State.init with result := some (some "permission denied") } ∧
      next extractorFails { State.init with result := some (some "permission denied") } = [] := by
  refine ⟨by decide, rfl, ?_, by decide⟩
  unfold writerBlocked
  decide

/-- When the writer fails, it closes the pipe with the error, the extractor returns
that error, and the goroutine has ended: this side releases the other. -/
theorem writer_failure_closes :
    next writerFails State.init
        = [{ State.init with writerEnded := true, closed := some (some "block not found") }] ∧
      next writerFails
          { State.init with writerEnded := true, closed := some (some "block not found") }
        = [{ moved := 0, writerEnded := true, closed := some (some "block not found"),
             result := some (some "block not found") }] ∧
      next writerFails
          { moved := 0, writerEnded := true, closed := some (some "block not found"),
            result := some (some "block not found") } = [] := by
  refine ⟨by decide, by decide, by decide⟩

end Pipeline

/-! ## The record loop of `DagImportWithOpts` -/

namespace Dag

/-- When the terminal result is `io.EOF` or carries `Stats`, the loop ends after at
most one iteration more than the body has results. -/
theorem recordLoop_ends (terminal : DecodeResult)
    (hterm : terminal.err = some .EOF ∨ terminal.root.Stats ≠ none) :
    ∀ (results : List DecodeResult) (fuel : Nat) (out : DagImportOutput),
      results.length < fuel →
      (recordLoop fuel { results := results, terminal := terminal } out).isSome = true
  | [], fuel, out, hf => by
    obtain ⟨fuel, rfl⟩ : ∃ k, fuel = k + 1 := ⟨fuel - 1, by simp at hf; omega⟩
    simp only [recordLoop, Body.decode]
    rcases hterm with h | h
    · simp [h]
    · split
      · rfl
      · cases hs : terminal.root.Stats with
        | none => exact absurd hs h
        | some stats => rfl
  | res :: rest, fuel, out, hf => by
    obtain ⟨fuel, rfl⟩ : ∃ k, fuel = k + 1 := ⟨fuel - 1, by simp at hf; omega⟩
    simp only [List.length_cons, Nat.add_lt_add_iff_right] at hf
    simp only [recordLoop, Body.decode]
    split
    · rfl
    · cases hs : res.root.Stats with
      | some stats => rfl
      | none => exact recordLoop_ends terminal hterm rest fuel _ hf

/-- When every result, the terminal one included, is one on which the loop goes on,
the loop has not ended after any number of iterations. -/
theorem recordLoop_never_ends (terminal : DecodeResult) (hterm : terminal.goesOn) :
    ∀ (fuel : Nat) (results : List DecodeResult) (out : DagImportOutput),
      (∀ res ∈ results, res.goesOn) →
      recordLoop fuel { results := results, terminal := terminal } out = none
  | 0, _, _, _ => rfl
  | fuel + 1, [], out, _ => by
    simp only [recordLoop, Body.decode, if_neg hterm.1, hterm.2]
    exact recordLoop_never_ends terminal hterm fuel [] _ (by simp)
  | fuel + 1, res :: rest, out, h => by
    have hres := h res (List.mem_cons_self _ _)
    simp only [recordLoop, Body.decode, if_neg hres.1, hres.2]
    exact recordLoop_never_ends terminal hterm fuel rest _
      (fun r hr => h r (List.mem_cons_of_mem _ hr))

/-- C21, the defect. On a body that is cut off inside its first record, where every
call of `Decode` returns `io.ErrUnexpectedEOF`, the loop has not ended after any
number of iterations: it does not terminate. -/
theorem recordLoop_truncated_body :
    ¬ ∃ fuel, (recordLoop fuel truncatedBody emptyOutput).isSome = true := by
  rintro ⟨fuel, h⟩
  have hgo : truncatedBody.terminal.goesOn := ⟨by decide, rfl⟩
  have := recordLoop_never_ends truncatedBody.terminal hgo fuel [] emptyOutput (by simp)
  have hb : truncatedBody = { results := [], terminal := truncatedBody.terminal } := rfl
  rw [hb, this] at h
  simp at h

end Dag

end Urchin
